import Mathlib

/-!
# Elazar package manager: a shallow embedding of `elazar-package.cpp`

The definitions follow `src/bin/elazar-os/usr/bin/elazar-package.cpp` function by
function and keep its names.  Conventions of the embedding:

* `std::map<std::string, T>` is an association list kept in ascending key order
  (`StdMap`); `m[k]` on an absent key inserts a value-initialised entry, as in C++.
* `std::set`, `std::vector` and `std::queue` are lists (a queue is popped at the
  head and pushed at the tail).
* `while` loops run on fuel and return `none` when the fuel is used up; each loop
  comes with a lemma that the fuel handed to it is enough.
* machine integers are `Nat`/`Int`; none of the modelled computations can reach a
  wrap-around on inputs that fit in memory.  Where a value read from JSON is cast
  to an integer type, the cast is an explicit reduction modulo the width.
* a `std::string` is a `String`, that is, text in valid UTF-8; on such text the
  byte-wise comparison and search of `std::string` agree with comparison and
  search by characters.
* everything outside the repository that the code talks to (the HTTPS peer, the
  clock, `std::rand`, the JSON reader and writer) is collected in `Env`.
* the model is sequential.  Mutexes are not state, with one exception: a function
  that locks `cache_mutex` while its caller holds it never returns, which the
  cache operations report as `none`.
* an exception that no handler of the modelled code catches ends the call without
  a result: `create_directories` returns `none`, and the installation functions it
  leaves report `none` together with the state reached.
-/

namespace elazar

/-! ## `std::map` with string keys -/

/-- A `std::map<std::string, β>`: key/value pairs in ascending key order. -/
abbrev StdMap (β : Type) := List (String × β)

namespace StdMap

/-- Lexicographic comparison of character sequences by code point. -/
def ltChars : List Char → List Char → Bool
  | _, [] => false
  | [], _ :: _ => true
  | a :: as, b :: bs =>
    if a.toNat < b.toNat then true
    else if b.toNat < a.toNat then false
    else ltChars as bs

/-- The key order of the map, `std::less<std::string>`: byte-wise lexicographic
comparison, which on UTF-8 text is the lexicographic order of the code points. -/
def keyLt (a b : String) : Bool :=
  ltChars a.data b.data

/-- Lookup, `m.find(k)`: the value stored under `k`, if any. -/
def find {β : Type} : StdMap β → String → Option β
  | [], _ => none
  | (k', v) :: m, k => if k = k' then some v else find m k

/-- Membership test, `m.count(k) > 0`. -/
def count {β : Type} (m : StdMap β) (k : String) : Bool :=
  (find m k).isSome

/-- Overwrites the value stored under an existing key. -/
def replace {β : Type} : StdMap β → String → β → StdMap β
  | [], _, _ => []
  | (k', v') :: m, k, v => if k = k' then (k', v) :: m else (k', v') :: replace m k v

/-- Inserts a pair with a new key at its place in key order. -/
def insertNew {β : Type} : StdMap β → String → β → StdMap β
  | [], k, v => [(k, v)]
  | (k', v') :: m, k, v =>
    if keyLt k k' then (k, v) :: (k', v') :: m else (k', v') :: insertNew m k v

/-- Assignment `m[k] = v`: overwrites the value of an existing key, otherwise
inserts the pair at its place in key order. -/
def insert {β : Type} (m : StdMap β) (k : String) (v : β) : StdMap β :=
  if count m k then replace m k v else insertNew m k v

/-- Removal, `m.erase(k)`. -/
def erase {β : Type} : StdMap β → String → StdMap β
  | [], _ => []
  | (k', v') :: m, k => if k = k' then m else (k', v') :: erase m k

/-- Read access `m[k]`: the stored value, or the value-initialised default `d`
(which `operator[]` would insert) when the key is absent. -/
def getD {β : Type} (m : StdMap β) (k : String) (d : β) : β :=
  (find m k).getD d

/-- The map after an `m[k]` access: an absent key has been inserted with the
value-initialised default `d`. -/
def touch {β : Type} (m : StdMap β) (k : String) (d : β) : StdMap β :=
  if count m k then m else insert m k d

end StdMap

/-! ## Package records -/

/-- The `PackageInfo` struct.  `size` is a `uint64_t`, `release_date` the time
point in milliseconds since the epoch, `priority` an `int`. -/
structure PackageInfo where
  name : String
  version : String
  description : String
  dependencies : List String
  provides : List String
  conflicts : List String
  maintainer : String
  homepage : String
  license : String
  size : Nat
  sha256 : String
  architecture : String
  repository : String
  release_date : Int
  priority : Int
  installed : Bool
deriving DecidableEq

/-- The value-initialised record `PackageInfo{}`. -/
def PackageInfo.empty : PackageInfo :=
  { name := "", version := "", description := "", dependencies := [], provides := [],
    conflicts := [], maintainer := "", homepage := "", license := "", size := 0,
    sha256 := "", architecture := "", repository := "", release_date := 0,
    priority := 0, installed := false }

/-! ## JSON values and the conversions of `PackageInfo` -/

/-- A `nlohmann::json` value.  An object is a `std::map` from keys to values; a
floating-point number is represented by its integral part, which is all a
conversion to an integer type uses. -/
inductive Json where
  | null
  | boolean (b : Bool)
  | number_integer (n : Int)
  | number_unsigned (n : Nat)
  | number_float (integral : Int)
  | string (s : String)
  | array (elems : List Json)
  | object (members : List (String × Json))

namespace Json

/-- Construction of an object from an initializer list of key/value pairs: each
pair is `emplace`d, so the first value given for a key stays. -/
def ofPairs (pairs : List (String × Json)) : Json :=
  Json.object
    (pairs.foldl (fun m kv => if StdMap.count m kv.1 then m else StdMap.insert m kv.1 kv.2) [])

/-- `get<std::string>()`: `none` when the conversion throws. -/
def getString : Json → Option String
  | Json.string s => some s
  | _ => none

/-- The element conversions of `get<std::vector<std::string>>()`. -/
def getStringList : List Json → Option (List String)
  | [] => some []
  | j :: rest =>
    match getString j, getStringList rest with
    | some s, some l => some (s :: l)
    | _, _ => none

/-- `get<std::vector<std::string>>()`. -/
def getStrings : Json → Option (List String)
  | Json.array elems => getStringList elems
  | _ => none

/-- `get<bool>()`. -/
def getBool : Json → Option Bool
  | Json.boolean b => some b
  | _ => none

/-- The stored number as a mathematical integer, for the conversion to an integer
type other than the ones `nlohmann::json` stores (`unsigned long long`,
`long long`, `int`): numbers of all three kinds and booleans convert, anything
else throws. -/
def getNumber : Json → Option Int
  | Json.number_integer n => some n
  | Json.number_unsigned n => some n
  | Json.number_float integral => some integral
  | Json.boolean b => some (if b then 1 else 0)
  | _ => none

/-- `static_cast` to an unsigned integer type of `w` bits. -/
def wrapUnsigned (w : Nat) (i : Int) : Nat :=
  (i % 2 ^ w).toNat

/-- `static_cast` to a signed integer type of `w` bits. -/
def wrapSigned (w : Nat) (i : Int) : Int :=
  (i + 2 ^ (w - 1)) % 2 ^ w - 2 ^ (w - 1)

/-- `j.value(key, default_value)` on the members of an object `j`, with the
conversion `get` to the type of the default. -/
def value {α : Type} (members : StdMap Json) (key : String) (get : Json → Option α)
    (default_value : α) : Option α :=
  match StdMap.find members key with
  | some v => get v
  | none => some default_value

end Json

/-- `PackageInfo::toJson`.  The time point is a whole number of milliseconds. -/
def PackageInfo.toJson (r : PackageInfo) : Json :=
  Json.ofPairs
    [("name", Json.string r.name),
     ("version", Json.string r.version),
     ("description", Json.string r.description),
     ("dependencies", Json.array (r.dependencies.map Json.string)),
     ("provides", Json.array (r.provides.map Json.string)),
     ("conflicts", Json.array (r.conflicts.map Json.string)),
     ("maintainer", Json.string r.maintainer),
     ("homepage", Json.string r.homepage),
     ("license", Json.string r.license),
     ("size", Json.number_unsigned r.size),
     ("sha256", Json.string r.sha256),
     ("architecture", Json.string r.architecture),
     ("repository", Json.string r.repository),
     ("release_date", Json.number_integer r.release_date),
     ("priority", Json.number_integer r.priority),
     ("installed", Json.boolean r.installed)]

/-- `PackageInfo::fromJson`; `none` when it throws (`j` is not an object, or a
member has a type that does not convert). -/
def PackageInfo.fromJson : Json → Option PackageInfo
  | Json.object m => do
    let name ← Json.value m "name" Json.getString ""
    let version ← Json.value m "version" Json.getString ""
    let description ← Json.value m "description" Json.getString ""
    let dependencies ← Json.value m "dependencies" Json.getStrings []
    let provides ← Json.value m "provides" Json.getStrings []
    let conflicts ← Json.value m "conflicts" Json.getStrings []
    let maintainer ← Json.value m "maintainer" Json.getString ""
    let homepage ← Json.value m "homepage" Json.getString ""
    let license ← Json.value m "license" Json.getString ""
    let size ← Json.value m "size" Json.getNumber 0
    let sha256 ← Json.value m "sha256" Json.getString ""
    let architecture ← Json.value m "architecture" Json.getString ""
    let repository ← Json.value m "repository" Json.getString ""
    let release_date ← Json.value m "release_date" Json.getNumber 0
    let priority ← Json.value m "priority" Json.getNumber 0
    let installed ← Json.value m "installed" Json.getBool false
    pure
      { name := name, version := version, description := description,
        dependencies := dependencies, provides := provides, conflicts := conflicts,
        maintainer := maintainer, homepage := homepage, license := license,
        size := Json.wrapUnsigned 64 size, sha256 := sha256, architecture := architecture,
        repository := repository, release_date := Json.wrapSigned 64 release_date,
        priority := Json.wrapSigned 32 priority, installed := installed }
  | _ => none

/-- The field values fit the C++ types of the record: `size` a `uint64_t`,
`priority` an `int`, and `release_date` a time point of the system clock, which
counts nanoseconds in 64 bits. -/
def PackageInfo.WellTyped (r : PackageInfo) : Prop :=
  r.size < 2 ^ 64 ∧ (-(2 ^ 31) ≤ r.priority ∧ r.priority < 2 ^ 31) ∧
    (-(2 ^ 63) ≤ r.release_date * 1000000 ∧ r.release_date * 1000000 < 2 ^ 63)

/-- `DEPENDENCY_RESOLUTION_DEPTH`. -/
def DEPENDENCY_RESOLUTION_DEPTH : Nat := 50

/-- `PACKAGE_CACHE_SIZE`, one gigabyte. -/
def PACKAGE_CACHE_SIZE : Nat := 1000000000

/-! ## DependencyResolver -/

/-- The data members of `DependencyResolver` (the mutex is not state of the
sequential model). -/
structure DependencyResolver where
  package_database : StdMap PackageInfo
  reverse_dependencies : StdMap (List String)
deriving DecidableEq

namespace DependencyResolver

/-- A freshly constructed resolver. -/
def new : DependencyResolver :=
  { package_database := [], reverse_dependencies := [] }

/-- One round of the loop in `addPackage`:
`reverse_dependencies[dep].push_back(name)`. -/
def pushReverse (name : String) (rev : StdMap (List String)) (dep : String) :
    StdMap (List String) :=
  StdMap.insert rev dep (StdMap.getD rev dep [] ++ [name])

/-- `addPackage`: stores the record under its name and appends the name to the
reverse-dependency list of every dependency it lists. -/
def addPackage (r : DependencyResolver) (pkg : PackageInfo) : DependencyResolver :=
  { package_database := StdMap.insert r.package_database pkg.name pkg
    reverse_dependencies := pkg.dependencies.foldl (pushReverse pkg.name) r.reverse_dependencies }

/-- The resolver state after a sequence of `addPackage` calls on a fresh resolver. -/
def addAll (pkgs : List PackageInfo) : DependencyResolver :=
  pkgs.foldl addPackage new

/-- Local variables of `resolveDependencies`. -/
structure ResolveState where
  resolved : List String
  visited : List String
  to_process : List String
deriving DecidableEq

/-- The body of the `for` loop over `pkg.dependencies` in `resolveDependencies`. -/
def visitDep (recursive : Bool) (st : ResolveState) (dep : String) : ResolveState :=
  if dep ∈ st.visited then st
  else
    { resolved := st.resolved ++ [dep]
      visited := dep :: st.visited
      to_process := if recursive then st.to_process ++ [dep] else st.to_process }

/-- The `while` loop of `resolveDependencies`; `none` when the fuel runs out. -/
def resolveLoop (db : StdMap PackageInfo) (recursive : Bool) :
    Nat → ResolveState → Option ResolveState
  | 0, _ => none
  | fuel + 1, st =>
    match st.to_process with
    | [] => some st
    | current :: rest =>
      if st.resolved.length < DEPENDENCY_RESOLUTION_DEPTH then
        let st1 : ResolveState := { st with to_process := rest }
        match StdMap.find db current with
        | some pkg => resolveLoop db recursive fuel (pkg.dependencies.foldl (visitDep recursive) st1)
        | none => resolveLoop db recursive fuel st1
      else some st

/-- `resolveDependencies`: breadth-first walk of the stored dependency lists.  The
loop needs at most `DEPENDENCY_RESOLUTION_DEPTH + 1` rounds
(`resolveLoop_fuel_enough`). -/
def resolveDependencies (r : DependencyResolver) (package_name : String)
    (recursive : Bool) : List String :=
  match resolveLoop r.package_database recursive (DEPENDENCY_RESOLUTION_DEPTH + 2)
      { resolved := [], visited := [package_name], to_process := [package_name] } with
  | some st => st.resolved
  | none => []

/-- `findReverseDependencies`. -/
def findReverseDependencies (r : DependencyResolver) (package_name : String) : List String :=
  StdMap.getD r.reverse_dependencies package_name []

/-- `findReverseDependencies` together with the resolver state it leaves behind:
the `reverse_dependencies[package_name]` access is tracked with `touch`, so that a
state change through `operator[]` would show up in the second component. -/
def findReverseDependenciesState (r : DependencyResolver) (package_name : String) :
    List String × DependencyResolver :=
  if StdMap.count r.reverse_dependencies package_name then
    let rev := StdMap.touch r.reverse_dependencies package_name []
    (StdMap.getD rev package_name [], { r with reverse_dependencies := rev })
  else ([], r)

/-- The `for` loop over the conflict list in `checkConflicts`, on the current
content of `package_database`.  Every `package_database[conflict]` access is
tracked with `touch`. -/
def checkConflictsLoop : StdMap PackageInfo → List String → Bool × StdMap PackageInfo
  | db, [] => (false, db)
  | db, conflict :: rest =>
    if StdMap.count db conflict then
      let db2 := StdMap.touch db conflict PackageInfo.empty
      if (StdMap.getD db2 conflict PackageInfo.empty).installed then (true, db2)
      else checkConflictsLoop db2 rest
    else checkConflictsLoop db rest

/-- `checkConflicts`, returning the answer together with the resolver state it
leaves behind, so that a state change through `operator[]` would show up in the
second component. -/
def checkConflicts (r : DependencyResolver) (package_name : String) :
    Bool × DependencyResolver :=
  if StdMap.count r.package_database package_name then
    let db1 := StdMap.touch r.package_database package_name PackageInfo.empty
    let pkg := StdMap.getD db1 package_name PackageInfo.empty
    let res := checkConflictsLoop db1 pkg.conflicts
    (res.1, { r with package_database := res.2 })
  else (false, r)

/-- Local variables of `getInstallationOrder`. -/
structure OrderState where
  ordered : List String
  processed : List String
  indegree : StdMap Int
  queue : List String
deriving DecidableEq

/-- The inner counting loop of `getInstallationOrder`: the number of entries of a
dependency list that occur among the candidates. -/
def countCandidateDeps (packages : List String) : List String → Int
  | [] => 0
  | dep :: rest =>
    if dep ∈ packages then countCandidateDeps packages rest + 1
    else countCandidateDeps packages rest

/-- First loop of `getInstallationOrder`: the indegree of every candidate that has
a stored record. -/
def initIndegree (db : StdMap PackageInfo) (packages : List String) : StdMap Int :=
  packages.foldl
    (fun indegree pkg =>
      match StdMap.find db pkg with
      | some info => StdMap.insert indegree pkg (countCandidateDeps packages info.dependencies)
      | none => indegree)
    []

/-- One round of the second loop of `getInstallationOrder`: `indegree[pkg] == 0`
inserts a zero for a candidate without a record, and a candidate with indegree zero
is queued. -/
def seedStep (acc : StdMap Int × List String) (pkg : String) : StdMap Int × List String :=
  let indegree := StdMap.touch acc.1 pkg 0
  if StdMap.getD indegree pkg 0 = 0 then (indegree, acc.2 ++ [pkg]) else (indegree, acc.2)

/-- The body of the loop over `reverse_dependencies[current]`. -/
def relax (st : OrderState) (dependent : String) : OrderState :=
  if StdMap.count st.indegree dependent && !decide (dependent ∈ st.processed) then
    let v := StdMap.getD st.indegree dependent 0 - 1
    let indegree := StdMap.insert st.indegree dependent v
    if v = 0 then { st with indegree := indegree, queue := st.queue ++ [dependent] }
    else { st with indegree := indegree }
  else st

/-- The head of a round of the `while` loop of `getInstallationOrder`: `current` is
taken off the queue, appended to `ordered` and put into `processed`. -/
def dequeue (st : OrderState) (current : String) (rest : List String) : OrderState :=
  { st with queue := rest, ordered := st.ordered ++ [current],
            processed := current :: st.processed }

/-- One round of the `while` loop of `getInstallationOrder` for the dequeued
package `current`. -/
def orderStep (rev : StdMap (List String)) (st : OrderState) (current : String)
    (rest : List String) : OrderState :=
  match StdMap.find rev current with
  | some dependents => dependents.foldl relax (dequeue st current rest)
  | none => dequeue st current rest

/-- The `while (!queue.empty())` loop of `getInstallationOrder`; `none` when the
fuel runs out. -/
def orderLoop (rev : StdMap (List String)) : Nat → OrderState → Option OrderState
  | 0, _ => none
  | fuel + 1, st =>
    match st.queue with
    | [] => some st
    | current :: rest => orderLoop rev fuel (orderStep rev st current rest)

/-- The state in which `getInstallationOrder` enters its `while` loop. -/
def orderInit (r : DependencyResolver) (packages : List String) : OrderState :=
  let seeded := packages.foldl seedStep (initIndegree r.package_database packages, [])
  { ordered := [], processed := [], indegree := seeded.1, queue := seeded.2 }

/-- `getInstallationOrder`.  The loop needs at most `2 * packages.size()` rounds
(`orderLoop_fuel_enough`). -/
def getInstallationOrder (r : DependencyResolver) (packages : List String) : List String :=
  match orderLoop r.reverse_dependencies (2 * packages.length + 1) (orderInit r packages) with
  | some st => st.ordered
  | none => []

end DependencyResolver

/-! ## Strings and the file system -/

/-- Index of the last occurrence of `c` in a character sequence. -/
def lastIndexOf (c : Char) : List Char → Option Nat
  | [] => none
  | x :: xs =>
    match lastIndexOf c xs with
    | some i => some (i + 1)
    | none => if x = c then some 0 else none

/-- `s.find_last_of(c)`; `none` stands for `npos`.  Positions count characters; the
pieces cut at an ASCII character are the same as with byte positions. -/
def find_last_of (s : String) (c : Char) : Option Nat :=
  lastIndexOf c s.data

/-- `s.substr(pos, len)`. -/
def substr (s : String) (pos len : Nat) : String :=
  ⟨(s.data.drop pos).take len⟩

/-- `s.substr(pos)`. -/
def substrFrom (s : String) (pos : Nat) : String :=
  ⟨s.data.drop pos⟩

/-- Whether the first character sequence starts the second. -/
def beginsWith : List Char → List Char → Bool
  | [], _ => true
  | _ :: _, [] => false
  | a :: as, b :: bs => a = b && beginsWith as bs

/-- `boost::filesystem::path::parent_path`: the path up to its last `/`. -/
def parent_path (p : String) : String :=
  match find_last_of p '/' with
  | some i => substr p 0 i
  | none => ""

/-- The beginnings of a character sequence that end right before one of its `/`
characters, the shortest first. -/
def slashPrefixes : List Char → List (List Char)
  | [] => []
  | c :: rest =>
    (if c = '/' then [[]] else []) ++ (slashPrefixes rest).map (fun pre => c :: pre)

/-- The ancestors of a path: `p.parent_path()`, the parent path of that, and so
on as long as the result is not empty, the nearest first (`ancestors_eq_chain`). -/
def ancestors (p : String) : List String :=
  (((slashPrefixes p.data).filter (fun pre => pre ≠ [])).map (fun pre => String.mk pre)).reverse

/-- One entry of an archive as libarchive hands it out: its path name, whether
its file type is `AE_IFREG`, and the size and SHA-256 digest of its data. -/
structure ArchiveEntry where
  pathname : String
  regular : Bool
  size : Nat
  sha256 : String
deriving DecidableEq

/-- What the program can observe of a regular file: its size in bytes, the hex
digest `calculateSHA256` computes for it, and, when libarchive can open it, the
entries it yields until `archive_read_next_header` stops returning `ARCHIVE_OK`. -/
structure FileData where
  size : Nat
  sha256 : String
  archive : Option (List ArchiveEntry)
deriving DecidableEq

/-- The file system: regular files by path and the directories created so far.
Paths are compared as written (no resolution of `.`, `..`, `//` or links).
`create_directories` throws when it meets a regular file; the other file-system
calls are taken to succeed and not to throw. -/
structure FileSystem where
  files : StdMap FileData
  dirs : List String
deriving DecidableEq

namespace FileSystem

/-- `boost::filesystem::exists(path)`. -/
def pathExists (fs : FileSystem) (path : String) : Bool :=
  StdMap.count fs.files path || decide (path ∈ fs.dirs)

/-- `boost::filesystem::file_size(path)`. -/
def file_size (fs : FileSystem) (path : String) : Nat :=
  (StdMap.getD fs.files path { size := 0, sha256 := "", archive := none }).size

/-- `boost::filesystem::remove(path)`. -/
def remove (fs : FileSystem) (path : String) : FileSystem :=
  { files := StdMap.erase fs.files path, dirs := fs.dirs.filter (fun d => d ≠ path) }

/-- Writing a whole file through a `std::ofstream` opened on `path`. -/
def write (fs : FileSystem) (path : String) (data : FileData) : FileSystem :=
  { fs with files := StdMap.insert fs.files path data }

/-- The recursion of `boost::filesystem::create_directories` along a path and its
successive parent paths, the nearest first.  It stops at the first of them that is
a directory already, and creates the ones it passed on the way, the outermost
first; it fails (`none`: `create_directory` reports an error, which is thrown)
when it comes to one that is a regular file, and then creates nothing. -/
def createChain (fs : FileSystem) : List String → Option FileSystem
  | [] => some fs
  | path :: parents =>
    if path ∈ fs.dirs then some fs
    else if StdMap.count fs.files path then none
    else
      match createChain fs parents with
      | some fs1 => some { fs1 with dirs := fs1.dirs ++ [path] }
      | none => none

/-- `boost::filesystem::create_directories(path)`: `path` and every missing
ancestor of it are created.  `none` when the call throws: for the empty path, and
when `path` or the ancestor the recursion comes to exists as a regular file. -/
def create_directories (fs : FileSystem) (path : String) : Option FileSystem :=
  if path = "" then none else createChain fs (path :: ancestors path)

/-- `boost::filesystem::remove_all(path)`: the entry itself and everything below it. -/
def remove_all (fs : FileSystem) (path : String) : FileSystem :=
  let below : String → Bool := fun p => p = path || beginsWith (path ++ "/").data p.data
  { files := fs.files.filter (fun kv => !below kv.1), dirs := fs.dirs.filter (fun d => !below d) }

/-- Whether `path` names an entry directly inside directory `dir`, as
`directory_iterator(dir)` enumerates them. -/
def inDir (dir path : String) : Bool :=
  let pre := (dir ++ "/").data
  let base := path.data.drop pre.length
  beginsWith pre path.data && base ≠ [] && !base.contains '/'

end FileSystem

/-! ## The environment -/

/-- The answer to the HTTPS GET of `downloadPackage`: whether the status is `ok`,
and the body. -/
structure Response where
  ok : Bool
  body : FileData
deriving DecidableEq

/-- Everything the package manager talks to that is not code of the repository.
`fetch url` is the outcome of the request `downloadPackage` issues for `url`
(`none` when resolving, connecting, the handshake or the exchange throws);
`clock k` is the `k`-th reading of `system_clock::now()`; `indexDump` is the file
`saveCacheIndex` produces for a cache index (the text of `index_data.dump(2)`) and
`indexParse` what `loadCacheIndex` reads back from such a file; `rand k` is the
value of the `k`-th call of `std::rand()`; `jsonParse` is what `file >> index_data`
reads from a file (`none` when it throws). -/
structure Env where
  fetch : String → Option Response
  clock : Nat → Int
  indexDump : StdMap Int → FileData
  indexParse : FileData → StdMap Int
  rand : Nat → Nat
  jsonParse : FileData → Option Json

/-! ## PackageCache -/

/-- The data members of `PackageCache`.  Time points are clock ticks. -/
structure PackageCache where
  cache_dir : String
  max_size : Nat
  cache_index : StdMap Int
deriving DecidableEq

namespace PackageCache

/-- `isCached`. -/
def isCached (c : PackageCache) (package_name version : String) : Bool :=
  StdMap.count c.cache_index (package_name ++ "-" ++ version)

/-- `getCachePath`. -/
def getCachePath (c : PackageCache) (package_name version : String) : String :=
  c.cache_dir ++ "/" ++ package_name ++ "-" ++ version ++ ".pkg"

/-- The path of the index file. -/
def indexFile (c : PackageCache) : String :=
  c.cache_dir ++ "/cache_index.json"

/-- `saveCacheIndex`. -/
def saveCacheIndex (env : Env) (c : PackageCache) (fs : FileSystem) : FileSystem :=
  fs.write (indexFile c) (env.indexDump c.cache_index)

/-- `getCacheSize`: the sizes of all regular files directly in `cache_dir`. -/
def getCacheSize (c : PackageCache) (fs : FileSystem) : Nat :=
  ((fs.files.filter (fun kv => FileSystem.inDir c.cache_dir kv.1)).map (fun kv => kv.2.size)).sum

/-- `removeFromCache`.  `locked` tells whether the calling thread already holds
`cache_mutex`: the `lock_guard` of a `std::mutex` its own thread holds never
acquires it, so the call does not return (`none`). -/
def removeFromCache (env : Env) (locked : Bool) (c : PackageCache) (fs : FileSystem)
    (package_name version : String) : Option (PackageCache × FileSystem) :=
  if locked then none
  else
    let cache_key := package_name ++ "-" ++ version
    let cache_path := getCachePath c package_name version
    let fs1 := if fs.pathExists cache_path then fs.remove cache_path else fs
    let c1 : PackageCache := { c with cache_index := StdMap.erase c.cache_index cache_key }
    some (c1, saveCacheIndex env c1 fs1)

/-- Insertion into a list ordered by time stamp, after the entries that are not
newer. -/
def insertByTime (e : String × Int) : List (String × Int) → List (String × Int)
  | [] => [e]
  | x :: xs => if e.2 < x.2 then e :: x :: xs else x :: insertByTime e xs

/-- The `std::sort` call of `enforceCacheSize`: ascending by time stamp.  Entries
with equal time stamps, whose order `std::sort` leaves open, stay in key order. -/
def sortByTime (l : List (String × Int)) : List (String × Int) :=
  l.foldl (fun acc e => insertByTime e acc) []

/-- The `for` loop of `enforceCacheSize` over the sorted snapshot of the index.
`current_size` is a `uint64_t`. -/
def evictLoop (env : Env) (locked : Bool) :
    List (String × Int) → Nat → PackageCache → FileSystem → Option (PackageCache × FileSystem)
  | [], _, c, fs => some (c, fs)
  | (cache_key, _) :: rest, current_size, c, fs =>
    if current_size ≤ c.max_size then some (c, fs)
    else
      match find_last_of cache_key '-' with
      | some dash_pos =>
        let package_name := substr cache_key 0 dash_pos
        let version := substrFrom cache_key (dash_pos + 1)
        match removeFromCache env locked c fs package_name version with
        | none => none
        | some (c1, fs1) =>
          let cache_path := getCachePath c1 package_name version
          let current_size1 :=
            if fs1.pathExists cache_path then
              (current_size + 2 ^ 64 - fs1.file_size cache_path % 2 ^ 64) % 2 ^ 64
            else current_size
          evictLoop env locked rest current_size1 c1 fs1
      | none => evictLoop env locked rest current_size c fs

/-- `enforceCacheSize`, called with `cache_mutex` held (`locked`, from
`addToCache`) or not (from the constructor). -/
def enforceCacheSize (env : Env) (locked : Bool) (c : PackageCache) (fs : FileSystem) :
    Option (PackageCache × FileSystem) :=
  let current_size := getCacheSize c fs
  if current_size ≤ c.max_size then some (c, fs)
  else evictLoop env locked (sortByTime c.cache_index) current_size c fs

/-- `addToCache` at clock reading `now`: it takes `cache_mutex` and keeps it while
`enforceCacheSize` runs.  `none`: the call does not return. -/
def addToCache (env : Env) (c : PackageCache) (fs : FileSystem)
    (package_name version : String) (now : Int) : Option (PackageCache × FileSystem) :=
  let c1 : PackageCache :=
    { c with cache_index := StdMap.insert c.cache_index (package_name ++ "-" ++ version) now }
  enforceCacheSize env true c1 (saveCacheIndex env c1 fs)

/-- `loadCacheIndex`. -/
def loadCacheIndex (env : Env) (c : PackageCache) (fs : FileSystem) : PackageCache :=
  match StdMap.find fs.files (indexFile c) with
  | some data =>
    { c with cache_index := (env.indexParse data).foldl (fun m kv => StdMap.insert m kv.1 kv.2) c.cache_index }
  | none => c

/-- The constructor of `PackageCache`: creates the directory, loads the index and
enforces the budget, without holding `cache_mutex`.  `none` when
`create_directories` throws. -/
def new (env : Env) (dir : String) (max_size_bytes : Nat) (fs : FileSystem) :
    Option (PackageCache × FileSystem) :=
  match fs.create_directories dir with
  | none => none
  | some fs1 =>
    let c := loadCacheIndex env { cache_dir := dir, max_size := max_size_bytes, cache_index := [] } fs1
    enforceCacheSize env false c fs1

end PackageCache

/-! ## PackageDownloader -/

namespace PackageDownloader

/-- The digit `std::hex` prints for a value below 16: lower case, since the
stream is never put into `std::uppercase`. -/
def hexDigit (n : Nat) : Char :=
  if n < 10 then Char.ofNat (48 + n) else Char.ofNat (87 + n)

/-- One round of the output loop of `calculateSHA256`:
`ss << std::hex << std::setw(2) << std::setfill('0') << (int)hash[i]`. -/
def hexByte (b : Nat) : List Char :=
  [hexDigit (b / 16), hexDigit (b % 16)]

/-- The output loop of `calculateSHA256` over the bytes of the hash. -/
def hexDigest (hash : List Nat) : String :=
  ⟨hash.foldl (fun acc b => acc ++ hexByte b) []⟩

/-- `calculateSHA256`: the empty string when the file cannot be opened. -/
def calculateSHA256 (fs : FileSystem) (file_path : String) : String :=
  match StdMap.find fs.files file_path with
  | some data => data.sha256
  | none => ""

/-- `downloadPackage`: the result and the file system it leaves.  The request is
determined by `url`; the limit on concurrent downloads is not part of the
sequential model, and the output stream is taken to open. -/
def downloadPackage (env : Env) (fs : FileSystem) (url output_path expected_sha256 : String) :
    Bool × FileSystem :=
  match env.fetch url with
  | none => (false, fs)
  | some res =>
    if res.ok then
      let fs1 := fs.write output_path res.body
      if expected_sha256 ≠ "" then
        let actual_sha256 := calculateSHA256 fs1 output_path
        if actual_sha256 ≠ expected_sha256 then (false, fs1.remove output_path)
        else (true, fs1)
      else (true, fs1)
    else (false, fs)

end PackageDownloader

/-! ## PackageInstaller -/

namespace PackageInstaller

/-- One round of the entry loop of `extractPackage`; `none` when
`create_directories` throws.  The output stream opens unless the destination is a
directory. -/
def extractEntry (extract_path : String) (fs : FileSystem) (entry : ArchiveEntry) :
    Option FileSystem :=
  let entry_path := extract_path ++ "/" ++ entry.pathname
  match fs.create_directories (parent_path entry_path) with
  | none => none
  | some fs1 =>
    if entry.regular && !decide (entry_path ∈ fs1.dirs) && entry_path.data.getLast? ≠ some '/' then
      some (fs1.write entry_path { size := entry.size, sha256 := entry.sha256, archive := none })
    else some fs1

/-- The `while` loop of `extractPackage` over the entries of the archive:
`some true` with the file system it leaves when it runs to the end, after which
`extractPackage` returns true; `none` with the file system reached when
`create_directories` throws for an entry, the exception leaving `extractPackage`,
which catches nothing. -/
def extractLoop (extract_path : String) : FileSystem → List ArchiveEntry → Option Bool × FileSystem
  | fs, [] => (some true, fs)
  | fs, entry :: rest =>
    match extractEntry extract_path fs entry with
    | some fs1 => extractLoop extract_path fs1 rest
    | none => (none, fs)

/-- `extractPackage`: `some b` when it returns `b`, `none` when an exception of
`create_directories` leaves it, and the file system reached. -/
def extractPackage (install_root : String) (fs : FileSystem) (archive_path : String)
    (pkg : PackageInfo) : Option Bool × FileSystem :=
  match (StdMap.find fs.files archive_path).bind (fun data => data.archive) with
  | none => (some false, fs)
  | some entries =>
    let extract_path := install_root ++ "/packages/" ++ pkg.name
    match fs.create_directories extract_path with
    | some fs1 => extractLoop extract_path fs1 entries
    | none => (none, fs)

/-- `installPackage` of the installer: the result (`none` when an exception leaves
`extractPackage`, and with it `installPackage`, which catches nothing), the
resolver and the file system it leaves (`runPostInstallScript` only logs). -/
def installPackage (install_root : String) (resolver : DependencyResolver) (fs : FileSystem)
    (pkg : PackageInfo) (package_path : String) :
    Option Bool × DependencyResolver × FileSystem :=
  let checked := resolver.checkConflicts pkg.name
  if checked.1 then (some false, checked.2, fs)
  else
    let extracted := extractPackage install_root fs package_path pkg
    match extracted.1 with
    | none => (none, checked.2, extracted.2)
    | some false => (some false, checked.2, extracted.2)
    | some true => (some true, checked.2.addPackage { pkg with installed := true }, extracted.2)

/-- `removePackage` of the installer: the result, the resolver and the file system
it leaves. -/
def removePackage (install_root : String) (resolver : DependencyResolver) (fs : FileSystem)
    (package_name : String) : Bool × DependencyResolver × FileSystem :=
  let found := resolver.findReverseDependenciesState package_name
  let dependents := found.1
  if dependents ≠ [] then (false, found.2, fs)
  else
    let package_dir := install_root ++ "/packages/" ++ package_name
    (true, found.2, if fs.pathExists package_dir then fs.remove_all package_dir else fs)

end PackageInstaller

/-! ## RepositoryManager and ElazarPackageManager -/

/-- `RepositoryManager::getPackageInfo` on the merged index. -/
def getPackageInfo (package_index : StdMap PackageInfo) (name : String) : PackageInfo :=
  if StdMap.count package_index name then StdMap.getD package_index name PackageInfo.empty
  else PackageInfo.empty

/-- The search of `std::string::find`: the first position, counted from `pos`, at
which `q` starts in the rest `s` of the string; `none` stands for `npos`. -/
def strFindFrom (q : List Char) : List Char → Nat → Option Nat
  | [], pos => if q = [] then some pos else none
  | c :: rest, pos =>
    if beginsWith q (c :: rest) then some pos else strFindFrom q rest (pos + 1)

/-- `s.find(q)`. -/
def strFind (s q : String) : Option Nat :=
  strFindFrom q.data s.data 0

/-- The string `q` occurs in `s` as a substring. -/
def Occurs (q s : String) : Prop :=
  ∃ pre post : List Char, s.data = pre ++ q.data ++ post

/-- What a range-based `for` over a json value visits: the elements of an array,
the values of an object, nothing for `null`, and any other value itself. -/
def Json.elements : Json → List Json
  | Json.array elems => elems
  | Json.object members => members.map Prod.snd
  | Json.null => []
  | j => [j]

/-- The data members of `RepositoryManager` that the model keeps: the list of
origins and the merged index. -/
structure RepositoryManager where
  repositories : List String
  package_index : StdMap PackageInfo

namespace RepositoryManager

/-- The constructor: the two default origins and an empty index. -/
def new : RepositoryManager :=
  { repositories := ["https://packages.elazar-os.org/stable",
                     "https://packages.elazar-os.org/unstable"]
    package_index := [] }

/-- `addRepository`. -/
def addRepository (rm : RepositoryManager) (url : String) : RepositoryManager :=
  { rm with repositories := rm.repositories ++ [url] }

/-- The body of the loop of `searchPackages` for one entry of the index. -/
def searchStep (query : String) (results : List PackageInfo) (entry : String × PackageInfo) :
    List PackageInfo :=
  if (strFind entry.1 query).isSome || (strFind entry.2.description query).isSome then
    results ++ [entry.2]
  else results

/-- `searchPackages`. -/
def searchPackages (rm : RepositoryManager) (query : String) : List PackageInfo :=
  rm.package_index.foldl (searchStep query) []

/-- The loop of `updatePackageIndex` over the elements of a parsed document.  When
`fromJson` throws, the loop is left for the `catch` block, with the records merged
so far in place. -/
def mergeRecords (repo_url : String) : StdMap PackageInfo → List Json → StdMap PackageInfo
  | package_index, [] => package_index
  | package_index, pkg_json :: rest =>
    match PackageInfo.fromJson pkg_json with
    | some pkg =>
      mergeRecords repo_url
        (StdMap.insert package_index pkg.name { pkg with repository := repo_url }) rest
    | none => package_index

/-- One round of the loop of `updatePackageIndex`, for the origin `repo_url`, on
the merged index, the file system and the number of `std::rand()` calls made. -/
def updateOne (env : Env) (st : StdMap PackageInfo × FileSystem × Nat) (repo_url : String) :
    StdMap PackageInfo × FileSystem × Nat :=
  let index_url := repo_url ++ "/packages.json"
  let temp_file := "/tmp/package_index_" ++ Nat.repr (env.rand st.2.2) ++ ".json"
  let dl := PackageDownloader.downloadPackage env st.2.1 index_url temp_file ""
  if dl.1 then
    let package_index :=
      match (StdMap.find dl.2.files temp_file).bind env.jsonParse with
      | some index_data => mergeRecords repo_url st.1 index_data.elements
      | none => st.1
    (package_index, dl.2.remove temp_file, st.2.2 + 1)
  else (st.1, dl.2, st.2.2 + 1)

/-- `updatePackageIndex`: the manager, the file system and the number of
`std::rand()` calls it leaves. -/
def updatePackageIndex (env : Env) (rm : RepositoryManager) (fs : FileSystem) (rand_calls : Nat) :
    RepositoryManager × FileSystem × Nat :=
  let st := rm.repositories.foldl (updateOne env) (rm.package_index, fs, rand_calls)
  ({ rm with package_index := st.1 }, st.2.1, st.2.2)

end RepositoryManager

/-- The elements of the index document of an origin that `updatePackageIndex`
loops over: none when the download fails or the document does not parse. -/
def originElements (env : Env) (repo_url : String) : List Json :=
  match env.fetch (repo_url ++ "/packages.json") with
  | some res =>
    if res.ok then
      match env.jsonParse res.body with
      | some index_data => index_data.elements
      | none => []
    else []
  | none => []

/-- The records of a list of document elements up to the first one `fromJson`
throws on. -/
def parsedPrefix : List Json → List PackageInfo
  | [] => []
  | j :: rest =>
    match PackageInfo.fromJson j with
    | some pkg => pkg :: parsedPrefix rest
    | none => []

/-- The keys of the map ascend. -/
def StdMap.Ascending {β : Type} (m : StdMap β) : Prop :=
  List.Pairwise (fun a b => StdMap.keyLt a.1 b.1 = true) m

/-- A merged index: the keys ascend, and every record is stored under its name. -/
def IsMergedIndex (package_index : StdMap PackageInfo) : Prop :=
  StdMap.Ascending package_index ∧ ∀ entry ∈ package_index, entry.2.name = entry.1

/-- The calls the package manager makes to its downloader and installer that
returned, with their results; kept as a log so that claims about them can be
stated. -/
inductive Event where
  | download (url output_path expected_sha256 : String) (ok : Bool)
  | install (name : String) (ok : Bool)
deriving DecidableEq

/-- The state of `ElazarPackageManager`: the merged index of its repository
manager, its resolver and cache, the file system, the two counters
(`uint64_t`), the number of clock readings taken and the log of calls. -/
structure ElazarPackageManager where
  package_index : StdMap PackageInfo
  dependency_resolver : DependencyResolver
  package_cache : PackageCache
  install_root : String
  fs : FileSystem
  total_packages_installed : Nat
  total_packages_downloaded : Nat
  clock_reads : Nat
  trace : List Event
deriving DecidableEq

namespace ElazarPackageManager

/-- The download calls logged so far. -/
def downloads (m : ElazarPackageManager) : List Event :=
  m.trace.filter (fun e => match e with | Event.download _ _ _ _ => true | _ => false)

/-- The names passed to the installer so far for which it returned true. -/
def installedNames (m : ElazarPackageManager) : List String :=
  m.trace.filterMap (fun e => match e with | Event.install n true => some n | _ => none)

/-- One round of the install loop of `installPackage` for the name `pkg`.  The
first component is `some true` when the loop goes on, `some false` when
`installPackage` returns false, and `none` when `addToCache` does not return or an
exception leaves the installer. -/
def installOne (env : Env) (m : ElazarPackageManager) (pkg : String) :
    Option Bool × ElazarPackageManager :=
  let current_pkg := getPackageInfo m.package_index pkg
  if current_pkg.installed then (some true, m)
  else
    let package_url := current_pkg.repository ++ "/packages/" ++ current_pkg.name ++ "-" ++
      current_pkg.version ++ ".pkg"
    let cache_path := m.package_cache.getCachePath current_pkg.name current_pkg.version
    let install : ElazarPackageManager → Option Bool × ElazarPackageManager := fun m1 =>
      let res := PackageInstaller.installPackage m1.install_root m1.dependency_resolver m1.fs
        current_pkg cache_path
      match res.1 with
      | none => (none, { m1 with dependency_resolver := res.2.1, fs := res.2.2 })
      | some ok =>
        let m2 : ElazarPackageManager :=
          { m1 with dependency_resolver := res.2.1, fs := res.2.2,
                    trace := m1.trace ++ [Event.install current_pkg.name ok] }
        if !ok then (some false, m2)
        else (some true, { m2 with
          total_packages_installed := (m2.total_packages_installed + 1) % 2 ^ 64 })
    if !m.package_cache.isCached current_pkg.name current_pkg.version then
      let dl := PackageDownloader.downloadPackage env m.fs package_url cache_path current_pkg.sha256
      let m1 : ElazarPackageManager :=
        { m with fs := dl.2,
                 trace := m.trace ++ [Event.download package_url cache_path current_pkg.sha256 dl.1] }
      if !dl.1 then (some false, m1)
      else
        match m1.package_cache.addToCache env m1.fs current_pkg.name current_pkg.version
            (env.clock m1.clock_reads) with
        | none => (none, { m1 with clock_reads := m1.clock_reads + 1 })
        | some (c, fs2) =>
          install { m1 with package_cache := c, fs := fs2, clock_reads := m1.clock_reads + 1,
                            total_packages_downloaded := (m1.total_packages_downloaded + 1) % 2 ^ 64 }
    else install m

/-- The `for` loop of `installPackage` over the installation order. -/
def installLoop (env : Env) : ElazarPackageManager → List String → Option Bool × ElazarPackageManager
  | m, [] => (some true, m)
  | m, pkg :: rest =>
    match installOne env m pkg with
    | (some true, m1) => installLoop env m1 rest
    | (outcome, m1) => (outcome, m1)

/-- `ElazarPackageManager::installPackage`: `some b` when the call returns `b`,
`none` when it does not return or an exception leaves it, and the state reached. -/
def installPackage (env : Env) (m : ElazarPackageManager) (package_name : String) :
    Option Bool × ElazarPackageManager :=
  let pkg_info := getPackageInfo m.package_index package_name
  if pkg_info.name = "" then (some false, m)
  else
    let dependencies := m.dependency_resolver.resolveDependencies package_name true ++ [package_name]
    let install_order := m.dependency_resolver.getInstallationOrder dependencies
    installLoop env m install_order

end ElazarPackageManager

/-! ## The URL of a download -/

namespace PackageDownloader

/-- `isspace` in the "C" locale. -/
def isSpace (c : Char) : Bool :=
  c = ' ' || c = '\t' || c = '\n' || c = '\x0b' || c = '\x0c' || c = '\r'

/-- `std::stoi(s)`: leading white space is skipped, a sign is read, then decimal
digits are accumulated as far as they go; `none` when the call throws
(`invalid_argument` when there is no digit, `out_of_range` outside `int`). -/
def stoi (s : String) : Option Int :=
  let t := s.data.dropWhile isSpace
  let signed : Bool × List Char :=
    match t with
    | '-' :: u => (true, u)
    | '+' :: u => (false, u)
    | u => (false, u)
  let digits := signed.2.takeWhile Char.isDigit
  if digits = [] then none
  else
    let magnitude : Nat := digits.foldl (fun (acc : Nat) (c : Char) => acc * 10 + (c.toNat - 48)) 0
    let value : Int := if signed.1 then -(magnitude : Int) else (magnitude : Int)
    if -(2 ^ 31) ≤ value ∧ value < 2 ^ 31 then some value else none

/-- The variables the "Parse URL" block of `downloadPackage` leaves. -/
structure UrlParts where
  host : String
  path : String
  port : Nat
  use_ssl : Bool
deriving DecidableEq

/-- The "Parse URL" block of `downloadPackage`; `none` when `std::stoi` throws.
`port` is a `uint16_t`. -/
def parseUrl (url : String) : Option UrlParts :=
  match strFind url "://" with
  | some protocol_end =>
    let protocol := substr url 0 protocol_end
    let use_ssl := decide (protocol = "https")
    let host_start := protocol_end + 3
    let split : String × String :=
      match strFindFrom ['/'] (url.data.drop host_start) host_start with
      | some path_start =>
        (substr url host_start (path_start - host_start), substrFrom url path_start)
      | none => (substrFrom url host_start, "/")
    match strFind split.1 ":" with
    | some port_pos =>
      match stoi (substrFrom split.1 (port_pos + 1)) with
      | some n =>
        some { host := substr split.1 0 port_pos, path := split.2,
               port := Json.wrapUnsigned 16 n, use_ssl := use_ssl }
      | none => none
    | none => some { host := split.1, path := split.2, port := 443, use_ssl := use_ssl }
  | none => some { host := "", path := "", port := 443, use_ssl := true }

end PackageDownloader

/-- The number a sequence of decimal digits denotes, read from its last digit. -/
def decimalValueRev : List Char → Nat
  | [] => 0
  | c :: rest => (c.toNat - 48) + 10 * decimalValueRev rest

/-- The number a decimal numeral denotes. -/
def decimalValue (s : String) : Nat :=
  decimalValueRev s.data.reverse

/-- A non-empty string of decimal digits. -/
def IsDecimal (s : String) : Prop :=
  s.data ≠ [] ∧ ∀ c ∈ s.data, c.isDigit = true

/-! ## Measures of the loops -/

namespace DependencyResolver

/-- Rounds the loop of `resolveDependencies` can still make from a state. -/
def resolveNeed (st : ResolveState) : Nat :=
  if DEPENDENCY_RESOLUTION_DEPTH ≤ st.resolved.length then 0
  else st.to_process.length + (DEPENDENCY_RESOLUTION_DEPTH - st.resolved.length)

/-- Number of entries of an indegree table with a positive value. -/
def posCount (m : StdMap Int) : Nat :=
  (m.filter (fun kv => decide (0 < kv.2))).length

/-- Potential of the loop of `getInstallationOrder`: queued names plus indegree
entries that are still positive. -/
def orderNeed (st : OrderState) : Nat :=
  st.queue.length + posCount st.indegree

/-! ## Specification vocabulary for the installation order -/

/-- The dependency list of the record stored for `x`; empty without a record. -/
def depsOf (r : DependencyResolver) (x : String) : List String :=
  match StdMap.find r.package_database x with
  | some pkg => pkg.dependencies
  | none => []

/-- The reverse index mirrors the stored dependency lists: `x` occurs under `d` as
often as `d` occurs in the dependency list stored for `x`. -/
def ReverseExact (r : DependencyResolver) : Prop :=
  ∀ d x : String, (r.findReverseDependencies d).count x = (depsOf r x).count d

/-- The number of times the loop of `getInstallationOrder` visits `x` as a
dependent while it processes the names of `done`. -/
def decOf (r : DependencyResolver) (x : String) (done : List String) : Nat :=
  (done.map (fun d => (r.findReverseDependencies d).count x)).sum

/-- The indegree `getInstallationOrder` starts a candidate with. -/
def initVal (r : DependencyResolver) (packages : List String) (x : String) : Int :=
  countCandidateDeps packages (depsOf r x)

/-- Every name of the list depends, by its stored record, on the name after it. -/
def chainDeps (r : DependencyResolver) : List String → Prop
  | a :: b :: rest => b ∈ depsOf r a ∧ chainDeps r (b :: rest)
  | _ => True

/-- The names `cycle` form a dependency cycle: each depends on the next and the
last on the first. -/
def IsDependencyCycle (r : DependencyResolver) (cycle : List String) : Prop :=
  match cycle with
  | [] => False
  | a :: rest => chainDeps r (a :: rest ++ [a])

/-- The invariant of the `while` loop of `getInstallationOrder` for candidates
`packages`, while the dependents `pending` of the package just dequeued are still
to be visited; `knot` is a set of candidates each of which depends on a member. -/
structure OrderInv (r : DependencyResolver) (packages knot pending : List String)
    (st : OrderState) : Prop where
  keys : ∀ x, (∃ v, StdMap.find st.indegree x = some v) ↔ x ∈ packages
  members : ∀ x ∈ st.queue ++ st.ordered, x ∈ packages
  nodup : (st.queue ++ st.ordered).Nodup
  nonpos : ∀ x ∈ st.queue ++ st.ordered, ∀ v, StdMap.find st.indegree x = some v → v ≤ 0
  processed : ∀ x, x ∈ st.processed ↔ x ∈ st.ordered
  book : ∀ x ∈ packages, x ∉ st.ordered →
    StdMap.find st.indegree x =
      some (initVal r packages x - decOf r x st.ordered + pending.count x)
  knotFree : ∀ x ∈ knot, x ∉ st.queue ++ st.ordered

/-- Every occurrence of `d` in the dependency list stored for `x` is matched by an
occurrence of `x` in the reverse list of `d`. -/
def ReverseCovers (r : DependencyResolver) : Prop :=
  ∀ d x : String, (depsOf r x).count d ≤ (r.findReverseDependencies d).count x

/-- The name `b` is reached from `a` by following stored dependency lists, in one
step or more. -/
def Reaches (r : DependencyResolver) (a b : String) : Prop :=
  Relation.TransGen (fun x y => y ∈ depsOf r x) a b

/-- The invariant of the loop of `resolveDependencies(name, true)`; `current` is
the package whose dependency list is being walked, if any. -/
structure ResolveInv (r : DependencyResolver) (name : String) (current : Option String)
    (st : ResolveState) : Prop where
  visited_iff : ∀ y, y ∈ st.visited ↔ y = name ∨ y ∈ st.resolved
  nodup : st.resolved.Nodup
  fresh : name ∉ st.resolved
  reach : ∀ y ∈ st.resolved, Reaches r name y
  queued : ∀ y ∈ st.to_process, y ∈ st.visited
  closed : ∀ v ∈ st.visited, v ∈ st.to_process ∨ some v = current ∨
    ∀ d ∈ depsOf r v, d ∈ st.visited

/-- Every candidate that is neither queued nor ordered has a positive indegree. -/
def PositiveOutside (packages : List String) (st : OrderState) : Prop :=
  ∀ x ∈ packages, x ∉ st.queue ++ st.ordered →
    ∀ v, StdMap.find st.indegree x = some v → 0 < v

/-- Every candidate dependency of a queued or ordered name is ordered, and ahead
of the name once the name is ordered. -/
def DepsFirst (r : DependencyResolver) (packages : List String) (st : OrderState) : Prop :=
  ∀ x ∈ st.queue ++ st.ordered, ∀ d ∈ depsOf r x, d ∈ packages →
    d ∈ st.ordered ∧
      (x ∈ st.ordered → List.indexOf d st.ordered < List.indexOf x st.ordered)

/-- The table an indegree map must agree with: keys are candidates and carry the
initial indegree, and every candidate with a record is a key. -/
def GoodIndegree (r : DependencyResolver) (packages : List String) (ind : StdMap Int) : Prop :=
  (∀ x v, StdMap.find ind x = some v → x ∈ packages ∧ v = initVal r packages x) ∧
  (∀ x ∈ packages, StdMap.find r.package_database x ≠ none →
    StdMap.find ind x = some (initVal r packages x))

end DependencyResolver

/-! ## Where a path leads -/

/-- The components of a path: the pieces between its `/` characters. -/
def splitPath : List Char → List (List Char)
  | [] => [[]]
  | c :: rest =>
    if c = '/' then [] :: splitPath rest
    else
      match splitPath rest with
      | [] => [[c]]
      | hd :: tl => (c :: hd) :: tl

/-- One step of resolving a path: an empty component and `.` stay where they are,
`..` goes up one level (and stays at the top when there is none), any other
component goes down into it. -/
def resolveStep (stack : List (List Char)) (comp : List Char) : List (List Char) :=
  if comp = [] ∨ comp = ['.'] then stack
  else if comp = ['.', '.'] then stack.dropLast
  else stack ++ [comp]

/-- The location a path leads to: its components after resolving `.`, `..` and
repeated separators (no symbolic links). -/
def resolvePath (p : String) : List (List Char) :=
  (splitPath p.data).foldl resolveStep []

/-- The path `p` leads to `dir` or below it. -/
def Inside (dir p : String) : Prop :=
  resolvePath dir <+: resolvePath p

/-- The path has no `..` component. -/
def NoDotDot (p : String) : Prop :=
  ['.', '.'] ∉ splitPath p.data

/-! ## Sequences of cache operations -/

namespace PackageCache

/-- Total size of the regular files directly in `cache_dir` other than the index
file: what `getCacheSize` counts, less `cache_index.json`. -/
def archiveSize (c : PackageCache) (fs : FileSystem) : Nat :=
  ((fs.files.filter (fun kv => FileSystem.inDir c.cache_dir kv.1 && kv.1 != indexFile c)).map
    (fun kv => kv.2.size)).sum

end PackageCache

/-! ## Scenarios -/

/-- A record with the given name and dependency list, version `1.0`, every other
field value-initialised. -/
def pkgWithDeps (name : String) (deps : List String) : PackageInfo :=
  { PackageInfo.empty with name := name, version := "1.0", dependencies := deps,
                           repository := "https://packages.elazar-os.org/stable" }

/-- A record with the given name and conflict list and the given `installed` flag. -/
def pkgWithConflicts (name : String) (conflicts : List String) (installed : Bool) : PackageInfo :=
  { PackageInfo.empty with name := name, version := "1.0", conflicts := conflicts,
                           repository := "https://packages.elazar-os.org/stable",
                           installed := installed }

/-- Fifty-one distinct package names. -/
def fiftyOneNames : List String :=
  ["d01", "d02", "d03", "d04", "d05", "d06", "d07", "d08", "d09", "d10", "d11", "d12",
   "d13", "d14", "d15", "d16", "d17", "d18", "d19", "d20", "d21", "d22", "d23", "d24",
   "d25", "d26", "d27", "d28", "d29", "d30", "d31", "d32", "d33", "d34", "d35", "d36",
   "d37", "d38", "d39", "d40", "d41", "d42", "d43", "d44", "d45", "d46", "d47", "d48",
   "d49", "d50", "d51"]

/-- Length of the text `nlohmann::json::dump(2)` writes for a cache index: `null`
for the empty index, otherwise an opening brace, one line per entry (line break,
two blanks, the quoted key, a colon and a blank, the time stamp as a decimal
number), commas between the entries, a line break and the closing brace.  Keys
are taken to need no escaping. -/
def dumpSize (index : StdMap Int) : Nat :=
  match index with
  | [] => 4
  | _ =>
    2 + (index.map (fun kv =>
          8 + kv.1.length + (Nat.toDigits 10 kv.2.natAbs).length + (if kv.2 < 0 then 1 else 0))).sum

/-- A 60-byte package archive without entries. -/
def archive60 : FileData :=
  { size := 60, sha256 := "", archive := some [] }

/-- An environment in which every request is answered with status `ok` and a
60-byte archive, the clock advances by one tick per reading, and the index file
has the size of its JSON text. -/
def sampleEnv : Env :=
  { fetch := fun _ => some { ok := true, body := archive60 }
    clock := fun k => 1000 + k
    indexDump := fun index => { size := dumpSize index, sha256 := "", archive := none }
    indexParse := fun _ => []
    rand := fun k => 1804289383 + k
    jsonParse := fun _ => none }

/-- A record with the given name, version and description. -/
def pkgDescribed (name version description : String) : PackageInfo :=
  { PackageInfo.empty with name := name, version := version, description := description }

/-- The index document of the stable origin: `N` in version 1.0 and `libfoo`. -/
def stableDocument : Json :=
  Json.array
    [PackageInfo.toJson { pkgDescribed "N" "1.0" "network tools" with repository := "elsewhere" },
     PackageInfo.toJson (pkgDescribed "libfoo" "0.3" "the foo library")]

/-- The index document of the unstable origin: `editor` and `N` in version 2.0. -/
def unstableDocument : Json :=
  Json.array
    [PackageInfo.toJson (pkgDescribed "editor" "5.1" "a text editor"),
     PackageInfo.toJson { pkgDescribed "N" "2.0" "network tools" with repository := "elsewhere" }]

/-- An environment in which the two default origins serve `stableDocument` and
`unstableDocument` and every other request fails. -/
def indexEnv : Env :=
  { sampleEnv with
    fetch := fun url =>
      if url = "https://packages.elazar-os.org/stable/packages.json" then
        some { ok := true, body := { size := 512, sha256 := "5e", archive := none } }
      else if url = "https://packages.elazar-os.org/unstable/packages.json" then
        some { ok := true, body := { size := 640, sha256 := "7a", archive := none } }
      else none
    jsonParse := fun data =>
      if data.sha256 = "5e" then some stableDocument
      else if data.sha256 = "7a" then some unstableDocument
      else none }

/-- The index document of an origin that declares `N` installed. -/
def installedDocument : Json :=
  Json.array
    [PackageInfo.toJson { pkgDescribed "N" "2.0" "network tools" with installed := true }]

/-- An environment in which the stable origin serves `installedDocument` and every
other request is answered as in `sampleEnv`. -/
def installedEnv : Env :=
  { sampleEnv with
    fetch := fun url =>
      if url = "https://packages.elazar-os.org/stable/packages.json" then
        some { ok := true, body := { size := 256, sha256 := "1d", archive := none } }
      else sampleEnv.fetch url
    jsonParse := fun data => if data.sha256 = "1d" then some installedDocument else none }

/-- An archive with one regular entry, of 7 bytes, whose path goes up two levels. -/
def traversalArchive : FileData :=
  { size := 120, sha256 := "",
    archive := some [{ pathname := "../../evil", regular := true, size := 7, sha256 := "" }] }

/-- A file system with `traversalArchive` in the cache as the archive of package
`n`. -/
def traversalFs : FileSystem :=
  { files := [("/opt/elazar/cache/n-1.0.pkg", traversalArchive)],
    dirs := ["/opt/elazar", "/opt/elazar/cache"] }

/-- An archive with a regular entry in a subdirectory and one with an absolute
path. -/
def plainArchive : FileData :=
  { size := 120, sha256 := "",
    archive := some [{ pathname := "bin/tool", regular := true, size := 7, sha256 := "" },
                     { pathname := "/etc/tool.conf", regular := true, size := 3, sha256 := "" }] }

/-- An archive with the regular entry `a` followed by the regular entry `a/b`. -/
def clashArchive : FileData :=
  { size := 120, sha256 := "",
    archive := some [{ pathname := "a", regular := true, size := 7, sha256 := "" },
                     { pathname := "a/b", regular := true, size := 3, sha256 := "" }] }

/-- Two strings are equal up to letter case. -/
def EqualUpToCase (a b : String) : Prop :=
  a.data.map Char.toLower = b.data.map Char.toLower

/-- The SHA-256 hash of the empty byte sequence. -/
def sha256OfEmpty : List Nat :=
  [0xe3, 0xb0, 0xc4, 0x42, 0x98, 0xfc, 0x1c, 0x14, 0x9a, 0xfb, 0xf4, 0xc8, 0x99, 0x6f, 0xb9,
   0x24, 0x27, 0xae, 0x41, 0xe4, 0x64, 0x9b, 0x93, 0x4c, 0xa4, 0x95, 0x99, 0x1b, 0x78, 0x52,
   0xb8, 0x55]

/-- An empty response body, with the digest `calculateSHA256` prints for it. -/
def emptyBody : FileData :=
  { size := 0, sha256 := PackageDownloader.hexDigest sha256OfEmpty, archive := none }

/-- The environment `sampleEnv` with every request answered by status `ok` and an
empty body. -/
def emptyBodyEnv : Env :=
  { sampleEnv with fetch := fun _ => some { ok := true, body := emptyBody } }

/-- A package manager right after start: nothing installed, nothing cached, the
given merged index and resolver. -/
def freshManager (package_index : StdMap PackageInfo) (resolver : DependencyResolver) :
    ElazarPackageManager :=
  { package_index := package_index
    dependency_resolver := resolver
    package_cache := { cache_dir := "/opt/elazar/cache", max_size := PACKAGE_CACHE_SIZE,
                       cache_index := [] }
    install_root := "/opt/elazar"
    fs := { files := [], dirs := ["/opt/elazar", "/opt/elazar/cache"] }
    total_packages_installed := 0
    total_packages_downloaded := 0
    clock_reads := 0
    trace := [] }

/-- The merged index holding the given records, each under its name. -/
def indexOf (pkgs : List PackageInfo) : StdMap PackageInfo :=
  pkgs.foldl (fun m pkg => StdMap.insert m pkg.name pkg) []

/-- A package manager right after start whose merged index offers the given
records. -/
def managerOffering (pkgs : List PackageInfo) : ElazarPackageManager :=
  freshManager (indexOf pkgs) DependencyResolver.new

/-- The state `installPackage(name)` leaves when called on `managerOffering pkgs`
with every download and extraction succeeding. -/
def afterInstall (pkgs : List PackageInfo) (name : String) : ElazarPackageManager :=
  (ElazarPackageManager.installPackage sampleEnv (managerOffering pkgs) name).2

/-- An empty cache with the given byte budget. -/
def emptyCache (max_size : Nat) : PackageCache :=
  { cache_dir := "/opt/elazar/cache", max_size := max_size, cache_index := [] }

/-- A file system in which the cache directory exists and is empty. -/
def emptyCacheDir : FileSystem :=
  { files := [], dirs := ["/opt/elazar/cache"] }

/-- The cache of the eviction scenario after `E1` (60 bytes) was written and
added at tick 1000 under a budget of 100 bytes. -/
def cacheAfterE1 : PackageCache × FileSystem :=
  ({ emptyCache 100 with cache_index := [("E1-1.0", 1000)] },
   { files := [("/opt/elazar/cache/E1-1.0.pkg", archive60),
               ("/opt/elazar/cache/cache_index.json", { size := 20, sha256 := "", archive := none })]
     dirs := ["/opt/elazar/cache"] })

/-- The state in which `addToCache("E2", "1.0")` at tick 2000 calls
`enforceCacheSize`: both archives on disk, both keys in the index, the index saved. -/
def cacheWithE1E2 : PackageCache × FileSystem :=
  ({ emptyCache 100 with cache_index := [("E1-1.0", 1000), ("E2-1.0", 2000)] },
   { files := [("/opt/elazar/cache/E1-1.0.pkg", archive60),
               ("/opt/elazar/cache/E2-1.0.pkg", archive60),
               ("/opt/elazar/cache/cache_index.json", { size := 38, sha256 := "", archive := none })]
     dirs := ["/opt/elazar/cache"] })

/-- A package manager whose merged index offers `X`, whose resolver knows `X` with
`Y` in its conflict list and `Y` as installed, and whose cache is empty. -/
def conflictManager : ElazarPackageManager :=
  freshManager (indexOf [pkgWithConflicts "X" ["Y"] false])
    (DependencyResolver.addAll [pkgWithConflicts "X" ["Y"] true, pkgWithConflicts "Y" [] true])

/-- The same package manager with the archive of `X` already in the cache. -/
def conflictManagerCached : ElazarPackageManager :=
  { conflictManager with
    package_cache := { conflictManager.package_cache with cache_index := [("X-1.0", 1000)] }
    fs := { files := [("/opt/elazar/cache/X-1.0.pkg", archive60),
                      ("/opt/elazar/cache/cache_index.json",
                        { size := 19, sha256 := "", archive := none })]
            dirs := ["/opt/elazar", "/opt/elazar/cache"] } }

end elazar

/-! # Theorems -/

set_option maxRecDepth 100000

set_option linter.unnecessarySeqFocus false

namespace elazar

/-! ## Lemmas on `StdMap` -/

namespace StdMap

theorem find_replace {β : Type} (m : StdMap β) (k : String) (v : β) (k2 : String) :
    find (replace m k v) k2 = if k2 = k then (find m k).map (fun _ => v) else find m k2 := by
  induction m with
  | nil => simp [replace, find]
  | cons hd tl ih =>
    obtain ⟨k', v'⟩ := hd
    by_cases h1 : k = k'
    · subst h1
      by_cases h : k2 = k <;> simp [replace, find, h]
    · simp only [replace, h1, if_false, find, ih]
      by_cases h3 : k2 = k'
      · subst h3
        have : ¬ k2 = k := fun h => h1 h.symm
        simp [this]
      · simp [h3]

theorem find_insertNew {β : Type} (m : StdMap β) (k : String) (v : β) (k2 : String)
    (h : find m k = none) :
    find (insertNew m k v) k2 = if k2 = k then some v else find m k2 := by
  induction m with
  | nil => simp [insertNew, find]
  | cons hd tl ih =>
    obtain ⟨k', v'⟩ := hd
    simp only [find] at h
    by_cases h1 : k = k'
    · simp [h1] at h
    · simp only [h1, if_false] at h
      by_cases h2 : keyLt k k' = true
      · simp [insertNew, find, h2]
      · simp only [insertNew, h2, if_false, find, ih h]
        by_cases h3 : k2 = k'
        · subst h3
          have : ¬ k2 = k := fun h => h1 h.symm
          simp [this]
        · simp [h3]

theorem find_insert {β : Type} (m : StdMap β) (k : String) (v : β) (k2 : String) :
    find (insert m k v) k2 = if k2 = k then some v else find m k2 := by
  unfold insert
  cases h : find m k with
  | none => simp [count, h, find_insertNew]
  | some w => simp [count, h, find_replace]

theorem find_insert_self {β : Type} (m : StdMap β) (k : String) (v : β) :
    find (insert m k v) k = some v := by
  simp [find_insert]

theorem find_insert_ne {β : Type} (m : StdMap β) (k : String) (v : β) (k2 : String)
    (h : k2 ≠ k) : find (insert m k v) k2 = find m k2 := by
  simp [find_insert, h]

theorem touch_of_count {β : Type} (m : StdMap β) (k : String) (d : β)
    (h : count m k = true) : touch m k d = m := by
  simp [touch, h]

theorem count_eq_true_iff {β : Type} (m : StdMap β) (k : String) :
    count m k = true ↔ ∃ v, find m k = some v := by
  simp [count, Option.isSome_iff_exists]

theorem getD_of_find {β : Type} (m : StdMap β) (k : String) (d v : β)
    (h : find m k = some v) : getD m k d = v := by
  simp [getD, h]

theorem length_replace {β : Type} (m : StdMap β) (k : String) (v : β) :
    (replace m k v).length = m.length := by
  induction m with
  | nil => simp [replace]
  | cons hd tl ih =>
    obtain ⟨k', v'⟩ := hd
    simp only [replace]
    split <;> simp [ih]

theorem length_insertNew {β : Type} (m : StdMap β) (k : String) (v : β) :
    (insertNew m k v).length = m.length + 1 := by
  induction m with
  | nil => simp [insertNew]
  | cons hd tl ih =>
    obtain ⟨k', v'⟩ := hd
    simp only [insertNew]
    split <;> simp [ih]

theorem length_insert_le {β : Type} (m : StdMap β) (k : String) (v : β) :
    (insert m k v).length ≤ m.length + 1 := by
  unfold insert
  split
  · simp [length_replace]
  · simp [length_insertNew]

end StdMap

/-! ## `checkConflicts` -/

namespace DependencyResolver

/-- The conflict loop answers whether some listed name has a stored record marked
installed, and hands back the table it was given. -/
theorem checkConflictsLoop_eq (db : StdMap PackageInfo) (l : List String) :
    checkConflictsLoop db l =
      (decide (∃ c ∈ l, ∃ q, StdMap.find db c = some q ∧ q.installed = true), db) := by
  induction l with
  | nil => simp [checkConflictsLoop]
  | cons c rest ih =>
    simp only [checkConflictsLoop]
    cases hc : StdMap.find db c with
    | none =>
      have hcount : StdMap.count db c = false := by simp [StdMap.count, hc]
      simp [hcount, ih, hc]
    | some q =>
      have hcount : StdMap.count db c = true := by simp [StdMap.count, hc]
      have hget : StdMap.getD db c PackageInfo.empty = q := StdMap.getD_of_find db c _ q hc
      simp only [hcount, if_true, StdMap.touch_of_count db c _ hcount, hget]
      cases hq : q.installed with
      | true => simp [hc, hq]
      | false => simp [ih, hc, hq]

/-- The answer of `checkConflicts` as a decision, and its state component. -/
theorem checkConflicts_eq (r : DependencyResolver) (name : String) :
    r.checkConflicts name =
      (decide (∃ pkg, StdMap.find r.package_database name = some pkg ∧
        ∃ c ∈ pkg.conflicts, ∃ q, StdMap.find r.package_database c = some q ∧
          q.installed = true), r) := by
  unfold checkConflicts
  cases hf : StdMap.find r.package_database name with
  | none => simp [StdMap.count, hf]
  | some pkg =>
    have hcount : StdMap.count r.package_database name = true := by simp [StdMap.count, hf]
    have hget : StdMap.getD r.package_database name PackageInfo.empty = pkg :=
      StdMap.getD_of_find _ _ _ _ hf
    simp only [hcount, if_true, StdMap.touch_of_count _ _ _ hcount, hget, checkConflictsLoop_eq]
    simp

/-- `findReverseDependencies` hands back the stored list and leaves the resolver
as it was. -/
theorem findReverseDependenciesState_eq (r : DependencyResolver) (name : String) :
    r.findReverseDependenciesState name = (r.findReverseDependencies name, r) := by
  unfold findReverseDependenciesState findReverseDependencies
  cases hf : StdMap.find r.reverse_dependencies name with
  | none => simp [StdMap.count, StdMap.getD, hf]
  | some l =>
    have hcount : StdMap.count r.reverse_dependencies name = true := by
      simp [StdMap.count, hf]
    simp only [hcount, if_true, StdMap.touch_of_count _ _ _ hcount]

/-! ## The loops terminate within their fuel -/

theorem visitDep_lengths (recursive : Bool) (st : ResolveState) (dep : String) :
    st.resolved.length ≤ (visitDep recursive st dep).resolved.length ∧
    (visitDep recursive st dep).to_process.length + st.resolved.length ≤
      st.to_process.length + (visitDep recursive st dep).resolved.length := by
  unfold visitDep
  by_cases h : dep ∈ st.visited
  · simp [h]
  · cases recursive <;> simp [h] <;> omega

theorem foldl_visitDep_lengths (recursive : Bool) (deps : List String) (st : ResolveState) :
    st.resolved.length ≤ (deps.foldl (visitDep recursive) st).resolved.length ∧
    (deps.foldl (visitDep recursive) st).to_process.length + st.resolved.length ≤
      st.to_process.length + (deps.foldl (visitDep recursive) st).resolved.length := by
  induction deps generalizing st with
  | nil => simp
  | cons d rest ih =>
    have h1 := visitDep_lengths recursive st d
    have h2 := ih (visitDep recursive st d)
    simp only [List.foldl_cons]
    omega

/-- The loop of `resolveDependencies` ends whenever its fuel exceeds `resolveNeed`. -/
theorem resolveLoop_fuel_enough (db : StdMap PackageInfo) (recursive : Bool) (fuel : Nat) :
    ∀ st : ResolveState, resolveNeed st < fuel →
      ∃ st', resolveLoop db recursive fuel st = some st' := by
  induction fuel with
  | zero => intro st h; omega
  | succ fuel ih =>
    intro st h
    unfold resolveLoop
    cases hq : st.to_process with
    | nil => exact ⟨st, rfl⟩
    | cons current rest =>
      simp only
      by_cases hlen : st.resolved.length < DEPENDENCY_RESOLUTION_DEPTH
      · simp only [hlen, if_true]
        have hneed : resolveNeed st = rest.length + 1 + (DEPENDENCY_RESOLUTION_DEPTH - st.resolved.length) := by
          unfold resolveNeed
          have : ¬ DEPENDENCY_RESOLUTION_DEPTH ≤ st.resolved.length := by omega
          simp [this, hq]
        have key : ∀ st2 : ResolveState, st.resolved.length ≤ st2.resolved.length →
            st2.to_process.length + st.resolved.length ≤ rest.length + st2.resolved.length →
            resolveNeed st2 < fuel := by
          intro st2 h1 h2
          unfold resolveNeed
          by_cases h3 : DEPENDENCY_RESOLUTION_DEPTH ≤ st2.resolved.length
          · simp only [h3, if_true]; omega
          · simp only [h3, if_false]; omega
        cases hf : StdMap.find db current with
        | none =>
          simp only
          exact ih _ (key _ (by simp) (by simp))
        | some pkg =>
          simp only
          have hl := foldl_visitDep_lengths recursive pkg.dependencies { st with to_process := rest }
          exact ih _ (key _ hl.1 hl.2)
      · simp only [hlen, if_false]
        exact ⟨st, rfl⟩

/-- The fuel `resolveDependencies` hands to its loop is enough: the loop always
ends with a state, whose `resolved` list is the value returned. -/
theorem resolveDependencies_total (r : DependencyResolver) (package_name : String)
    (recursive : Bool) :
    ∃ st, resolveLoop r.package_database recursive (DEPENDENCY_RESOLUTION_DEPTH + 2)
        { resolved := [], visited := [package_name], to_process := [package_name] } = some st ∧
      r.resolveDependencies package_name recursive = st.resolved := by
  obtain ⟨st, hst⟩ := resolveLoop_fuel_enough r.package_database recursive
    (DEPENDENCY_RESOLUTION_DEPTH + 2)
    { resolved := [], visited := [package_name], to_process := [package_name] }
    (by simp [resolveNeed, DEPENDENCY_RESOLUTION_DEPTH])
  exact ⟨st, hst, by simp [resolveDependencies, hst]⟩

theorem posCount_le_length (m : StdMap Int) : posCount m ≤ m.length := by
  unfold posCount
  exact List.length_filter_le _ _

theorem posCount_insertNew (m : StdMap Int) (k : String) (v : Int) :
    posCount (StdMap.insertNew m k v) = posCount m + (if 0 < v then 1 else 0) := by
  induction m with
  | nil =>
    by_cases hv : 0 < v <;> simp [StdMap.insertNew, posCount, hv]
  | cons hd tl ih =>
    obtain ⟨k', v'⟩ := hd
    simp only [posCount] at ih ⊢
    simp only [StdMap.insertNew]
    split
    · by_cases hv : 0 < v <;> by_cases hv' : 0 < v' <;>
        simp [List.filter_cons, hv, hv']
    · by_cases hv' : 0 < v'
      · simp only [List.filter_cons, hv', decide_True, if_true, List.length_cons, ih]
        omega
      · simp only [List.filter_cons, hv', decide_False]
        exact ih

theorem posCount_replace (m : StdMap Int) (k : String) (v old : Int)
    (h : StdMap.find m k = some old) :
    posCount (StdMap.replace m k v) + (if 0 < old then 1 else 0) =
      posCount m + (if 0 < v then 1 else 0) := by
  induction m with
  | nil => simp [StdMap.find] at h
  | cons hd tl ih =>
    obtain ⟨k', v'⟩ := hd
    simp only [StdMap.find] at h
    by_cases h1 : k = k'
    · simp only [h1, if_true, Option.some.injEq] at h
      subst h
      simp only [StdMap.replace, h1, if_true, posCount]
      by_cases hv : 0 < v <;> by_cases hv' : 0 < v' <;>
        simp [List.filter_cons, hv, hv']
    · simp only [h1, if_false] at h
      have ih' := ih h
      simp only [posCount] at ih' ⊢
      simp only [StdMap.replace, h1, if_false]
      by_cases hv' : 0 < v'
      · simp only [List.filter_cons, hv', decide_True, if_true, List.length_cons]
        omega
      · simp only [List.filter_cons, hv', decide_False, if_false]
        exact ih'

theorem relax_orderNeed (st : OrderState) (dependent : String) :
    orderNeed (relax st dependent) ≤ orderNeed st := by
  unfold relax
  cases hf : StdMap.find st.indegree dependent with
  | none => simp [StdMap.count, hf]
  | some old =>
    by_cases hp : dependent ∈ st.processed
    · simp [hp]
    · have hcount : StdMap.count st.indegree dependent = true := by simp [StdMap.count, hf]
      have hget : StdMap.getD st.indegree dependent 0 = old := StdMap.getD_of_find _ _ _ _ hf
      have hins : StdMap.insert st.indegree dependent (old - 1) =
          StdMap.replace st.indegree dependent (old - 1) := by simp [StdMap.insert, hcount]
      have hpc := posCount_replace st.indegree dependent (old - 1) old hf
      simp only [hcount, hp, decide_False, Bool.not_false, Bool.and_self, if_true, hget, hins]
      by_cases hz : old - 1 = 0
      · have ho : (0 : Int) < old := by omega
        simp only [hz, if_true, orderNeed, List.length_append, List.length_singleton]
        simp only [hz, ho, if_true, lt_self_iff_false, if_false] at hpc
        omega
      · simp only [hz, if_false, orderNeed]
        by_cases ho : (0 : Int) < old
        · have hv : (0 : Int) < old - 1 := by omega
          simp only [ho, hv, if_true] at hpc
          omega
        · have hv : ¬ (0 : Int) < old - 1 := by omega
          simp only [ho, hv, if_false] at hpc
          omega

theorem foldl_relax_orderNeed (l : List String) (st : OrderState) :
    orderNeed (l.foldl relax st) ≤ orderNeed st := by
  induction l generalizing st with
  | nil => simp
  | cons d rest ih =>
    simp only [List.foldl_cons]
    exact le_trans (ih _) (relax_orderNeed st d)

theorem orderStep_orderNeed (rev : StdMap (List String)) (st : OrderState)
    (current : String) (rest : List String) (hq : st.queue = current :: rest) :
    orderNeed (orderStep rev st current rest) + 1 ≤ orderNeed st := by
  have h1 : orderNeed (dequeue st current rest) + 1 = orderNeed st := by
    simp [orderNeed, dequeue, hq]
    omega
  unfold orderStep
  cases hf : StdMap.find rev current with
  | none => simp only; omega
  | some dependents =>
    simp only
    have := foldl_relax_orderNeed dependents (dequeue st current rest)
    omega

/-- The loop of `getInstallationOrder` ends whenever its fuel exceeds `orderNeed`. -/
theorem orderLoop_fuel_enough (rev : StdMap (List String)) (fuel : Nat) :
    ∀ st : OrderState, orderNeed st < fuel → ∃ st', orderLoop rev fuel st = some st' := by
  induction fuel with
  | zero => intro st h; omega
  | succ fuel ih =>
    intro st h
    unfold orderLoop
    cases hq : st.queue with
    | nil => exact ⟨st, rfl⟩
    | cons current rest =>
      simp only
      have := orderStep_orderNeed rev st current rest hq
      exact ih _ (by omega)

theorem initIndegree_length (db : StdMap PackageInfo) (packages : List String) (l : List String)
    (acc : StdMap Int) :
    (l.foldl
      (fun indegree pkg =>
        match StdMap.find db pkg with
        | some info => StdMap.insert indegree pkg (countCandidateDeps packages info.dependencies)
        | none => indegree)
      acc).length ≤ acc.length + l.length := by
  induction l generalizing acc with
  | nil => simp
  | cons p rest ih =>
    simp only [List.foldl_cons, List.length_cons]
    cases hf : StdMap.find db p with
    | none =>
      have := ih acc
      simp only
      omega
    | some info =>
      have h1 := ih (StdMap.insert acc p (countCandidateDeps packages info.dependencies))
      have h2 := StdMap.length_insert_le acc p (countCandidateDeps packages info.dependencies)
      simp only
      omega

theorem seedStep_bounds (acc : StdMap Int × List String) (pkg : String) :
    posCount (seedStep acc pkg).1 = posCount acc.1 ∧
    (seedStep acc pkg).2.length ≤ acc.2.length + 1 := by
  have htouch : posCount (StdMap.touch acc.1 pkg 0) = posCount acc.1 := by
    unfold StdMap.touch
    by_cases hc : StdMap.count acc.1 pkg = true
    · simp [hc]
    · simp only [hc, if_false]
      simp [StdMap.insert, hc, posCount_insertNew]
  unfold seedStep
  simp only
  split <;> simp [htouch]

theorem foldl_seedStep_bounds (l : List String) (acc : StdMap Int × List String) :
    posCount (l.foldl seedStep acc).1 = posCount acc.1 ∧
    (l.foldl seedStep acc).2.length ≤ acc.2.length + l.length := by
  induction l generalizing acc with
  | nil => simp
  | cons p rest ih =>
    have h1 := seedStep_bounds acc p
    have h2 := ih (seedStep acc p)
    simp only [List.foldl_cons, List.length_cons]
    constructor
    · rw [h2.1, h1.1]
    · omega

theorem orderInit_orderNeed (r : DependencyResolver) (packages : List String) :
    orderNeed (orderInit r packages) ≤ 2 * packages.length := by
  have h1 := foldl_seedStep_bounds packages (initIndegree r.package_database packages, [])
  have h2 := posCount_le_length (initIndegree r.package_database packages)
  have h3 := initIndegree_length r.package_database packages packages []
  simp only [orderNeed, orderInit]
  simp only [List.length_nil, Nat.zero_add] at h1 h3
  unfold initIndegree at h2 h1 ⊢
  omega

/-- The fuel `getInstallationOrder` hands to its loop is enough: the loop always
ends with a state, whose `ordered` list is the value returned. -/
theorem getInstallationOrder_total (r : DependencyResolver) (packages : List String) :
    ∃ st, orderLoop r.reverse_dependencies (2 * packages.length + 1) (orderInit r packages) =
        some st ∧
      r.getInstallationOrder packages = st.ordered := by
  obtain ⟨st, hst⟩ := orderLoop_fuel_enough r.reverse_dependencies (2 * packages.length + 1)
    (orderInit r packages) (by have := orderInit_orderNeed r packages; omega)
  exact ⟨st, hst, by simp [getInstallationOrder, hst]⟩

end DependencyResolver

/-! ## The reverse index after registering every name once -/

namespace DependencyResolver

theorem getD_foldl_pushReverse (name : String) (deps : List String)
    (rev : StdMap (List String)) (d : String) :
    StdMap.getD (deps.foldl (pushReverse name) rev) d [] =
      StdMap.getD rev d [] ++ List.replicate (deps.count d) name := by
  induction deps generalizing rev with
  | nil => simp
  | cons a rest ih =>
    simp only [List.foldl_cons, ih]
    unfold pushReverse
    simp only [StdMap.getD, StdMap.find_insert]
    by_cases h : d = a
    · subst h
      simp [List.count_cons, List.replicate_succ]
    · have h' : ¬ (a == d) = true := by simpa using fun e => h e.symm
      simp [h, List.count_cons, h']

theorem depsOf_addPackage (r : DependencyResolver) (pkg : PackageInfo) (x : String) :
    depsOf (r.addPackage pkg) x = if x = pkg.name then pkg.dependencies else depsOf r x := by
  unfold depsOf addPackage
  simp only [StdMap.find_insert]
  by_cases h : x = pkg.name <;> simp [h]

/-- Registering a name that has no record yet keeps the reverse index exact. -/
theorem ReverseExact_addPackage (r : DependencyResolver) (pkg : PackageInfo)
    (hex : ReverseExact r) (hnew : StdMap.find r.package_database pkg.name = none) :
    ReverseExact (r.addPackage pkg) := by
  intro d x
  rw [depsOf_addPackage]
  have hrev : (r.addPackage pkg).findReverseDependencies d =
      r.findReverseDependencies d ++ List.replicate (pkg.dependencies.count d) pkg.name := by
    unfold findReverseDependencies addPackage
    exact getD_foldl_pushReverse _ _ _ _
  rw [hrev, List.count_append, List.count_replicate, hex d x]
  by_cases h : x = pkg.name
  · subst h
    simp [depsOf, hnew]
  · have h' : ¬ (pkg.name == x) = true := by simpa using fun e => h e.symm
    simp [h, h']

theorem ReverseExact_new : ReverseExact DependencyResolver.new := by
  intro d x
  simp [findReverseDependencies, depsOf, DependencyResolver.new, StdMap.getD, StdMap.find]

theorem ReverseExact_foldl (pkgs : List PackageInfo) :
    ∀ r : DependencyResolver, ReverseExact r →
      (pkgs.map (fun p => p.name)).Nodup →
      (∀ p ∈ pkgs, StdMap.find r.package_database p.name = none) →
      ReverseExact (pkgs.foldl addPackage r) := by
  induction pkgs with
  | nil => intro r h _ _; exact h
  | cons p rest ih =>
    intro r hex hnd hnew
    simp only [List.foldl_cons]
    simp only [List.map_cons, List.nodup_cons] at hnd
    apply ih
    · exact ReverseExact_addPackage r p hex (hnew p (List.mem_cons_self _ _))
    · exact hnd.2
    · intro q hq
      have hne : q.name ≠ p.name := by
        intro e
        apply hnd.1
        rw [← e]
        exact List.mem_map_of_mem _ hq
      simp only [addPackage, StdMap.find_insert, hne, if_false]
      exact hnew q (List.mem_cons_of_mem _ hq)

/-- When every name is registered once, the reverse index is exact. -/
theorem ReverseExact_addAll (pkgs : List PackageInfo)
    (hreg : (pkgs.map (fun p => p.name)).Nodup) : ReverseExact (addAll pkgs) := by
  unfold addAll
  apply ReverseExact_foldl pkgs _ ReverseExact_new hreg
  intro p _
  rfl

end DependencyResolver

/-! ## Counting dependencies among candidates -/

namespace DependencyResolver

theorem countCandidateDeps_eq (packages L : List String) :
    countCandidateDeps packages L =
      ((L.filter (fun d => decide (d ∈ packages))).length : Int) := by
  induction L with
  | nil => simp [countCandidateDeps]
  | cons a rest ih =>
    simp only [countCandidateDeps, List.filter_cons]
    by_cases h : a ∈ packages
    · simp [h, ih]
    · simp [h, ih]

theorem sum_indicator (S : List String) (a : String) :
    (S.map (fun o => if a == o then 1 else 0)).sum = S.count a := by
  induction S with
  | nil => simp
  | cons s rest ih =>
    simp only [List.map_cons, List.sum_cons, ih, List.count_cons]
    by_cases h : a = s
    · subst h
      simp
      omega
    · have h' : ¬ (s == a) = true := by simpa using fun e => h e.symm
      simp [h, h']

theorem sum_count_eq_filter (S L : List String) (hS : S.Nodup) :
    (S.map (fun o => L.count o)).sum = (L.filter (fun d => decide (d ∈ S))).length := by
  induction L with
  | nil => simp
  | cons a rest ih =>
    have hsplit : (S.map (fun o => (a :: rest).count o)).sum =
        (S.map (fun o => rest.count o)).sum + (S.map (fun o => if a == o then 1 else 0)).sum := by
      rw [← List.sum_map_add]
      congr 1
      apply List.map_congr_left
      intro o _
      exact List.count_cons o a rest
    rw [hsplit, ih, sum_indicator, List.count_eq_of_nodup hS, List.filter_cons]
    by_cases h : a ∈ S <;> simp [h]

theorem filter_mem_mono (S P L : List String) (hsub : ∀ o ∈ S, o ∈ P) :
    (L.filter (fun d => decide (d ∈ S))).length ≤ (L.filter (fun d => decide (d ∈ P))).length := by
  induction L with
  | nil => simp
  | cons a rest ih =>
    simp only [List.filter_cons]
    by_cases h : a ∈ S
    · simp [h, hsub a h, ih]
    · by_cases h2 : a ∈ P
      · simp [h, h2]
        omega
      · simp [h, h2, ih]

theorem filter_mem_gap (S P L : List String) (y : String) (hsub : ∀ o ∈ S, o ∈ P)
    (hyP : y ∈ P) (hyS : y ∉ S) (hyL : y ∈ L) :
    (L.filter (fun d => decide (d ∈ S))).length + 1 ≤
      (L.filter (fun d => decide (d ∈ P))).length := by
  induction L with
  | nil => simp at hyL
  | cons a rest ih =>
    simp only [List.filter_cons]
    by_cases hay : a = y
    · subst hay
      have := filter_mem_mono S P rest hsub
      simp [hyS, hyP]
      omega
    · have hy' : y ∈ rest := by
        rcases List.mem_cons.mp hyL with h | h
        · exact absurd h.symm hay
        · exact h
      have := ih hy'
      by_cases h : a ∈ S
      · simp [h, hsub a h]
        omega
      · by_cases h2 : a ∈ P
        · simp [h, h2]
          omega
        · simp [h, h2]
          omega

/-- With an exact reverse index, a candidate that depends on a candidate not yet
processed has received fewer visits than its initial indegree. -/
theorem decOf_lt_initVal (r : DependencyResolver) (hex : ReverseExact r)
    (packages done : List String) (x y : String) (hdone : done.Nodup)
    (hsub : ∀ o ∈ done, o ∈ packages) (hyP : y ∈ packages) (hy : y ∉ done)
    (hdep : y ∈ depsOf r x) :
    (decOf r x done : Int) + 1 ≤ initVal r packages x := by
  have h1 : decOf r x done = (done.map (fun d => (depsOf r x).count d)).sum := by
    unfold decOf
    congr 1
    apply List.map_congr_left
    intro d _
    exact hex d x
  rw [h1, sum_count_eq_filter done (depsOf r x) hdone, initVal, countCandidateDeps_eq]
  have := filter_mem_gap done packages (depsOf r x) y hsub hyP hy hdep
  omega

theorem decOf_append_single (r : DependencyResolver) (x : String) (done : List String)
    (current : String) :
    decOf r x (done ++ [current]) =
      decOf r x done + (r.findReverseDependencies current).count x := by
  simp [decOf]

/-! ## The invariant of the ordering loop -/

theorem relax_inv (r : DependencyResolver) (hex : ReverseExact r)
    (packages knot : List String)
    (hknot : ∀ x ∈ knot, x ∈ packages ∧ ∃ y ∈ knot, y ∈ depsOf r x)
    (d : String) (pending : List String) (st : OrderState)
    (hinv : OrderInv r packages knot (d :: pending) st) :
    OrderInv r packages knot pending (relax st d) := by
  have hord_nodup : st.ordered.Nodup := (List.nodup_append.mp hinv.nodup).2.1
  have hord_sub : ∀ o ∈ st.ordered, o ∈ packages := fun o ho =>
    hinv.members o (List.mem_append_right _ ho)
  by_cases hcond : StdMap.count st.indegree d = true ∧ d ∉ st.processed
  · -- the indegree of `d` is decremented
    obtain ⟨hkey, hproc⟩ := hcond
    have hdP : d ∈ packages := (hinv.keys d).mp ((StdMap.count_eq_true_iff _ _).mp hkey)
    have hdo : d ∉ st.ordered := fun h => hproc ((hinv.processed d).mpr h)
    have hbook := hinv.book d hdP hdo
    have hget : StdMap.getD st.indegree d 0 =
        initVal r packages d - decOf r d st.ordered + ((d :: pending).count d : Nat) :=
      StdMap.getD_of_find _ _ _ _ hbook
    have hcnt : ((d :: pending).count d : Int) = (pending.count d : Int) + 1 := by
      simp [List.count_cons]
    have hv : StdMap.getD st.indegree d 0 - 1 =
        initVal r packages d - decOf r d st.ordered + (pending.count d : Nat) := by
      rw [hget, hcnt]
      omega
    have hbook_other : ∀ x ∈ packages, x ∉ st.ordered → x ≠ d →
        StdMap.find (StdMap.insert st.indegree d (StdMap.getD st.indegree d 0 - 1)) x =
          some (initVal r packages x - decOf r x st.ordered + (pending.count x : Nat)) := by
      intro x hx hxo hne
      rw [StdMap.find_insert_ne _ _ _ _ hne, hinv.book x hx hxo]
      have : (d :: pending).count x = pending.count x := by
        have h' : ¬ (d == x) = true := by simpa using fun e => hne e.symm
        simp [List.count_cons, h']
      rw [this]
    have hkeys : ∀ x, (∃ v, StdMap.find
        (StdMap.insert st.indegree d (StdMap.getD st.indegree d 0 - 1)) x = some v) ↔
        x ∈ packages := by
      intro x
      by_cases hxd : x = d
      · subst hxd
        simp [StdMap.find_insert, hdP]
      · rw [StdMap.find_insert_ne _ _ _ _ hxd]
        exact hinv.keys x
    have hbook_all : ∀ x ∈ packages, x ∉ st.ordered →
        StdMap.find (StdMap.insert st.indegree d (StdMap.getD st.indegree d 0 - 1)) x =
          some (initVal r packages x - decOf r x st.ordered + (pending.count x : Nat)) := by
      intro x hx hxo
      by_cases hxd : x = d
      · subst hxd
        rw [StdMap.find_insert_self, hv]
      · exact hbook_other x hx hxo hxd
    by_cases hz : StdMap.getD st.indegree d 0 - 1 = 0
    · -- `d` is queued
      have hdmem : d ∉ st.queue ++ st.ordered := by
        intro hmem
        have := hinv.nonpos d hmem _ hbook
        rw [← hget] at this
        omega
      have hdknot : d ∉ knot := by
        intro hk
        obtain ⟨_, y, hyk, hyd⟩ := hknot d hk
        have hyo : y ∉ st.ordered := fun h =>
          hinv.knotFree y hyk (List.mem_append_right _ h)
        have := decOf_lt_initVal r hex packages st.ordered d y hord_nodup hord_sub
          (hknot y hyk).1 hyo hyd
        rw [hv] at hz
        omega
      have hrelax : relax st d =
          { st with indegree := StdMap.insert st.indegree d (StdMap.getD st.indegree d 0 - 1),
                    queue := st.queue ++ [d] } := by
        unfold relax
        simp [hkey, hproc, hz]
      rw [hrelax]
      refine ⟨hkeys, ?_, ?_, ?_, hinv.processed, hbook_all, ?_⟩
      · intro x hx
        simp only [List.append_assoc, List.mem_append, List.mem_singleton] at hx
        rcases hx with h | h | h
        · exact hinv.members x (List.mem_append_left _ h)
        · rw [h]; exact hdP
        · exact hinv.members x (List.mem_append_right _ h)
      · show ((st.queue ++ [d]) ++ st.ordered).Nodup
        rw [List.append_assoc, List.singleton_append, List.nodup_middle, List.nodup_cons]
        exact ⟨hdmem, hinv.nodup⟩
      · intro x hx v hfind
        by_cases hxd : x = d
        · subst hxd
          rw [StdMap.find_insert_self] at hfind
          simp only [Option.some.injEq] at hfind
          omega
        · rw [StdMap.find_insert_ne _ _ _ _ hxd] at hfind
          simp only [List.append_assoc, List.mem_append, List.mem_singleton] at hx
          rcases hx with h | h | h
          · exact hinv.nonpos x (List.mem_append_left _ h) v hfind
          · exact absurd h hxd
          · exact hinv.nonpos x (List.mem_append_right _ h) v hfind
      · intro x hx hmem
        simp only [List.append_assoc, List.mem_append, List.mem_singleton] at hmem
        rcases hmem with h | h | h
        · exact hinv.knotFree x hx (List.mem_append_left _ h)
        · rw [h] at hx; exact hdknot hx
        · exact hinv.knotFree x hx (List.mem_append_right _ h)
    · -- `d` stays where it is
      have hrelax : relax st d =
          { st with indegree := StdMap.insert st.indegree d (StdMap.getD st.indegree d 0 - 1) } := by
        unfold relax
        simp [hkey, hproc, hz]
      rw [hrelax]
      refine ⟨hkeys, hinv.members, hinv.nodup, ?_, hinv.processed, hbook_all, hinv.knotFree⟩
      intro x hx v hfind
      by_cases hxd : x = d
      · subst hxd
        rw [StdMap.find_insert_self] at hfind
        simp only [Option.some.injEq] at hfind
        have := hinv.nonpos x hx _ hbook
        rw [← hget] at this
        omega
      · rw [StdMap.find_insert_ne _ _ _ _ hxd] at hfind
        exact hinv.nonpos x hx v hfind
  · -- `d` is not a candidate, or is processed already: nothing changes
    have hrelax : relax st d = st := by
      unfold relax
      by_cases hkey : StdMap.count st.indegree d = true
      · have hproc : d ∈ st.processed := by
          by_contra h
          exact hcond ⟨hkey, h⟩
        simp [hkey, hproc]
      · simp [hkey]
    rw [hrelax]
    refine ⟨hinv.keys, hinv.members, hinv.nodup, hinv.nonpos, hinv.processed, ?_, hinv.knotFree⟩
    intro x hx hxo
    have hne : x ≠ d := by
      intro e
      subst e
      apply hcond
      refine ⟨(StdMap.count_eq_true_iff _ _).mpr ((hinv.keys x).mpr hx), ?_⟩
      intro hp
      exact hxo ((hinv.processed x).mp hp)
    rw [hinv.book x hx hxo]
    have : (d :: pending).count x = pending.count x := by
      have h' : ¬ (d == x) = true := by simpa using fun e => hne e.symm
      simp [List.count_cons, h']
    rw [this]

theorem foldl_relax_inv (r : DependencyResolver) (hex : ReverseExact r)
    (packages knot : List String)
    (hknot : ∀ x ∈ knot, x ∈ packages ∧ ∃ y ∈ knot, y ∈ depsOf r x)
    (ds : List String) :
    ∀ st : OrderState, OrderInv r packages knot ds st →
      OrderInv r packages knot [] (ds.foldl relax st) := by
  induction ds with
  | nil => intro st h; exact h
  | cons d rest ih =>
    intro st h
    simp only [List.foldl_cons]
    exact ih _ (relax_inv r hex packages knot hknot d rest st h)

theorem dequeue_inv (r : DependencyResolver) (packages knot : List String)
    (st : OrderState) (current : String) (rest : List String)
    (hq : st.queue = current :: rest) (hinv : OrderInv r packages knot [] st) :
    OrderInv r packages knot (r.findReverseDependencies current) (dequeue st current rest) := by
  have hperm : List.Perm (rest ++ (st.ordered ++ [current])) (st.queue ++ st.ordered) := by
    rw [hq, ← List.append_assoc]
    exact List.perm_append_singleton _ _
  have hmem : ∀ x, x ∈ rest ++ (st.ordered ++ [current]) ↔ x ∈ st.queue ++ st.ordered :=
    fun x => hperm.mem_iff
  have hcur : current ∉ st.ordered := by
    have hnd := hinv.nodup
    rw [hq] at hnd
    simp only [List.cons_append, List.nodup_cons, List.mem_append, not_or] at hnd
    exact hnd.1.2
  refine ⟨hinv.keys, ?_, ?_, ?_, ?_, ?_, ?_⟩
  · intro x hx
    exact hinv.members x ((hmem x).mp hx)
  · exact hperm.nodup_iff.mpr hinv.nodup
  · intro x hx v hfind
    exact hinv.nonpos x ((hmem x).mp hx) v hfind
  · intro x
    simp only [dequeue, List.mem_cons, List.mem_append, List.mem_singleton]
    rw [hinv.processed x]
    tauto
  · intro x hx hxo
    simp only [dequeue, List.mem_append, List.mem_singleton, not_or] at hxo
    have := hinv.book x hx hxo.1
    simp only [dequeue]
    rw [this, decOf_append_single]
    simp only [List.count_nil, Nat.cast_zero, add_zero, Nat.cast_add]
    congr 1
    omega
  · intro x hx hmem'
    exact hinv.knotFree x hx ((hmem x).mp hmem')

theorem orderStep_eq (r : DependencyResolver) (st : OrderState) (current : String)
    (rest : List String) :
    orderStep r.reverse_dependencies st current rest =
      (r.findReverseDependencies current).foldl relax (dequeue st current rest) := by
  unfold orderStep findReverseDependencies StdMap.getD
  cases StdMap.find r.reverse_dependencies current <;> rfl

theorem orderLoop_inv (r : DependencyResolver) (hex : ReverseExact r)
    (packages knot : List String)
    (hknot : ∀ x ∈ knot, x ∈ packages ∧ ∃ y ∈ knot, y ∈ depsOf r x) (fuel : Nat) :
    ∀ st st' : OrderState, OrderInv r packages knot [] st →
      orderLoop r.reverse_dependencies fuel st = some st' →
      OrderInv r packages knot [] st' := by
  induction fuel with
  | zero => intro st st' _ h; simp [orderLoop] at h
  | succ fuel ih =>
    intro st st' hinv h
    unfold orderLoop at h
    cases hq : st.queue with
    | nil =>
      simp only [hq, Option.some.injEq] at h
      subst h
      exact hinv
    | cons current rest =>
      simp only [hq] at h
      rw [orderStep_eq] at h
      exact ih _ _ (foldl_relax_inv r hex packages knot hknot _ _
        (dequeue_inv r packages knot st current rest hq hinv)) h

/-! ## The state in which the ordering loop starts -/

theorem initVal_of_unknown (r : DependencyResolver) (packages : List String) (x : String)
    (h : StdMap.find r.package_database x = none) : initVal r packages x = 0 := by
  simp [initVal, depsOf, h, countCandidateDeps]

theorem find_initIndegree_foldl (r : DependencyResolver) (packages l : List String) :
    ∀ (acc : StdMap Int) (x : String),
      StdMap.find
        (l.foldl
          (fun indegree pkg =>
            match StdMap.find r.package_database pkg with
            | some info =>
              StdMap.insert indegree pkg (countCandidateDeps packages info.dependencies)
            | none => indegree)
          acc) x =
        if x ∈ l ∧ StdMap.find r.package_database x ≠ none then some (initVal r packages x)
        else StdMap.find acc x := by
  induction l with
  | nil => intro acc x; simp
  | cons p rest ih =>
    intro acc x
    simp only [List.foldl_cons]
    rw [ih]
    by_cases h1 : x ∈ rest ∧ StdMap.find r.package_database x ≠ none
    · have h2 : x ∈ p :: rest ∧ StdMap.find r.package_database x ≠ none :=
        ⟨List.mem_cons_of_mem _ h1.1, h1.2⟩
      rw [if_pos h1, if_pos h2]
    · rw [if_neg h1]
      cases hp : StdMap.find r.package_database p with
      | none =>
        simp only
        by_cases h2 : x ∈ p :: rest ∧ StdMap.find r.package_database x ≠ none
        · exfalso
          rcases List.mem_cons.mp h2.1 with e | e
          · rw [e] at h2
            exact h2.2 hp
          · exact h1 ⟨e, h2.2⟩
        · rw [if_neg h2]
      | some info =>
        simp only [StdMap.find_insert]
        by_cases hxp : x = p
        · subst hxp
          have h2 : x ∈ x :: rest ∧ StdMap.find r.package_database x ≠ none :=
            ⟨List.mem_cons_self _ _, by simp [hp]⟩
          rw [if_pos h2]
          simp [initVal, depsOf, hp]
        · have h2 : ¬ (x ∈ p :: rest ∧ StdMap.find r.package_database x ≠ none) := by
            intro h
            rcases List.mem_cons.mp h.1 with e | e
            · exact hxp e
            · exact h1 ⟨e, h.2⟩
          rw [if_neg h2]
          simp only [hxp, if_false]

theorem initIndegree_good (r : DependencyResolver) (packages : List String) :
    GoodIndegree r packages (initIndegree r.package_database packages) := by
  unfold initIndegree
  constructor
  · intro x v h
    rw [find_initIndegree_foldl] at h
    by_cases hc : x ∈ packages ∧ StdMap.find r.package_database x ≠ none
    · rw [if_pos hc] at h
      simp only [Option.some.injEq] at h
      exact ⟨hc.1, h.symm⟩
    · rw [if_neg hc] at h
      simp only [StdMap.find] at h
      cases h
  · intro x hx hk
    rw [find_initIndegree_foldl]
    simp [hx, hk]

theorem seedStep_good (r : DependencyResolver) (packages : List String)
    (acc : StdMap Int × List String) (p : String) (hp : p ∈ packages)
    (hgood : GoodIndegree r packages acc.1) :
    GoodIndegree r packages (seedStep acc p).1 ∧
    StdMap.find (seedStep acc p).1 p = some (initVal r packages p) ∧
    (∀ x, (∃ v, StdMap.find acc.1 x = some v) → ∃ v, StdMap.find (seedStep acc p).1 x = some v) ∧
    (seedStep acc p).2 = acc.2 ++ (if initVal r packages p = 0 then [p] else []) := by
  cases hf : StdMap.find acc.1 p with
  | some v =>
    have hcount : StdMap.count acc.1 p = true := by simp [StdMap.count, hf]
    have hv := (hgood.1 p v hf).2
    have htouch : StdMap.touch acc.1 p 0 = acc.1 := StdMap.touch_of_count _ _ _ hcount
    have hget : StdMap.getD acc.1 p 0 = initVal r packages p := by
      rw [StdMap.getD_of_find _ _ _ _ hf, hv]
    unfold seedStep
    simp only [htouch, hget]
    by_cases hz : initVal r packages p = 0
    · simp only [hz, if_true]
      exact ⟨hgood, by rw [hf, hv, hz], fun x h => h, by simp⟩
    · simp only [hz, if_false]
      exact ⟨hgood, by rw [hf, hv], fun x h => h, by simp⟩
  | none =>
    have hcount : StdMap.count acc.1 p = false := by simp [StdMap.count, hf]
    have hunknown : StdMap.find r.package_database p = none := by
      by_contra hk
      have := hgood.2 p hp hk
      rw [hf] at this
      cases this
    have hz : initVal r packages p = 0 := initVal_of_unknown r packages p hunknown
    have htouch : StdMap.touch acc.1 p 0 = StdMap.insert acc.1 p 0 := by
      simp [StdMap.touch, hcount]
    have hget : StdMap.getD (StdMap.insert acc.1 p 0) p 0 = 0 := by
      simp [StdMap.getD, StdMap.find_insert]
    unfold seedStep
    simp only [htouch, hget, hz, if_true]
    refine ⟨⟨?_, ?_⟩, ?_, ?_, by simp⟩
    · intro x v h
      rw [StdMap.find_insert] at h
      by_cases hxp : x = p
      · subst hxp
        simp only [if_true, Option.some.injEq] at h
        exact ⟨hp, by rw [hz, h]⟩
      · simp only [hxp, if_false] at h
        exact hgood.1 x v h
    · intro x hx hk
      have hxp : x ≠ p := by
        intro e
        rw [e] at hk
        exact hk hunknown
      rw [StdMap.find_insert_ne _ _ _ _ hxp]
      exact hgood.2 x hx hk
    · exact StdMap.find_insert_self _ _ _
    · intro x h
      rw [StdMap.find_insert]
      by_cases hxp : x = p
      · exact ⟨0, by simp [hxp]⟩
      · simpa [hxp] using h

theorem foldl_seedStep_good (r : DependencyResolver) (packages l : List String) :
    ∀ acc : StdMap Int × List String, (∀ p ∈ l, p ∈ packages) →
      GoodIndegree r packages acc.1 →
      GoodIndegree r packages (l.foldl seedStep acc).1 ∧
      (∀ x, (x ∈ l ∨ ∃ v, StdMap.find acc.1 x = some v) →
        ∃ v, StdMap.find (l.foldl seedStep acc).1 x = some v) ∧
      (l.foldl seedStep acc).2 =
        acc.2 ++ l.filter (fun x => decide (initVal r packages x = 0)) := by
  induction l with
  | nil =>
    intro acc _ hgood
    refine ⟨hgood, ?_, by simp⟩
    intro x hx
    rcases hx with h | h
    · simp at h
    · exact h
  | cons p rest ih =>
    intro acc hsub hgood
    have hp : p ∈ packages := hsub p (List.mem_cons_self _ _)
    obtain ⟨h1, h2, h3, h4⟩ := seedStep_good r packages acc p hp hgood
    obtain ⟨g1, g2, g3⟩ := ih (seedStep acc p)
      (fun q hq => hsub q (List.mem_cons_of_mem _ hq)) h1
    simp only [List.foldl_cons]
    refine ⟨g1, ?_, ?_⟩
    · intro x hx
      apply g2
      rcases hx with h | h
      · rcases List.mem_cons.mp h with e | e
        · right
          rw [e]
          exact ⟨_, h2⟩
        · left
          exact e
      · right
        exact h3 x h
    · rw [g3, h4, List.filter_cons]
      by_cases hz : initVal r packages p = 0
      · simp [hz]
      · simp [hz]

/-- The state in which the loop of `getInstallationOrder` starts. -/
theorem orderInit_spec (r : DependencyResolver) (packages : List String) :
    (∀ x, (∃ v, StdMap.find (orderInit r packages).indegree x = some v) ↔ x ∈ packages) ∧
    (∀ x ∈ packages,
      StdMap.find (orderInit r packages).indegree x = some (initVal r packages x)) ∧
    (orderInit r packages).queue =
      packages.filter (fun x => decide (initVal r packages x = 0)) ∧
    (orderInit r packages).ordered = [] ∧ (orderInit r packages).processed = [] := by
  obtain ⟨g1, g2, g3⟩ := foldl_seedStep_good r packages packages
    (initIndegree r.package_database packages, []) (fun p hp => hp)
    (initIndegree_good r packages)
  have hkey : ∀ x ∈ packages,
      StdMap.find (orderInit r packages).indegree x = some (initVal r packages x) := by
    intro x hx
    obtain ⟨v, hv⟩ := g2 x (Or.inl hx)
    have := (g1.1 x v hv).2
    simp only [orderInit]
    rw [hv, this]
  refine ⟨?_, hkey, ?_, rfl, rfl⟩
  · intro x
    constructor
    · rintro ⟨v, hv⟩
      exact (g1.1 x v hv).1
    · intro hx
      exact ⟨_, hkey x hx⟩
  · simp only [orderInit]
    rw [g3]
    simp

theorem orderInit_inv (r : DependencyResolver) (hex : ReverseExact r)
    (packages knot : List String) (hpk : packages.Nodup)
    (hknot : ∀ x ∈ knot, x ∈ packages ∧ ∃ y ∈ knot, y ∈ depsOf r x) :
    OrderInv r packages knot [] (orderInit r packages) := by
  obtain ⟨hkeys, hval, hqueue, hord, hproc⟩ := orderInit_spec r packages
  refine ⟨hkeys, ?_, ?_, ?_, ?_, ?_, ?_⟩
  · intro x hx
    rw [hqueue, hord, List.append_nil] at hx
    exact (List.mem_filter.mp hx).1
  · rw [hqueue, hord, List.append_nil]
    exact hpk.filter _
  · intro x hx v hfind
    rw [hqueue, hord, List.append_nil] at hx
    obtain ⟨hxP, hz⟩ := List.mem_filter.mp hx
    rw [hval x hxP] at hfind
    simp only [Option.some.injEq] at hfind
    simp only [decide_eq_true_eq] at hz
    omega
  · intro x
    rw [hord, hproc]
  · intro x hx _
    rw [hval x hx, hord]
    simp [decOf]
  · intro x hx hmem
    rw [hqueue, hord, List.append_nil] at hmem
    obtain ⟨_, hz⟩ := List.mem_filter.mp hmem
    simp only [decide_eq_true_eq] at hz
    obtain ⟨_, y, hyk, hyd⟩ := hknot x hx
    have := decOf_lt_initVal r hex packages [] x y List.nodup_nil
      (fun o ho => by simp at ho) (hknot y hyk).1 (by simp) hyd
    simp only [decOf, List.map_nil, List.sum_nil, Nat.cast_zero] at this
    omega

/-- With an exact reverse index and a duplicate-free candidate list, no member of
a set of candidates each of which depends on a member is ever ordered. -/
theorem getInstallationOrder_avoids_knot (r : DependencyResolver) (hex : ReverseExact r)
    (packages knot : List String) (hpk : packages.Nodup)
    (hknot : ∀ x ∈ knot, x ∈ packages ∧ ∃ y ∈ knot, y ∈ depsOf r x) (X : String)
    (hX : X ∈ knot) : X ∉ r.getInstallationOrder packages := by
  unfold getInstallationOrder
  cases h : orderLoop r.reverse_dependencies (2 * packages.length + 1) (orderInit r packages) with
  | none => simp
  | some st =>
    have hinv := orderLoop_inv r hex packages knot hknot _ _ _
      (orderInit_inv r hex packages knot hpk hknot) h
    intro hmem
    exact hinv.knotFree X hX (List.mem_append_right _ hmem)

theorem chainDeps_next (r : DependencyResolver) (l : List String) :
    ∀ b : String, chainDeps r (b :: l) →
      ∀ x ∈ (b :: l).dropLast, ∃ y ∈ l, y ∈ depsOf r x := by
  induction l with
  | nil => intro b _ x hx; simp at hx
  | cons c rest ih =>
    intro b hchain x hx
    simp only [chainDeps] at hchain
    have hdl : (b :: c :: rest).dropLast = b :: (c :: rest).dropLast := rfl
    rw [hdl] at hx
    rcases List.mem_cons.mp hx with e | e
    · rw [e]
      exact ⟨c, List.mem_cons_self _ _, hchain.1⟩
    · obtain ⟨y, hy, hyd⟩ := ih c hchain.2 x e
      exact ⟨y, List.mem_cons_of_mem _ hy, hyd⟩

/-- Every member of a dependency cycle depends on a member. -/
theorem cycle_is_knot (r : DependencyResolver) (cycle : List String)
    (h : IsDependencyCycle r cycle) : ∀ x ∈ cycle, ∃ y ∈ cycle, y ∈ depsOf r x := by
  cases cycle with
  | nil => exact absurd h (by simp [IsDependencyCycle])
  | cons a rest =>
    intro x hx
    have hchain : chainDeps r (a :: (rest ++ [a])) := h
    have hdl : (a :: (rest ++ [a])).dropLast = a :: rest := by
      rw [← List.cons_append, List.dropLast_concat]
    obtain ⟨y, hy, hyd⟩ := chainDeps_next r (rest ++ [a]) a hchain x (by rw [hdl]; exact hx)
    refine ⟨y, ?_, hyd⟩
    rcases List.mem_append.mp hy with e | e
    · exact List.mem_cons_of_mem _ e
    · simp only [List.mem_singleton] at e
      rw [e]
      exact List.mem_cons_self _ _

end DependencyResolver

/-! ## The cache budget -/

namespace StdMap

theorem mem_of_find {β : Type} (m : StdMap β) (k : String) (v : β)
    (h : find m k = some v) : (k, v) ∈ m := by
  induction m with
  | nil => simp [find] at h
  | cons hd tl ih =>
    obtain ⟨k', v'⟩ := hd
    simp only [find] at h
    by_cases h1 : k = k'
    · simp only [h1, if_true, Option.some.injEq] at h
      simp [h1, h]
    · simp only [h1, if_false] at h
      exact List.mem_cons_of_mem _ (ih h)

theorem sum_filter_erase_le {β : Type} (P : String → Bool) (f : β → Nat) (m : StdMap β)
    (k : String) :
    (((erase m k).filter (fun kv => P kv.1)).map (fun kv => f kv.2)).sum ≤
      ((m.filter (fun kv => P kv.1)).map (fun kv => f kv.2)).sum := by
  induction m with
  | nil => simp [erase]
  | cons hd tl ih =>
    obtain ⟨k', v'⟩ := hd
    simp only [erase]
    by_cases h1 : k = k'
    · simp only [h1, if_true, List.filter_cons]
      cases hP : P k' <;> simp
    · simp only [h1, if_false, List.filter_cons]
      cases hP : P k' <;> simp [ih]

end StdMap

theorem lastIndexOf_isSome (c : Char) (l : List Char) (h : c ∈ l) :
    (lastIndexOf c l).isSome = true := by
  induction l with
  | nil => simp at h
  | cons x xs ih =>
    simp only [lastIndexOf]
    cases hx : lastIndexOf c xs with
    | some i => simp
    | none =>
      have hnot : c ∉ xs := by
        intro hmem
        have := ih hmem
        simp [hx] at this
      have hcx : x = c := by
        rcases List.mem_cons.mp h with h1 | h1
        · exact h1.symm
        · exact absurd h1 hnot
      simp [hcx]

/-- Every cache key `name-version` contains a dash, so `find_last_of('-')` finds one. -/
theorem find_last_of_cacheKey (package_name version : String) :
    (find_last_of (package_name ++ "-" ++ version) '-').isSome = true := by
  unfold find_last_of
  apply lastIndexOf_isSome
  simp

namespace PackageCache

theorem mem_insertByTime (e x : String × Int) (l : List (String × Int)) :
    x ∈ insertByTime e l ↔ x = e ∨ x ∈ l := by
  induction l with
  | nil => simp [insertByTime]
  | cons y ys ih =>
    simp only [insertByTime]
    split
    · simp
    · simp only [List.mem_cons, ih]
      tauto

theorem mem_foldl_insertByTime (l acc : List (String × Int)) (x : String × Int) :
    x ∈ l.foldl (fun acc e => insertByTime e acc) acc ↔ x ∈ acc ∨ x ∈ l := by
  induction l generalizing acc with
  | nil => simp
  | cons y ys ih =>
    simp only [List.foldl_cons, ih, mem_insertByTime, List.mem_cons]
    tauto

theorem mem_sortByTime (l : List (String × Int)) (x : String × Int) :
    x ∈ sortByTime l ↔ x ∈ l := by
  simp [sortByTime, mem_foldl_insertByTime]

/-- With `cache_mutex` held and the size over the budget, the eviction loop does
not return once it meets a key with a dash. -/
theorem evictLoop_locked (env : Env) (l : List (String × Int)) (size : Nat)
    (c : PackageCache) (fs : FileSystem) (hsize : c.max_size < size)
    (hdash : ∃ kv ∈ l, (find_last_of kv.1 '-').isSome = true) :
    evictLoop env true l size c fs = none := by
  induction l with
  | nil => simp at hdash
  | cons hd tl ih =>
    obtain ⟨key, t⟩ := hd
    have hnot : ¬ size ≤ c.max_size := by omega
    simp only [evictLoop, hnot, if_false]
    cases hk : find_last_of key '-' with
    | some i => simp [removeFromCache]
    | none =>
      simp only
      apply ih
      obtain ⟨kv, hmem, hkv⟩ := hdash
      rcases List.mem_cons.mp hmem with h1 | h1
      · subst h1
        simp [hk] at hkv
      · exact ⟨kv, h1, hkv⟩

theorem archiveSize_le_getCacheSize (c : PackageCache) (fs : FileSystem) :
    archiveSize c fs ≤ getCacheSize c fs := by
  unfold archiveSize getCacheSize
  generalize fs.files = m
  induction m with
  | nil => simp
  | cons hd tl ih =>
    simp only [List.filter_cons]
    cases h1 : FileSystem.inDir c.cache_dir hd.1 <;> cases h2 : (hd.1 != indexFile c) <;>
      simp [ih] <;> omega

theorem dumpSize_erase_le (index : StdMap Int) (key : String) :
    dumpSize (StdMap.erase index key) ≤ dumpSize index := by
  have hsum := StdMap.sum_filter_erase_le (fun _ => true)
    (fun t : Int => t.natAbs) index key
  have key2 : ∀ m : StdMap Int, m ≠ [] → dumpSize m =
      2 + (m.map (fun kv =>
        8 + kv.1.length + (Nat.toDigits 10 kv.2.natAbs).length + (if kv.2 < 0 then 1 else 0))).sum := by
    intro m hm
    cases m with
    | nil => exact absurd rfl hm
    | cons hd tl => rfl
  have hle : ∀ m : StdMap Int, ((StdMap.erase m key).map (fun kv =>
        8 + kv.1.length + (Nat.toDigits 10 kv.2.natAbs).length + (if kv.2 < 0 then 1 else 0))).sum ≤
      (m.map (fun kv =>
        8 + kv.1.length + (Nat.toDigits 10 kv.2.natAbs).length + (if kv.2 < 0 then 1 else 0))).sum := by
    intro m
    induction m with
    | nil => simp [StdMap.erase]
    | cons hd tl ih =>
      obtain ⟨k', v'⟩ := hd
      simp only [StdMap.erase]
      split
      · simp
      · simp only [List.map_cons, List.sum_cons]
        omega
  by_cases h1 : index = []
  · subst h1
    simp [StdMap.erase]
  · by_cases h2 : StdMap.erase index key = []
    · rw [h2, key2 index h1]
      have : 8 ≤ (index.map (fun kv =>
          8 + kv.1.length + (Nat.toDigits 10 kv.2.natAbs).length + (if kv.2 < 0 then 1 else 0))).sum := by
        cases index with
        | nil => exact absurd rfl h1
        | cons hd tl =>
          simp only [List.map_cons, List.sum_cons]
          omega
      simp only [dumpSize]
      omega
    · rw [key2 _ h2, key2 index h1]
      have := hle index
      omega

end PackageCache

/-! ## Installing a package that conflicts with an installed one -/

namespace DependencyResolver

theorem resolveDependencies_no_deps (r : DependencyResolver) (X : String) (rec : PackageInfo)
    (hdb : StdMap.find r.package_database X = some rec) (hdeps : rec.dependencies = []) :
    r.resolveDependencies X true = [] := by
  simp [resolveDependencies, resolveLoop, hdb, hdeps, DEPENDENCY_RESOLUTION_DEPTH]

theorem relax_single_processed (X : String) (o : List String) (d : String) :
    relax { ordered := o, processed := [X], indegree := [(X, 0)], queue := [] } d =
      { ordered := o, processed := [X], indegree := [(X, 0)], queue := [] } := by
  unfold relax
  by_cases h : d = X
  · simp [h]
  · simp [StdMap.count, StdMap.find, h]

theorem foldl_relax_single_processed (X : String) (o : List String) (ds : List String) :
    ds.foldl relax { ordered := o, processed := [X], indegree := [(X, 0)], queue := [] } =
      { ordered := o, processed := [X], indegree := [(X, 0)], queue := [] } := by
  induction ds with
  | nil => rfl
  | cons d rest ih => simp only [List.foldl_cons, relax_single_processed, ih]

theorem getInstallationOrder_single (r : DependencyResolver) (X : String) (rec : PackageInfo)
    (hdb : StdMap.find r.package_database X = some rec) (hdeps : rec.dependencies = []) :
    r.getInstallationOrder [X] = [X] := by
  have hinit : orderInit r [X] =
      { ordered := [], processed := [], indegree := [(X, 0)], queue := [X] } := by
    simp [orderInit, initIndegree, seedStep, hdb, hdeps, countCandidateDeps, StdMap.insert,
      StdMap.count, StdMap.find, StdMap.insertNew, StdMap.touch, StdMap.getD]
  have hstep : orderStep r.reverse_dependencies
      { ordered := [], processed := [], indegree := [(X, 0)], queue := [X] } X [] =
      { ordered := [X], processed := [X], indegree := [(X, 0)], queue := [] } := by
    unfold orderStep
    cases StdMap.find r.reverse_dependencies X with
    | none => simp [dequeue]
    | some ds =>
      simp only [dequeue, List.nil_append]
      exact foldl_relax_single_processed X [X] ds
  simp [getInstallationOrder, hinit, orderLoop, hstep]

end DependencyResolver

namespace ElazarPackageManager

open DependencyResolver PackageCache

theorem installLoop_single (env : Env) (m : ElazarPackageManager) (pkg : String) :
    installLoop env m [pkg] = installOne env m pkg := by
  simp only [installLoop]
  rcases h : installOne env m pkg with ⟨outcome, m1⟩
  rcases outcome with _ | b
  · rfl
  · cases b <;> rfl

/-- The installer refuses a record whose name has a stored record that lists an
installed package as a conflict, and changes nothing. -/
theorem installer_refuses (install_root : String) (resolver : DependencyResolver)
    (fs : FileSystem) (pkg : PackageInfo) (package_path : String) (Y : String)
    (r ry : PackageInfo)
    (hdb : StdMap.find resolver.package_database pkg.name = some r) (hY : Y ∈ r.conflicts)
    (hdbY : StdMap.find resolver.package_database Y = some ry) (hYinst : ry.installed = true) :
    PackageInstaller.installPackage install_root resolver fs pkg package_path =
      (some false, resolver, fs) := by
  have hc : resolver.checkConflicts pkg.name = (true, resolver) := by
    rw [checkConflicts_eq]
    simp only [Prod.mk.injEq, decide_eq_true_eq, and_true]
    exact ⟨r, hdb, Y, hY, ry, hdbY, hYinst⟩
  simp [PackageInstaller.installPackage, hc]

theorem downloads_append_install (t : List Event) (name : String) (ok : Bool) :
    (t ++ [Event.install name ok]).filter
        (fun e => match e with | Event.download _ _ _ _ => true | _ => false) =
      t.filter (fun e => match e with | Event.download _ _ _ _ => true | _ => false) := by
  simp [List.filter_append]

theorem downloads_append_download (t : List Event) (url path sha : String) (ok : Bool) :
    (t ++ [Event.download url path sha ok]).filter
        (fun e => match e with | Event.download _ _ _ _ => true | _ => false) =
      t.filter (fun e => match e with | Event.download _ _ _ _ => true | _ => false) ++
        [Event.download url path sha ok] := by
  simp [List.filter_append]

end ElazarPackageManager

/-! ## The start name stays out of the resolved list -/

namespace DependencyResolver

theorem visitDep_keeps_out (recursive : Bool) (name : String) (st : ResolveState)
    (dep : String) (h : name ∈ st.visited ∧ name ∉ st.resolved) :
    name ∈ (visitDep recursive st dep).visited ∧ name ∉ (visitDep recursive st dep).resolved := by
  unfold visitDep
  by_cases hd : dep ∈ st.visited
  · rw [if_pos hd]
    exact h
  · rw [if_neg hd]
    refine ⟨List.mem_cons_of_mem _ h.1, ?_⟩
    intro hm
    rcases List.mem_append.1 hm with hm | hm
    · exact h.2 hm
    · have hnd : name = dep := by simpa using hm
      exact hd (hnd ▸ h.1)

theorem foldl_visitDep_keeps_out (recursive : Bool) (name : String) (deps : List String) :
    ∀ st : ResolveState, (name ∈ st.visited ∧ name ∉ st.resolved) →
      name ∈ (deps.foldl (visitDep recursive) st).visited ∧
        name ∉ (deps.foldl (visitDep recursive) st).resolved := by
  induction deps with
  | nil => intro st h; exact h
  | cons d rest ih =>
    intro st h
    exact ih _ (visitDep_keeps_out recursive name st d h)

theorem resolveLoop_keeps_out (db : StdMap PackageInfo) (recursive : Bool) (name : String) :
    ∀ (fuel : Nat) (st st2 : ResolveState), (name ∈ st.visited ∧ name ∉ st.resolved) →
      resolveLoop db recursive fuel st = some st2 → name ∉ st2.resolved := by
  intro fuel
  induction fuel with
  | zero => intro st st2 _ h; simp [resolveLoop] at h
  | succ fuel ih =>
    intro st st2 hst h
    unfold resolveLoop at h
    cases hq : st.to_process with
    | nil =>
      simp only [hq] at h
      cases h
      exact hst.2
    | cons current rest =>
      simp only [hq] at h
      by_cases hlen : st.resolved.length < DEPENDENCY_RESOLUTION_DEPTH
      · rw [if_pos hlen] at h
        cases hf : StdMap.find db current with
        | none =>
          simp only [hf] at h
          exact ih { st with to_process := rest } st2 hst h
        | some pkg =>
          simp only [hf] at h
          exact ih _ st2 (foldl_visitDep_keeps_out recursive name pkg.dependencies
            { st with to_process := rest } hst) h
      · rw [if_neg hlen] at h
        cases h
        exact hst.2

end DependencyResolver

/-! ## Maps with unique keys, and the downloaded file -/

namespace StdMap

theorem find_eq_none_iff {β : Type} (m : StdMap β) (k : String) :
    find m k = none ↔ k ∉ m.map Prod.fst := by
  induction m with
  | nil => simp [find]
  | cons hd tl ih =>
    obtain ⟨k', v'⟩ := hd
    by_cases h : k = k'
    · simp [find, h]
    · simp [find, h, ih]

theorem map_fst_replace {β : Type} (m : StdMap β) (k : String) (v : β) :
    (replace m k v).map Prod.fst = m.map Prod.fst := by
  induction m with
  | nil => simp [replace]
  | cons hd tl ih =>
    obtain ⟨k', v'⟩ := hd
    simp only [replace]
    split <;> simp [ih]

theorem map_fst_insertNew_perm {β : Type} (m : StdMap β) (k : String) (v : β) :
    ((insertNew m k v).map Prod.fst).Perm (k :: m.map Prod.fst) := by
  induction m with
  | nil => simp [insertNew]
  | cons hd tl ih =>
    obtain ⟨k', v'⟩ := hd
    simp only [insertNew]
    split
    · simp
    · simp only [List.map_cons]
      exact (List.Perm.cons k' ih).trans (List.Perm.swap k k' _)

theorem nodup_keys_insert {β : Type} (m : StdMap β) (k : String) (v : β)
    (h : (m.map Prod.fst).Nodup) : ((insert m k v).map Prod.fst).Nodup := by
  unfold insert
  cases hf : find m k with
  | some w =>
    simp only [count, hf, Option.isSome_some, if_true]
    rw [map_fst_replace]
    exact h
  | none =>
    simp only [count, hf, Option.isSome_none, Bool.false_eq_true, if_false]
    rw [(map_fst_insertNew_perm m k v).nodup_iff]
    exact List.nodup_cons.2 ⟨(find_eq_none_iff m k).1 hf, h⟩

theorem find_erase_self {β : Type} (m : StdMap β) (k : String)
    (h : (m.map Prod.fst).Nodup) : find (erase m k) k = none := by
  induction m with
  | nil => simp [erase, find]
  | cons hd tl ih =>
    obtain ⟨k', v'⟩ := hd
    simp only [List.map_cons, List.nodup_cons] at h
    by_cases hk : k = k'
    · subst hk
      simp only [erase, if_true]
      exact (find_eq_none_iff tl k).2 h.1
    · simp only [erase, hk, if_false, find]
      exact ih h.2

end StdMap

/-! ## Extraction of archives without `..` components -/

theorem splitPath_ne_nil (l : List Char) : splitPath l ≠ [] := by
  cases l with
  | nil => simp [splitPath]
  | cons c rest =>
    simp only [splitPath]
    split
    · simp
    · split <;> simp

theorem splitPath_append (a b : List Char) :
    splitPath (a ++ '/' :: b) = splitPath a ++ splitPath b := by
  induction a with
  | nil => simp [splitPath]
  | cons c rest ih =>
    simp only [List.cons_append, splitPath, List.append_eq]
    rw [ih]
    by_cases hc : c = '/'
    · simp [hc]
    · simp only [hc, if_false]
      cases hs : splitPath rest with
      | nil => exact absurd hs (splitPath_ne_nil rest)
      | cons hd tl => simp

theorem foldl_resolveStep_prefix (comps : List (List Char))
    (h : ['.', '.'] ∉ comps) :
    ∀ stack : List (List Char), stack <+: comps.foldl resolveStep stack := by
  induction comps with
  | nil => intro stack; exact List.prefix_refl _
  | cons c rest ih =>
    intro stack
    have hc : c ≠ ['.', '.'] := fun hc => h (hc ▸ List.mem_cons_self _ _)
    have hrest : ['.', '.'] ∉ rest := fun hm => h (List.mem_cons_of_mem _ hm)
    simp only [List.foldl_cons]
    have hstep : stack <+: resolveStep stack c := by
      unfold resolveStep
      split
      · exact List.prefix_refl _
      · exact List.prefix_append _ _
    exact hstep.trans (ih hrest _)

theorem inside_append (dir rel : String) (h : NoDotDot rel) :
    Inside dir (dir ++ "/" ++ rel) := by
  unfold Inside resolvePath
  have hd : (dir ++ "/" ++ rel).data = dir.data ++ '/' :: rel.data := by
    simp [String.data_append]
  rw [hd, splitPath_append, List.foldl_append]
  exact foldl_resolveStep_prefix _ h _

theorem lastIndexOf_split (c : Char) (l : List Char) :
    ∀ i, lastIndexOf c l = some i → l = l.take i ++ c :: l.drop (i + 1) := by
  induction l with
  | nil => intro i h; simp [lastIndexOf] at h
  | cons x xs ih =>
    intro i h
    simp only [lastIndexOf] at h
    cases hl : lastIndexOf c xs with
    | some j =>
      simp only [hl, Option.some.injEq] at h
      subst h
      simp only [List.take_succ_cons, List.drop_succ_cons, List.cons_append]
      rw [← ih j hl]
    | none =>
      simp only [hl] at h
      by_cases hx : x = c
      · simp only [hx, if_true, Option.some.injEq] at h
        subst h
        simp [hx]
      · simp [hx] at h

theorem lastIndexOf_append_sep (c : Char) (a b : List Char) :
    lastIndexOf c (a ++ c :: b) =
      match lastIndexOf c b with
      | some j => some (a.length + 1 + j)
      | none => some a.length := by
  induction a with
  | nil =>
    cases hb : lastIndexOf c b with
    | some j =>
      simp only [List.nil_append, lastIndexOf, hb, List.length_nil, Option.some.injEq]
      omega
    | none => simp [lastIndexOf, hb]
  | cons x xs ih =>
    simp only [List.cons_append, lastIndexOf, List.append_eq]
    rw [ih]
    cases hb : lastIndexOf c b with
    | some j =>
      simp only [List.length_cons, Option.some.injEq]
      omega
    | none => simp

theorem take_append_sep (a b : List Char) (c : Char) (j : Nat) :
    (a ++ c :: b).take (a.length + 1 + j) = a ++ c :: b.take j := by
  rw [Nat.add_assoc, List.take_append, Nat.add_comm 1 j, List.take_succ_cons]

theorem inside_parent_path (dir rel : String) (h : NoDotDot rel) :
    Inside dir (parent_path (dir ++ "/" ++ rel)) := by
  have hd : (dir ++ "/" ++ rel).data = dir.data ++ '/' :: rel.data := by
    simp [String.data_append]
  unfold parent_path find_last_of
  rw [hd, lastIndexOf_append_sep]
  cases hl : lastIndexOf '/' rel.data with
  | none =>
    have hp : substr (dir ++ "/" ++ rel) 0 dir.data.length = dir := by
      unfold substr
      rw [hd]
      simp
    simp only [hp]
    exact List.prefix_refl _
  | some j =>
    have hsplit := lastIndexOf_split '/' rel.data j hl
    have hp : substr (dir ++ "/" ++ rel) 0 (dir.data.length + 1 + j)
        = dir ++ "/" ++ ⟨rel.data.take j⟩ := by
      unfold substr
      apply String.ext
      rw [hd]
      simp only [List.drop_zero, String.data_append, take_append_sep]
      simp
    simp only [hp]
    apply inside_append
    unfold NoDotDot at h ⊢
    rw [hsplit, splitPath_append] at h
    intro hm
    exact h (List.mem_append_left _ hm)

theorem slashPrefixes_append (a b : List Char) :
    slashPrefixes (a ++ '/' :: b) =
      slashPrefixes a ++ a :: (slashPrefixes b).map (fun pre => a ++ '/' :: pre) := by
  induction a with
  | nil => simp [slashPrefixes]
  | cons c rest ih =>
    simp only [List.cons_append, slashPrefixes, List.append_eq, ih]
    by_cases hc : c = '/' <;> simp [hc, Function.comp_def]

theorem mem_slashPrefixes (l pre : List Char) (h : pre ∈ slashPrefixes l) :
    ∃ rest, l = pre ++ '/' :: rest := by
  induction l generalizing pre with
  | nil => simp [slashPrefixes] at h
  | cons c rest ih =>
    simp only [slashPrefixes, List.mem_append, List.mem_map] at h
    rcases h with h | ⟨q, hq, rfl⟩
    · by_cases hc : c = '/'
      · simp only [hc, if_true, List.mem_singleton] at h
        subst h
        exact ⟨rest, by simp [hc]⟩
      · simp [hc] at h
    · obtain ⟨r, hr⟩ := ih q hq
      exact ⟨r, by simp [hr]⟩

theorem mem_ancestors (p q : String) :
    q ∈ ancestors p ↔ q.data ∈ slashPrefixes p.data ∧ q ≠ "" := by
  unfold ancestors
  simp only [List.mem_reverse, List.mem_map, List.mem_filter, decide_eq_true_eq]
  constructor
  · rintro ⟨pre, ⟨hpre, hne⟩, rfl⟩
    refine ⟨hpre, ?_⟩
    intro h
    apply hne
    have := congrArg String.data h
    simpa using this
  · rintro ⟨hq, hne⟩
    refine ⟨q.data, ⟨hq, ?_⟩, rfl⟩
    intro h
    apply hne
    apply String.ext
    simpa using h

theorem slashPrefixes_of_no_slash (l : List Char) (h : lastIndexOf '/' l = none) :
    slashPrefixes l = [] := by
  induction l with
  | nil => rfl
  | cons x xs ih =>
    simp only [lastIndexOf] at h
    cases hl : lastIndexOf '/' xs with
    | some j => simp [hl] at h
    | none =>
      simp only [hl] at h
      by_cases hx : x = '/'
      · simp [hx] at h
      · simp [slashPrefixes, hx, ih hl]

theorem lastIndexOf_drop (c : Char) (l : List Char) :
    ∀ i, lastIndexOf c l = some i → lastIndexOf c (l.drop (i + 1)) = none := by
  induction l with
  | nil => intro i h; simp [lastIndexOf] at h
  | cons x xs ih =>
    intro i h
    simp only [lastIndexOf] at h
    cases hl : lastIndexOf c xs with
    | some j =>
      simp only [hl, Option.some.injEq] at h
      subst h
      simpa using ih j hl
    | none =>
      simp only [hl] at h
      by_cases hx : x = c
      · simp only [hx, if_true, Option.some.injEq] at h
        subst h
        simpa using hl
      · simp [hx] at h

/-- The ancestors of a path are its parent path followed by the ancestors of
that, as long as the parent path is not empty. -/
theorem ancestors_eq_chain (p : String) :
    ancestors p =
      if parent_path p = "" then [] else parent_path p :: ancestors (parent_path p) := by
  unfold parent_path find_last_of
  cases hl : lastIndexOf '/' p.data with
  | none =>
    simp [ancestors, slashPrefixes_of_no_slash _ hl]
  | some i =>
    have hsplit := lastIndexOf_split '/' p.data i hl
    have hdrop := lastIndexOf_drop '/' p.data i hl
    have hsub : substr p 0 i = ⟨p.data.take i⟩ := by simp [substr]
    simp only [hsub]
    have hpre : slashPrefixes p.data = slashPrefixes (p.data.take i) ++ [p.data.take i] := by
      conv_lhs => rw [hsplit]
      rw [slashPrefixes_append, slashPrefixes_of_no_slash _ hdrop]
      rfl
    by_cases he : p.data.take i = []
    · have h1 : (⟨p.data.take i⟩ : String) = "" := by rw [he]
      rw [if_pos h1]
      simp [ancestors, hpre, he, slashPrefixes]
    · have h1 : (⟨p.data.take i⟩ : String) ≠ "" := by
        intro h
        apply he
        have := congrArg String.data h
        simpa using this
      rw [if_neg h1]
      simp [ancestors, hpre, List.filter_append, he]

namespace FileSystem

theorem createChain_files (l : List String) :
    ∀ fs fs1 : FileSystem, createChain fs l = some fs1 → fs1.files = fs.files := by
  induction l with
  | nil =>
    intro fs fs1 h
    simp only [createChain, Option.some.injEq] at h
    rw [← h]
  | cons path parents ih =>
    intro fs fs1 h
    simp only [createChain] at h
    split at h
    · simp only [Option.some.injEq] at h
      rw [← h]
    · split at h
      · cases h
      · cases hc : createChain fs parents with
        | none => simp [hc] at h
        | some fs2 =>
          simp only [hc, Option.some.injEq] at h
          rw [← h]
          exact ih fs fs2 hc

theorem createChain_dirs (l : List String) :
    ∀ fs fs1 : FileSystem, createChain fs l = some fs1 →
      ∀ p, p ∈ fs1.dirs → p ∈ fs.dirs ∨ p ∈ l := by
  induction l with
  | nil =>
    intro fs fs1 h p hp
    simp only [createChain, Option.some.injEq] at h
    rw [← h] at hp
    exact Or.inl hp
  | cons path parents ih =>
    intro fs fs1 h p hp
    simp only [createChain] at h
    split at h
    · simp only [Option.some.injEq] at h
      rw [← h] at hp
      exact Or.inl hp
    · split at h
      · cases h
      · cases hc : createChain fs parents with
        | none => simp [hc] at h
        | some fs2 =>
          simp only [hc, Option.some.injEq] at h
          rw [← h] at hp
          rcases List.mem_append.1 hp with hp | hp
          · rcases ih fs fs2 hc p hp with h1 | h1
            · exact Or.inl h1
            · exact Or.inr (List.mem_cons_of_mem _ h1)
          · exact Or.inr (List.mem_cons.2 (Or.inl (by simpa using hp)))

theorem create_directories_files (fs fs1 : FileSystem) (path : String)
    (h : fs.create_directories path = some fs1) : fs1.files = fs.files := by
  unfold create_directories at h
  split at h
  · cases h
  · exact createChain_files _ fs fs1 h

theorem create_directories_dirs (fs fs1 : FileSystem) (path : String)
    (h : fs.create_directories path = some fs1) (p : String) (hp : p ∈ fs1.dirs) :
    p ∈ fs.dirs ∨ (path ≠ "" ∧ (p = path ∨ p ∈ ancestors path)) := by
  unfold create_directories at h
  split at h
  · cases h
  · rename_i hne
    rcases createChain_dirs _ fs fs1 h p hp with h1 | h1
    · exact Or.inl h1
    · exact Or.inr ⟨hne, List.mem_cons.1 h1⟩

end FileSystem

/-- A path that begins an entry path of an archive without `..` components leads
into the package directory, unless it is an ancestor of that directory. -/
theorem inside_or_ancestor (dir rel q : String) (h : NoDotDot rel)
    (hq : q ∈ ancestors (dir ++ "/" ++ rel)) : Inside dir q ∨ q ∈ ancestors dir := by
  rw [mem_ancestors] at hq
  obtain ⟨hq, hne⟩ := hq
  have hd : (dir ++ "/" ++ rel).data = dir.data ++ '/' :: rel.data := by
    simp [String.data_append]
  rw [hd, slashPrefixes_append, List.mem_append, List.mem_cons, List.mem_map] at hq
  rcases hq with hq | hq | ⟨pre, hpre, hq⟩
  · exact Or.inr ((mem_ancestors dir q).2 ⟨hq, hne⟩)
  · left
    have : q = dir := String.ext hq
    rw [this]
    exact List.prefix_refl _
  · left
    have : q = dir ++ "/" ++ ⟨pre⟩ := by
      apply String.ext
      rw [← hq]
      simp [String.data_append]
    rw [this]
    apply inside_append
    obtain ⟨rest, hrest⟩ := mem_slashPrefixes _ _ hpre
    unfold NoDotDot at h ⊢
    rw [hrest, splitPath_append] at h
    intro hm
    exact h (List.mem_append_left _ hm)

namespace PackageInstaller

theorem extractEntry_confined (extract_path : String) (fs fs1 : FileSystem)
    (entry : ArchiveEntry) (hrun : extractEntry extract_path fs entry = some fs1)
    (h : NoDotDot entry.pathname) (p : String) (hp : ¬ Inside extract_path p) :
    StdMap.find fs1.files p = StdMap.find fs.files p ∧
    (p ∈ fs1.dirs → p ∈ fs.dirs ∨ p ∈ ancestors extract_path) := by
  have hne1 : p ≠ extract_path ++ "/" ++ entry.pathname :=
    fun he => hp (he ▸ inside_append extract_path entry.pathname h)
  unfold extractEntry at hrun
  simp only at hrun
  cases hc : fs.create_directories (parent_path (extract_path ++ "/" ++ entry.pathname)) with
  | none => simp [hc] at hrun
  | some fs2 =>
    simp only [hc] at hrun
    have hfiles := FileSystem.create_directories_files fs fs2 _ hc
    have hdirs : p ∈ fs2.dirs → p ∈ fs.dirs ∨ p ∈ ancestors extract_path := by
      intro hm
      rcases FileSystem.create_directories_dirs fs fs2 _ hc p hm with h1 | ⟨hne, h1⟩
      · exact Or.inl h1
      · have hanc : p ∈ ancestors (extract_path ++ "/" ++ entry.pathname) := by
          rw [ancestors_eq_chain, if_neg hne]
          exact List.mem_cons.2 h1
        rcases inside_or_ancestor extract_path entry.pathname p h hanc with h2 | h2
        · exact absurd h2 hp
        · exact Or.inr h2
    split at hrun
    · simp only [Option.some.injEq] at hrun
      rw [← hrun]
      refine ⟨?_, hdirs⟩
      unfold FileSystem.write
      simp only
      rw [StdMap.find_insert_ne _ _ _ _ hne1, hfiles]
    · simp only [Option.some.injEq] at hrun
      rw [← hrun]
      exact ⟨by rw [hfiles], hdirs⟩

theorem extractLoop_confined (extract_path : String) (entries : List ArchiveEntry)
    (h : ∀ e ∈ entries, NoDotDot e.pathname) (p : String) (hp : ¬ Inside extract_path p) :
    ∀ fs : FileSystem,
      (extractLoop extract_path fs entries).1 ≠ some false ∧
      StdMap.find (extractLoop extract_path fs entries).2.files p = StdMap.find fs.files p ∧
      (p ∈ (extractLoop extract_path fs entries).2.dirs →
        p ∈ fs.dirs ∨ p ∈ ancestors extract_path) := by
  induction entries with
  | nil => intro fs; exact ⟨by simp [extractLoop], rfl, Or.inl⟩
  | cons e rest ih =>
    intro fs
    simp only [extractLoop]
    cases he : extractEntry extract_path fs e with
    | none => exact ⟨by simp, rfl, Or.inl⟩
    | some fs1 =>
      simp only
      have h1 := extractEntry_confined extract_path fs fs1 e he (h e (List.mem_cons_self _ _)) p hp
      have h2 := ih (fun x hx => h x (List.mem_cons_of_mem _ hx)) fs1
      refine ⟨h2.1, h2.2.1.trans h1.1, fun hm => ?_⟩
      rcases h2.2.2 hm with h3 | h3
      · exact h1.2 h3
      · exact Or.inr h3

theorem extractPackage_outside_unchanged (install_root : String) (fs : FileSystem)
    (archive_path : String) (pkg : PackageInfo) (entries : List ArchiveEntry)
    (harchive : (StdMap.find fs.files archive_path).bind (fun data => data.archive)
      = some entries)
    (h : ∀ e ∈ entries, NoDotDot e.pathname)
    (p : String) (hp : ¬ Inside (install_root ++ "/packages/" ++ pkg.name) p) :
    (extractPackage install_root fs archive_path pkg).1 ≠ some false ∧
    StdMap.find (extractPackage install_root fs archive_path pkg).2.files p
      = StdMap.find fs.files p ∧
    (p ∈ (extractPackage install_root fs archive_path pkg).2.dirs →
      p ∈ fs.dirs ∨ p ∈ ancestors (install_root ++ "/packages/" ++ pkg.name)) := by
  unfold extractPackage
  rw [harchive]
  simp only
  cases hc : fs.create_directories (install_root ++ "/packages/" ++ pkg.name) with
  | none => exact ⟨by simp, rfl, Or.inl⟩
  | some fs1 =>
    simp only
    have hloop := extractLoop_confined (install_root ++ "/packages/" ++ pkg.name) entries h p hp fs1
    have hne : p ≠ install_root ++ "/packages/" ++ pkg.name :=
      fun he => hp (he ▸ List.prefix_refl _)
    refine ⟨hloop.1, hloop.2.1.trans (by rw [FileSystem.create_directories_files fs fs1 _ hc]),
      fun hm => ?_⟩
    rcases hloop.2.2 hm with h1 | h1
    · rcases FileSystem.create_directories_dirs fs fs1 _ hc p h1 with h2 | ⟨_, h2 | h2⟩
      · exact Or.inl h2
      · exact absurd h2 hne
      · exact Or.inr h2
    · exact Or.inr h1

end PackageInstaller

/-! ## Serialising a record and parsing it back -/

theorem getStringList_map (l : List String) :
    Json.getStringList (l.map Json.string) = some l := by
  induction l with
  | nil => rfl
  | cons s rest ih => simp [Json.getStringList, Json.getString, ih]

theorem wrapUnsigned_of_lt (n : Nat) (h : n < 2 ^ 64) : Json.wrapUnsigned 64 (n : Int) = n := by
  unfold Json.wrapUnsigned
  have : ((n : Int) % 2 ^ 64) = n := Int.emod_eq_of_lt (by omega) (by exact_mod_cast h)
  rw [this]
  simp

theorem wrapSigned_of_range (w : Nat) (hw : 0 < w) (i : Int) (h1 : -(2 ^ (w - 1)) ≤ i) (h2 : i < 2 ^ (w - 1)) :
    Json.wrapSigned w i = i := by
  unfold Json.wrapSigned
  have hp : (2 : Int) ^ w = 2 ^ (w - 1) + 2 ^ (w - 1) := by
    have : w = (w - 1) + 1 := by omega
    conv_lhs => rw [this, pow_succ]
    ring
  rw [Int.emod_eq_of_lt (by omega) (by omega)]
  omega

theorem find_foldl_emplace (pairs : List (String × Json)) :
    ∀ (m : StdMap Json) (k : String),
      StdMap.find
          (pairs.foldl (fun m kv => if StdMap.count m kv.1 then m else StdMap.insert m kv.1 kv.2) m)
          k =
        match StdMap.find m k with
        | some v => some v
        | none => List.lookup k pairs := by
  induction pairs with
  | nil => intro m k; cases h : StdMap.find m k <;> simp [h]
  | cons kv rest ih =>
    intro m k
    simp only [List.foldl_cons, ih]
    cases hc : StdMap.find m kv.1 with
    | some w =>
      simp only [StdMap.count, hc, Option.isSome_some, if_true]
      cases hk : StdMap.find m k with
      | some v => rfl
      | none =>
        have hne : (k == kv.1) = false := by
          rw [beq_eq_false_iff_ne]
          intro he
          rw [he, hc] at hk
          cases hk
        simp only [List.lookup, hne]
    | none =>
      simp only [StdMap.count, hc, Option.isSome_none, Bool.false_eq_true, if_false,
        StdMap.find_insert]
      by_cases he : k = kv.1
      · rw [if_pos he, he, hc]
        simp [List.lookup]
      · rw [if_neg he]
        have hne : (k == kv.1) = false := by
          rw [beq_eq_false_iff_ne]
          exact he
        cases hk : StdMap.find m k with
        | some v => rfl
        | none => simp only [List.lookup, hne]

theorem find_nil {β : Type} (k : String) : StdMap.find ([] : StdMap β) k = none := rfl

/-! ## Searching the merged index -/

theorem beginsWith_iff (a b : List Char) :
    beginsWith a b = true ↔ ∃ t, b = a ++ t := by
  induction a generalizing b with
  | nil => simp [beginsWith]
  | cons x xs ih =>
    cases b with
    | nil => simp [beginsWith]
    | cons y ys =>
      simp only [beginsWith, Bool.and_eq_true, decide_eq_true_eq, ih, List.cons_append,
        List.cons.injEq]
      constructor
      · rintro ⟨hxy, t, ht⟩
        exact ⟨t, hxy.symm, ht⟩
      · rintro ⟨t, hxy, ht⟩
        exact ⟨hxy.symm, t, ht⟩

theorem strFindFrom_isSome_iff (q : List Char) (s : List Char) :
    ∀ pos, (strFindFrom q s pos).isSome = true ↔ ∃ pre post, s = pre ++ q ++ post := by
  induction s with
  | nil =>
    intro pos
    simp only [strFindFrom]
    by_cases hq : q = []
    · subst hq
      simp
    · simp only [hq, if_false, Option.isSome_none, Bool.false_eq_true, false_iff]
      rintro ⟨pre, post, h⟩
      have h2 := congrArg List.length h
      simp only [List.length_nil, List.length_append] at h2
      exact hq (List.length_eq_zero.1 (by omega))
  | cons c rest ih =>
    intro pos
    simp only [strFindFrom]
    by_cases hb : beginsWith q (c :: rest) = true
    · simp only [hb, if_true, Option.isSome_some, true_iff]
      obtain ⟨t, ht⟩ := (beginsWith_iff _ _).1 hb
      exact ⟨[], t, by simpa using ht⟩
    · simp only [hb, if_false, Bool.false_eq_true]
      rw [ih]
      constructor
      · rintro ⟨pre, post, h⟩
        exact ⟨c :: pre, post, by simp [h]⟩
      · rintro ⟨pre, post, h⟩
        cases pre with
        | nil =>
          exact absurd ((beginsWith_iff _ _).2 ⟨post, by simpa using h⟩) hb
        | cons p pre2 =>
          simp only [List.cons_append, List.cons.injEq] at h
          exact ⟨pre2, post, h.2⟩

theorem strFind_isSome_iff (s q : String) :
    (strFind s q).isSome = true ↔ Occurs q s := by
  unfold strFind Occurs
  exact strFindFrom_isSome_iff q.data s.data 0

theorem strFind_empty (s : String) : (strFind s "").isSome = true := by
  rw [strFind_isSome_iff]
  exact ⟨[], s.data, by simp⟩

namespace RepositoryManager

theorem foldl_searchStep (query : String) (entries : List (String × PackageInfo)) :
    ∀ acc : List PackageInfo,
      entries.foldl (searchStep query) acc =
        acc ++ (entries.filter (fun entry => (strFind entry.1 query).isSome ||
          (strFind entry.2.description query).isSome)).map Prod.snd := by
  induction entries with
  | nil => intro acc; simp
  | cons e rest ih =>
    intro acc
    simp only [List.foldl_cons, ih, searchStep, List.filter_cons]
    split <;> simp

end RepositoryManager

/-! ## The order of the keys and the merged index -/

namespace StdMap

theorem char_eq_of_toNat (a b : Char) (h1 : ¬ a.toNat < b.toNat) (h2 : ¬ b.toNat < a.toNat) :
    a = b := by
  apply Char.ext
  apply UInt32.ext
  have : a.toNat = b.toNat := by omega
  exact this

theorem ltChars_trans : ∀ a b c : List Char,
    ltChars a b = true → ltChars b c = true → ltChars a c = true := by
  intro a
  induction a with
  | nil =>
    intro b c hab hbc
    cases c with
    | nil => cases b <;> simp [ltChars] at hbc
    | cons z zs => simp [ltChars]
  | cons x xs ih =>
    intro b c hab hbc
    cases b with
    | nil => simp [ltChars] at hab
    | cons y ys =>
      cases c with
      | nil => simp [ltChars] at hbc
      | cons z zs =>
        simp only [ltChars] at hab hbc ⊢
        by_cases h1 : x.toNat < y.toNat
        · by_cases h2 : y.toNat < z.toNat
          · have : x.toNat < z.toNat := by omega
            simp [this]
          · simp only [h2, if_false] at hbc
            by_cases h3 : z.toNat < y.toNat
            · simp [h3] at hbc
            · have : x.toNat < z.toNat := by omega
              simp [this]
        · simp only [h1, if_false] at hab
          by_cases h1b : y.toNat < x.toNat
          · simp [h1b] at hab
          · simp only [h1b, if_false] at hab
            by_cases h2 : y.toNat < z.toNat
            · have : x.toNat < z.toNat := by omega
              simp [this]
            · simp only [h2, if_false] at hbc
              by_cases h3 : z.toNat < y.toNat
              · simp [h3] at hbc
              · simp only [h3, if_false] at hbc
                have h4 : ¬ x.toNat < z.toNat := by omega
                have h5 : ¬ z.toNat < x.toNat := by omega
                simp only [h4, h5, if_false]
                exact ih ys zs hab hbc

theorem ltChars_connected : ∀ a b : List Char,
    ltChars a b = false → a ≠ b → ltChars b a = true := by
  intro a
  induction a with
  | nil =>
    intro b _ hne
    cases b with
    | nil => exact absurd rfl hne
    | cons y ys => simp [ltChars] at *
  | cons x xs ih =>
    intro b hab hne
    cases b with
    | nil => simp [ltChars]
    | cons y ys =>
      simp only [ltChars] at hab ⊢
      by_cases h1 : x.toNat < y.toNat
      · simp [h1] at hab
      · simp only [h1, if_false] at hab
        by_cases h2 : y.toNat < x.toNat
        · simp [h2]
        · simp only [h2, if_false] at hab ⊢
          have hxy : x = y := char_eq_of_toNat x y h1 h2
          subst hxy
          simp only [h1, if_false]
          exact ih ys hab (fun h => hne (by rw [h]))

theorem keyLt_trans (a b c : String) (h1 : keyLt a b = true) (h2 : keyLt b c = true) :
    keyLt a c = true :=
  ltChars_trans _ _ _ h1 h2

theorem keyLt_connected (a b : String) (h1 : keyLt a b = false) (h2 : a ≠ b) :
    keyLt b a = true :=
  ltChars_connected _ _ h1 (fun h => h2 (String.ext h))

theorem mem_replace {β : Type} (m : StdMap β) (k : String) (v : β) (e : String × β)
    (h : e ∈ replace m k v) : e ∈ m ∨ e = (k, v) := by
  induction m with
  | nil => simp [replace] at h
  | cons hd tl ih =>
    obtain ⟨k', v'⟩ := hd
    simp only [replace] at h
    split at h
    · rename_i hk
      rcases List.mem_cons.1 h with h | h
      · right; rw [h, hk]
      · left; exact List.mem_cons_of_mem _ h
    · rcases List.mem_cons.1 h with h | h
      · left; rw [h]; exact List.mem_cons_self _ _
      · rcases ih h with h | h
        · left; exact List.mem_cons_of_mem _ h
        · right; exact h

theorem mem_insertNew {β : Type} (m : StdMap β) (k : String) (v : β) (e : String × β)
    (h : e ∈ insertNew m k v) : e ∈ m ∨ e = (k, v) := by
  induction m with
  | nil => simpa [insertNew] using h
  | cons hd tl ih =>
    obtain ⟨k', v'⟩ := hd
    simp only [insertNew] at h
    split at h
    · rcases List.mem_cons.1 h with h | h
      · right; exact h
      · left; exact h
    · rcases List.mem_cons.1 h with h | h
      · left; rw [h]; exact List.mem_cons_self _ _
      · rcases ih h with h | h
        · left; exact List.mem_cons_of_mem _ h
        · right; exact h

theorem mem_insert {β : Type} (m : StdMap β) (k : String) (v : β) (e : String × β)
    (h : e ∈ insert m k v) : e ∈ m ∨ e = (k, v) := by
  unfold insert at h
  split at h
  · exact mem_replace m k v e h
  · exact mem_insertNew m k v e h

theorem ascending_iff_keys {β : Type} (m : StdMap β) :
    Ascending m ↔ List.Pairwise (fun a b => keyLt a b = true) (m.map Prod.fst) := by
  unfold Ascending
  rw [List.pairwise_map]

theorem ascending_replace {β : Type} (m : StdMap β) (k : String) (v : β)
    (h : Ascending m) : Ascending (replace m k v) := by
  rw [ascending_iff_keys] at h ⊢
  rw [map_fst_replace]
  exact h

theorem ascending_insertNew {β : Type} (m : StdMap β) (k : String) (v : β)
    (h : Ascending m) (hk : find m k = none) : Ascending (insertNew m k v) := by
  unfold Ascending at h ⊢
  induction m with
  | nil => simp [insertNew]
  | cons hd tl ih =>
    obtain ⟨k', v'⟩ := hd
    rw [List.pairwise_cons] at h
    simp only [find] at hk
    have hne : k ≠ k' := by
      intro he
      simp [he] at hk
    simp only [hne, if_false] at hk
    simp only [insertNew]
    split
    · rename_i hlt
      refine List.pairwise_cons.2 ⟨?_, List.pairwise_cons.2 h⟩
      intro e he
      rcases List.mem_cons.1 he with he | he
      · rw [he]; exact hlt
      · exact keyLt_trans _ _ _ hlt (h.1 e he)
    · rename_i hlt
      refine List.pairwise_cons.2 ⟨?_, ih h.2 hk⟩
      intro e he
      rcases mem_insertNew tl k v e he with he | he
      · exact h.1 e he
      · rw [he]
        exact keyLt_connected k k' (by simpa using hlt) hne

theorem ascending_insert {β : Type} (m : StdMap β) (k : String) (v : β)
    (h : Ascending m) : Ascending (insert m k v) := by
  unfold insert
  cases hf : find m k with
  | some w =>
    simp only [count, hf, Option.isSome_some, if_true]
    exact ascending_replace m k v h
  | none =>
    simp only [count, hf, Option.isSome_none, Bool.false_eq_true, if_false]
    exact ascending_insertNew m k v h hf

end StdMap

theorem isMergedIndex_insert (package_index : StdMap PackageInfo) (pkg : PackageInfo)
    (h : IsMergedIndex package_index) :
    IsMergedIndex (StdMap.insert package_index pkg.name pkg) := by
  refine ⟨StdMap.ascending_insert _ _ _ h.1, ?_⟩
  intro e he
  rcases StdMap.mem_insert _ _ _ e he with he | he
  · exact h.2 e he
  · rw [he]

namespace RepositoryManager

theorem isMergedIndex_mergeRecords (repo_url : String) (elems : List Json) :
    ∀ package_index, IsMergedIndex package_index →
      IsMergedIndex (mergeRecords repo_url package_index elems) := by
  induction elems with
  | nil => intro package_index h; exact h
  | cons j rest ih =>
    intro package_index h
    simp only [mergeRecords]
    cases hj : PackageInfo.fromJson j with
    | none => exact h
    | some pkg =>
      exact ih _ (isMergedIndex_insert package_index { pkg with repository := repo_url } h)

theorem isMergedIndex_updateOne (env : Env) (st : StdMap PackageInfo × FileSystem × Nat)
    (repo_url : String) (h : IsMergedIndex st.1) :
    IsMergedIndex (updateOne env st repo_url).1 := by
  unfold updateOne
  simp only
  split
  · split
    · exact isMergedIndex_mergeRecords _ _ _ h
    · exact h
  · exact h

theorem isMergedIndex_foldl_updateOne (env : Env) (repos : List String) :
    ∀ st : StdMap PackageInfo × FileSystem × Nat, IsMergedIndex st.1 →
      IsMergedIndex (repos.foldl (updateOne env) st).1 := by
  induction repos with
  | nil => intro st h; exact h
  | cons u rest ih =>
    intro st h
    exact ih _ (isMergedIndex_updateOne env st u h)

/-- The index of a new manager is a merged index, and `updatePackageIndex` keeps it
one. -/
theorem isMergedIndex_updatePackageIndex (env : Env) (rm : RepositoryManager)
    (fs : FileSystem) (rand_calls : Nat) (h : IsMergedIndex rm.package_index) :
    IsMergedIndex (updatePackageIndex env rm fs rand_calls).1.package_index :=
  isMergedIndex_foldl_updateOne env rm.repositories _ h

end RepositoryManager

/-! ## Merging the index documents -/

namespace RepositoryManager

/-- The merge of one record under its name, tagged with its origin. -/
theorem mergeRecords_eq_foldl (repo_url : String) (elems : List Json) :
    ∀ package_index,
      mergeRecords repo_url package_index elems =
        (parsedPrefix elems).foldl
          (fun m pkg => StdMap.insert m pkg.name { pkg with repository := repo_url })
          package_index := by
  induction elems with
  | nil => intro package_index; rfl
  | cons j rest ih =>
    intro package_index
    simp only [mergeRecords, parsedPrefix]
    cases hj : PackageInfo.fromJson j with
    | none => rfl
    | some pkg => simp only [List.foldl_cons, ih]

theorem find_foldl_merge_absent (repo_url : String) (N : String) (recs : List PackageInfo)
    (h : ∀ x ∈ recs, x.name ≠ N) :
    ∀ package_index : StdMap PackageInfo,
      StdMap.find
          (recs.foldl (fun m pkg => StdMap.insert m pkg.name { pkg with repository := repo_url })
            package_index) N
        = StdMap.find package_index N := by
  induction recs with
  | nil => intro package_index; rfl
  | cons x rest ih =>
    intro package_index
    simp only [List.foldl_cons]
    rw [ih (fun y hy => h y (List.mem_cons_of_mem _ hy))]
    exact StdMap.find_insert_ne _ _ _ _ (fun he => h x (List.mem_cons_self _ _) he.symm)

theorem find_foldl_merge_last (repo_url : String) (N : String) (r1 r2 : List PackageInfo)
    (pkg : PackageInfo) (hname : pkg.name = N) (h2 : ∀ x ∈ r2, x.name ≠ N)
    (package_index : StdMap PackageInfo) :
    StdMap.find
        ((r1 ++ pkg :: r2).foldl
          (fun m pkg => StdMap.insert m pkg.name { pkg with repository := repo_url })
          package_index) N
      = some { pkg with repository := repo_url } := by
  rw [List.foldl_append, List.foldl_cons, find_foldl_merge_absent repo_url N r2 h2, ← hname]
  exact StdMap.find_insert_self _ _ _

theorem updateOne_index (env : Env) (st : StdMap PackageInfo × FileSystem × Nat)
    (repo_url : String) :
    (updateOne env st repo_url).1 = mergeRecords repo_url st.1 (originElements env repo_url) := by
  unfold updateOne originElements PackageDownloader.downloadPackage
  cases hf : env.fetch (repo_url ++ "/packages.json") with
  | none => simp [hf, mergeRecords]
  | some res =>
    cases hok : res.ok with
    | false => simp [hf, hok, mergeRecords]
    | true =>
      have hfind : ∀ p, StdMap.find (st.2.1.write p res.body).files p = some res.body :=
        fun p => StdMap.find_insert_self _ _ _
      cases hp : env.jsonParse res.body with
      | none => simp [hf, hok, hfind, hp, mergeRecords]
      | some doc => simp [hf, hok, hfind, hp]

theorem foldl_updateOne_absent (env : Env) (N : String) (repos : List String)
    (h : ∀ v ∈ repos, ∀ x ∈ parsedPrefix (originElements env v), x.name ≠ N) :
    ∀ st : StdMap PackageInfo × FileSystem × Nat,
      StdMap.find (repos.foldl (updateOne env) st).1 N = StdMap.find st.1 N := by
  induction repos with
  | nil => intro st; rfl
  | cons v rest ih =>
    intro st
    simp only [List.foldl_cons]
    rw [ih (fun w hw => h w (List.mem_cons_of_mem _ hw)), updateOne_index, mergeRecords_eq_foldl]
    exact find_foldl_merge_absent v N _ (h v (List.mem_cons_self _ _)) _

end RepositoryManager

theorem parsedPrefix_of_all (elems : List Json) (recs : List PackageInfo)
    (h : elems.map PackageInfo.fromJson = recs.map some) : parsedPrefix elems = recs := by
  induction elems generalizing recs with
  | nil =>
    cases recs with
    | nil => rfl
    | cons r rest => simp at h
  | cons j rest ih =>
    cases recs with
    | nil => simp at h
    | cons r rs =>
      simp only [List.map_cons, List.cons.injEq] at h
      simp only [parsedPrefix, h.1, ih rs h.2]

theorem getPackageInfo_of_find (package_index : StdMap PackageInfo) (name : String)
    (pkg : PackageInfo) (h : StdMap.find package_index name = some pkg) :
    getPackageInfo package_index name = pkg := by
  unfold getPackageInfo
  simp [StdMap.count, StdMap.getD, h]

/-! ## The reverse index after any sequence of registrations -/

namespace DependencyResolver

theorem findReverseDependencies_addPackage (r : DependencyResolver) (pkg : PackageInfo)
    (d : String) :
    (r.addPackage pkg).findReverseDependencies d =
      r.findReverseDependencies d ++ List.replicate (pkg.dependencies.count d) pkg.name := by
  unfold findReverseDependencies addPackage
  exact getD_foldl_pushReverse _ _ _ _

theorem ReverseCovers_addPackage (r : DependencyResolver) (pkg : PackageInfo)
    (h : ReverseCovers r) : ReverseCovers (r.addPackage pkg) := by
  intro d x
  rw [depsOf_addPackage, findReverseDependencies_addPackage, List.count_append,
    List.count_replicate]
  by_cases hx : x = pkg.name
  · subst hx
    simp
  · have h' : ¬ (pkg.name == x) = true := by simpa using fun e => hx e.symm
    simp only [hx, if_false, h', Bool.false_eq_true]
    have := h d x
    omega

theorem ReverseCovers_foldl (pkgs : List PackageInfo) :
    ∀ r : DependencyResolver, ReverseCovers r → ReverseCovers (pkgs.foldl addPackage r) := by
  induction pkgs with
  | nil => intro r h; exact h
  | cons p rest ih =>
    intro r h
    exact ih _ (ReverseCovers_addPackage r p h)

/-- After any sequence of `addPackage` calls the reverse index covers the stored
dependency lists. -/
theorem ReverseCovers_addAll (pkgs : List PackageInfo) : ReverseCovers (addAll pkgs) := by
  apply ReverseCovers_foldl
  intro d x
  simp [depsOf, DependencyResolver.new, StdMap.find]

theorem mem_findReverseDependencies_of_covers (r : DependencyResolver) (h : ReverseCovers r)
    (P Q : String) (pkg : PackageInfo) (hQ : StdMap.find r.package_database Q = some pkg)
    (hP : P ∈ pkg.dependencies) : Q ∈ r.findReverseDependencies P := by
  have h1 := h P Q
  have h2 : 0 < (depsOf r Q).count P := by
    rw [List.count_pos_iff]
    simp [depsOf, hQ, hP]
  exact List.count_pos_iff.1 (by omega)

end DependencyResolver

/-! ## What the installer and the cache look at -/

theorem extractPackage_name_only (install_root : String) (fs : FileSystem) (path : String)
    (a b : PackageInfo) (h : a.name = b.name) :
    PackageInstaller.extractPackage install_root fs path a =
      PackageInstaller.extractPackage install_root fs path b := by
  unfold PackageInstaller.extractPackage
  rw [h]

namespace PackageCache

theorem addToCache_index (env : Env) (c : PackageCache) (fs : FileSystem)
    (package_name version : String) (now : Int) (c' : PackageCache) (fs' : FileSystem)
    (h : addToCache env c fs package_name version now = some (c', fs')) :
    c'.cache_index = StdMap.insert c.cache_index (package_name ++ "-" ++ version) now ∧
      c'.cache_dir = c.cache_dir := by
  unfold addToCache enforceCacheSize at h
  simp only at h
  split at h
  · simp only [Option.some.injEq, Prod.mk.injEq] at h
    obtain ⟨h1, _⟩ := h
    subst h1
    exact ⟨rfl, rfl⟩
  · rename_i hgt
    rw [evictLoop_locked] at h
    · cases h
    · exact Nat.lt_of_not_le hgt
    · refine ⟨(package_name ++ "-" ++ version, now), ?_, find_last_of_cacheKey _ _⟩
      rw [mem_sortByTime]
      exact StdMap.mem_of_find _ _ _ (StdMap.find_insert_self _ _ _)

end PackageCache

/-! ## The `installed` flag of an index record -/

theorem fromJson_installed (members : StdMap Json) (p : PackageInfo)
    (h : PackageInfo.fromJson (Json.object members) = some p) :
    (p.installed = true ↔ StdMap.find members "installed" = some (Json.boolean true)) := by
  unfold PackageInfo.fromJson at h
  obtain ⟨name, _, h⟩ := Option.bind_eq_some.1 h
  obtain ⟨version, _, h⟩ := Option.bind_eq_some.1 h
  obtain ⟨description, _, h⟩ := Option.bind_eq_some.1 h
  obtain ⟨dependencies, _, h⟩ := Option.bind_eq_some.1 h
  obtain ⟨provides, _, h⟩ := Option.bind_eq_some.1 h
  obtain ⟨conflicts, _, h⟩ := Option.bind_eq_some.1 h
  obtain ⟨maintainer, _, h⟩ := Option.bind_eq_some.1 h
  obtain ⟨homepage, _, h⟩ := Option.bind_eq_some.1 h
  obtain ⟨license, _, h⟩ := Option.bind_eq_some.1 h
  obtain ⟨size, _, h⟩ := Option.bind_eq_some.1 h
  obtain ⟨sha256, _, h⟩ := Option.bind_eq_some.1 h
  obtain ⟨architecture, _, h⟩ := Option.bind_eq_some.1 h
  obtain ⟨repository, _, h⟩ := Option.bind_eq_some.1 h
  obtain ⟨release_date, _, h⟩ := Option.bind_eq_some.1 h
  obtain ⟨priority, _, h⟩ := Option.bind_eq_some.1 h
  obtain ⟨installed, hinst, h⟩ := Option.bind_eq_some.1 h
  have hp : p.installed = installed := by
    cases h
    rfl
  rw [hp]
  unfold Json.value at hinst
  cases hf : StdMap.find members "installed" with
  | none =>
    simp only [hf, Option.some.injEq] at hinst
    simp [← hinst]
  | some j =>
    simp only [hf] at hinst
    cases j <;> simp [Json.getBool] at hinst
    simp [hinst]

theorem installOne_skips (env : Env) (m : ElazarPackageManager) (name : String)
    (h : (getPackageInfo m.package_index name).installed = true) :
    ElazarPackageManager.installOne env m name = (some true, m) := by
  unfold ElazarPackageManager.installOne
  simp only [h, if_true]

theorem find_updatePackageIndex (env : Env) (rm : RepositoryManager)
    (fs : FileSystem) (rand_calls : Nat) (pre post : List String) (u N : String)
    (res : Response) (doc : Json) (r1 r2 : List PackageInfo) (pkg : PackageInfo)
    (hrepos : rm.repositories = pre ++ u :: post)
    (hfetch : env.fetch (u ++ "/packages.json") = some res) (hok : res.ok = true)
    (hparse : env.jsonParse res.body = some doc)
    (hrecs : doc.elements.map PackageInfo.fromJson = (r1 ++ pkg :: r2).map some)
    (hname : pkg.name = N) (hlast : ∀ x ∈ r2, x.name ≠ N)
    (hpost : ∀ v ∈ post, ∀ x ∈ parsedPrefix (originElements env v), x.name ≠ N) :
    StdMap.find (RepositoryManager.updatePackageIndex env rm fs rand_calls).1.package_index N
      = some { pkg with repository := u } := by
  unfold RepositoryManager.updatePackageIndex
  simp only [hrepos, List.foldl_append, List.foldl_cons]
  rw [RepositoryManager.foldl_updateOne_absent env N post hpost,
    RepositoryManager.updateOne_index, RepositoryManager.mergeRecords_eq_foldl]
  have hel : originElements env u = doc.elements := by
    unfold originElements
    simp [hfetch, hok, hparse]
  rw [hel, parsedPrefix_of_all _ _ hrecs]
  exact RepositoryManager.find_foldl_merge_last u N r1 r2 pkg hname hlast _

/-! ## The ordering loop in any resolver state -/

namespace DependencyResolver

/-- The invariant of the ordering loop holds in every resolver state when no set
of candidates is singled out. -/
theorem relax_inv_any (r : DependencyResolver) (packages : List String)
    (d : String) (pending : List String) (st : OrderState)
    (hinv : OrderInv r packages [] (d :: pending) st) :
    OrderInv r packages [] pending (relax st d) := by
  have hnoknot : ∀ (s : OrderState), ∀ x ∈ ([] : List String), x ∉ s.queue ++ s.ordered :=
    fun _ x hx => absurd hx (List.not_mem_nil x)
  by_cases hcond : StdMap.count st.indegree d = true ∧ d ∉ st.processed
  · obtain ⟨hkey, hproc⟩ := hcond
    have hdP : d ∈ packages := (hinv.keys d).mp ((StdMap.count_eq_true_iff _ _).mp hkey)
    have hdo : d ∉ st.ordered := fun h => hproc ((hinv.processed d).mpr h)
    have hbook := hinv.book d hdP hdo
    have hget : StdMap.getD st.indegree d 0 =
        initVal r packages d - decOf r d st.ordered + ((d :: pending).count d : Nat) :=
      StdMap.getD_of_find _ _ _ _ hbook
    have hcnt : ((d :: pending).count d : Int) = (pending.count d : Int) + 1 := by
      simp [List.count_cons]
    have hv : StdMap.getD st.indegree d 0 - 1 =
        initVal r packages d - decOf r d st.ordered + (pending.count d : Nat) := by
      rw [hget, hcnt]
      omega
    have hkeys : ∀ x, (∃ v, StdMap.find
        (StdMap.insert st.indegree d (StdMap.getD st.indegree d 0 - 1)) x = some v) ↔
        x ∈ packages := by
      intro x
      by_cases hxd : x = d
      · subst hxd
        simp [StdMap.find_insert, hdP]
      · rw [StdMap.find_insert_ne _ _ _ _ hxd]
        exact hinv.keys x
    have hbook_all : ∀ x ∈ packages, x ∉ st.ordered →
        StdMap.find (StdMap.insert st.indegree d (StdMap.getD st.indegree d 0 - 1)) x =
          some (initVal r packages x - decOf r x st.ordered + (pending.count x : Nat)) := by
      intro x hx hxo
      by_cases hxd : x = d
      · subst hxd
        rw [StdMap.find_insert_self, hv]
      · rw [StdMap.find_insert_ne _ _ _ _ hxd, hinv.book x hx hxo]
        have : (d :: pending).count x = pending.count x := by
          have h' : ¬ (d == x) = true := by simpa using fun e => hxd e.symm
          simp [List.count_cons, h']
        rw [this]
    by_cases hz : StdMap.getD st.indegree d 0 - 1 = 0
    · have hdmem : d ∉ st.queue ++ st.ordered := by
        intro hmem
        have := hinv.nonpos d hmem _ hbook
        rw [← hget] at this
        omega
      have hrelax : relax st d =
          { st with indegree := StdMap.insert st.indegree d (StdMap.getD st.indegree d 0 - 1),
                    queue := st.queue ++ [d] } := by
        unfold relax
        simp [hkey, hproc, hz]
      rw [hrelax]
      refine ⟨hkeys, ?_, ?_, ?_, hinv.processed, hbook_all, hnoknot _⟩
      · intro x hx
        simp only [List.append_assoc, List.mem_append, List.mem_singleton] at hx
        rcases hx with h | h | h
        · exact hinv.members x (List.mem_append_left _ h)
        · rw [h]; exact hdP
        · exact hinv.members x (List.mem_append_right _ h)
      · show ((st.queue ++ [d]) ++ st.ordered).Nodup
        rw [List.append_assoc, List.singleton_append, List.nodup_middle, List.nodup_cons]
        exact ⟨hdmem, hinv.nodup⟩
      · intro x hx v hfind
        by_cases hxd : x = d
        · subst hxd
          rw [StdMap.find_insert_self] at hfind
          simp only [Option.some.injEq] at hfind
          omega
        · rw [StdMap.find_insert_ne _ _ _ _ hxd] at hfind
          simp only [List.append_assoc, List.mem_append, List.mem_singleton] at hx
          rcases hx with h | h | h
          · exact hinv.nonpos x (List.mem_append_left _ h) v hfind
          · exact absurd h hxd
          · exact hinv.nonpos x (List.mem_append_right _ h) v hfind
    · have hrelax : relax st d =
          { st with indegree := StdMap.insert st.indegree d (StdMap.getD st.indegree d 0 - 1) } := by
        unfold relax
        simp [hkey, hproc, hz]
      rw [hrelax]
      refine ⟨hkeys, hinv.members, hinv.nodup, ?_, hinv.processed, hbook_all, hnoknot _⟩
      intro x hx v hfind
      by_cases hxd : x = d
      · subst hxd
        rw [StdMap.find_insert_self] at hfind
        simp only [Option.some.injEq] at hfind
        have := hinv.nonpos x hx _ hbook
        rw [← hget] at this
        omega
      · rw [StdMap.find_insert_ne _ _ _ _ hxd] at hfind
        exact hinv.nonpos x hx v hfind
  · have hrelax : relax st d = st := by
      unfold relax
      by_cases hkey : StdMap.count st.indegree d = true
      · have hproc : d ∈ st.processed := by
          by_contra h
          exact hcond ⟨hkey, h⟩
        simp [hkey, hproc]
      · simp [hkey]
    rw [hrelax]
    refine ⟨hinv.keys, hinv.members, hinv.nodup, hinv.nonpos, hinv.processed, ?_, hinv.knotFree⟩
    intro x hx hxo
    have hne : x ≠ d := by
      intro e
      subst e
      apply hcond
      refine ⟨(StdMap.count_eq_true_iff _ _).mpr ((hinv.keys x).mpr hx), ?_⟩
      intro hp
      exact hxo ((hinv.processed x).mp hp)
    rw [hinv.book x hx hxo]
    have : (d :: pending).count x = pending.count x := by
      have h' : ¬ (d == x) = true := by simpa using fun e => hne e.symm
      simp [List.count_cons, h']
    rw [this]

/-- What `relax` does to a state: nothing, or it lowers the indegree of `d` by one
and queues `d` when zero is reached. -/
theorem relax_eq (st : OrderState) (d : String) :
    relax st d = st ∨
    (StdMap.count st.indegree d = true ∧ d ∉ st.processed ∧
      ((StdMap.getD st.indegree d 0 - 1 = 0 ∧
        relax st d =
          { st with indegree := StdMap.insert st.indegree d (StdMap.getD st.indegree d 0 - 1),
                    queue := st.queue ++ [d] }) ∨
       (StdMap.getD st.indegree d 0 - 1 ≠ 0 ∧
        relax st d =
          { st with indegree := StdMap.insert st.indegree d
                      (StdMap.getD st.indegree d 0 - 1) }))) := by
  by_cases hkey : StdMap.count st.indegree d = true
  · by_cases hproc : d ∈ st.processed
    · left
      unfold relax
      simp [hkey, hproc]
    · right
      refine ⟨hkey, hproc, ?_⟩
      by_cases hz : StdMap.getD st.indegree d 0 - 1 = 0
      · left
        refine ⟨hz, ?_⟩
        unfold relax
        simp [hkey, hproc, hz]
      · right
        refine ⟨hz, ?_⟩
        unfold relax
        simp [hkey, hproc, hz]
  · left
    unfold relax
    simp [hkey]

theorem relax_positiveOutside (packages : List String) (d : String) (st : OrderState)
    (hpos : PositiveOutside packages st) :
    PositiveOutside packages (relax st d) := by
  rcases relax_eq st d with h | ⟨hkey, _, h | h⟩
  · rw [h]; exact hpos
  · obtain ⟨hz, h⟩ := h
    rw [h]
    intro x hx hxo v hfind
    simp only [List.append_assoc, List.mem_append, List.mem_singleton, not_or] at hxo
    have hxd : x ≠ d := hxo.2.1
    rw [StdMap.find_insert_ne _ _ _ _ hxd] at hfind
    exact hpos x hx (by simp [hxo.1, hxo.2.2]) v hfind
  · obtain ⟨hz, h⟩ := h
    rw [h]
    intro x hx hxo v hfind
    by_cases hxd : x = d
    · subst hxd
      rw [StdMap.find_insert_self] at hfind
      simp only [Option.some.injEq] at hfind
      obtain ⟨w, hw⟩ := (StdMap.count_eq_true_iff _ _).mp hkey
      have hget : StdMap.getD st.indegree x 0 = w := StdMap.getD_of_find _ _ _ _ hw
      have := hpos x hx hxo w hw
      rw [hget] at hfind hz
      omega
    · rw [StdMap.find_insert_ne _ _ _ _ hxd] at hfind
      exact hpos x hx hxo v hfind

theorem foldl_relax_inv_any (r : DependencyResolver) (packages : List String)
    (ds : List String) :
    ∀ st : OrderState, OrderInv r packages [] ds st → PositiveOutside packages st →
      OrderInv r packages [] [] (ds.foldl relax st) ∧
        PositiveOutside packages (ds.foldl relax st) := by
  induction ds with
  | nil => intro st h hp; exact ⟨h, hp⟩
  | cons d rest ih =>
    intro st h hp
    simp only [List.foldl_cons]
    exact ih _ (relax_inv_any r packages d rest st h)
      (relax_positiveOutside packages d st hp)

theorem dequeue_positiveOutside (packages : List String) (st : OrderState) (current : String)
    (rest : List String) (hq : st.queue = current :: rest)
    (hpos : PositiveOutside packages st) :
    PositiveOutside packages (dequeue st current rest) := by
  intro x hx hxo v hfind
  apply hpos x hx _ v hfind
  intro hmem
  apply hxo
  simp only [dequeue, List.mem_append, List.mem_singleton]
  rw [hq] at hmem
  simp only [List.cons_append, List.mem_cons, List.mem_append] at hmem
  tauto

theorem orderLoop_inv_any (r : DependencyResolver) (packages : List String) (fuel : Nat) :
    ∀ st st' : OrderState, OrderInv r packages [] [] st → PositiveOutside packages st →
      orderLoop r.reverse_dependencies fuel st = some st' →
      OrderInv r packages [] [] st' ∧ PositiveOutside packages st' ∧ st'.queue = [] := by
  induction fuel with
  | zero => intro st st' _ _ h; simp [orderLoop] at h
  | succ fuel ih =>
    intro st st' hinv hpos h
    unfold orderLoop at h
    cases hq : st.queue with
    | nil =>
      simp only [hq, Option.some.injEq] at h
      subst h
      exact ⟨hinv, hpos, hq⟩
    | cons current rest =>
      simp only [hq] at h
      rw [orderStep_eq] at h
      obtain ⟨h1, h2⟩ := foldl_relax_inv_any r packages _ _
        (dequeue_inv r packages [] st current rest hq hinv)
        (dequeue_positiveOutside packages st current rest hq hpos)
      exact ih _ _ h1 h2 h

theorem initVal_nonneg (r : DependencyResolver) (packages : List String) (x : String) :
    0 ≤ initVal r packages x := by
  rw [initVal, countCandidateDeps_eq]
  exact Int.natCast_nonneg _

theorem orderInit_inv_any (r : DependencyResolver) (packages : List String)
    (hpk : packages.Nodup) :
    OrderInv r packages [] [] (orderInit r packages) ∧
      PositiveOutside packages (orderInit r packages) := by
  obtain ⟨hkeys, hval, hqueue, hord, hproc⟩ := orderInit_spec r packages
  refine ⟨⟨hkeys, ?_, ?_, ?_, ?_, ?_, ?_⟩, ?_⟩
  · intro x hx
    rw [hqueue, hord, List.append_nil] at hx
    exact (List.mem_filter.mp hx).1
  · rw [hqueue, hord, List.append_nil]
    exact hpk.filter _
  · intro x hx v hfind
    rw [hqueue, hord, List.append_nil] at hx
    obtain ⟨hxP, hz⟩ := List.mem_filter.mp hx
    rw [hval x hxP] at hfind
    simp only [Option.some.injEq] at hfind
    simp only [decide_eq_true_eq] at hz
    omega
  · intro x
    rw [hord, hproc]
  · intro x hx _
    rw [hval x hx, hord]
    simp [decOf]
  · intro x hx
    exact absurd hx (List.not_mem_nil x)
  · intro x hx hxo v hfind
    rw [hqueue, hord, List.append_nil] at hxo
    rw [hval x hx] at hfind
    simp only [Option.some.injEq] at hfind
    have hne : initVal r packages x ≠ 0 := by
      intro hz
      exact hxo (List.mem_filter.mpr ⟨hx, by simp [hz]⟩)
    have := initVal_nonneg r packages x
    omega

/-- The state in which `getInstallationOrder` leaves its loop, for a duplicate-free
candidate list in any resolver state. -/
theorem getInstallationOrder_final (r : DependencyResolver) (packages : List String)
    (hpk : packages.Nodup) :
    ∃ st, orderLoop r.reverse_dependencies (2 * packages.length + 1) (orderInit r packages)
        = some st ∧
      r.getInstallationOrder packages = st.ordered ∧
      OrderInv r packages [] [] st ∧ PositiveOutside packages st ∧ st.queue = [] := by
  obtain ⟨st, hst, hout⟩ := getInstallationOrder_total r packages
  obtain ⟨h1, h2⟩ := orderInit_inv_any r packages hpk
  exact ⟨st, hst, hout, orderLoop_inv_any r packages _ _ _ h1 h2 hst⟩

/-! ## Candidates left out of the order lie on a cycle -/

theorem filter_lt_exists (S P L : List String)
    (h : (L.filter (fun d => decide (d ∈ S))).length < (L.filter (fun d => decide (d ∈ P))).length) :
    ∃ y ∈ L, y ∈ P ∧ y ∉ S := by
  induction L with
  | nil => simp at h
  | cons a rest ih =>
    by_cases haP : a ∈ P
    · by_cases haS : a ∈ S
      · simp only [List.filter_cons, haP, haS, decide_True, if_true, List.length_cons] at h
        obtain ⟨y, hy, hyp⟩ := ih (by omega)
        exact ⟨y, List.mem_cons_of_mem _ hy, hyp⟩
      · exact ⟨a, List.mem_cons_self _ _, haP, haS⟩
    · by_cases haS : a ∈ S
      · simp only [List.filter_cons, haP, haS, decide_True, decide_False, Bool.false_eq_true,
          if_true, if_false, List.length_cons] at h
        obtain ⟨y, hy, hyp⟩ := ih (by omega)
        exact ⟨y, List.mem_cons_of_mem _ hy, hyp⟩
      · simp only [List.filter_cons, haP, haS, decide_False, Bool.false_eq_true,
          if_false] at h
        obtain ⟨y, hy, hyp⟩ := ih h
        exact ⟨y, List.mem_cons_of_mem _ hy, hyp⟩

/-- With a reverse index that covers the dependency lists, the visits a candidate
has received are at least its dependency entries among the names processed. -/
theorem decOf_ge_of_covers (r : DependencyResolver) (hcov : ReverseCovers r)
    (x : String) (done : List String) (hdone : done.Nodup) :
    ((depsOf r x).filter (fun d => decide (d ∈ done))).length ≤ decOf r x done := by
  rw [← sum_count_eq_filter done (depsOf r x) hdone]
  unfold decOf
  apply List.sum_le_sum
  intro d _
  exact hcov d x

/-- In the final state, a candidate that was not ordered depends on a candidate
that was not ordered. -/
theorem unordered_has_unordered_dep (r : DependencyResolver) (hcov : ReverseCovers r)
    (packages : List String) (st : OrderState)
    (hinv : OrderInv r packages [] [] st) (hpos : PositiveOutside packages st)
    (hq : st.queue = []) (x : String) (hx : x ∈ packages) (hxo : x ∉ st.ordered) :
    ∃ y ∈ depsOf r x, y ∈ packages ∧ y ∉ st.ordered := by
  have hbook := hinv.book x hx hxo
  have hv := hpos x hx (by rw [hq]; simpa using hxo) _ hbook
  have hnd : st.ordered.Nodup := (List.nodup_append.mp hinv.nodup).2.1
  have hge := decOf_ge_of_covers r hcov x st.ordered hnd
  rw [initVal, countCandidateDeps_eq] at hv
  simp only [List.count_nil, Nat.cast_zero, add_zero] at hv
  apply filter_lt_exists st.ordered packages (depsOf r x)
  omega

theorem chainDeps_cons (r : DependencyResolver) (a b : String) (l : List String) :
    chainDeps r (a :: b :: l) ↔ b ∈ depsOf r a ∧ chainDeps r (b :: l) := by
  simp [chainDeps]

theorem chainDeps_suffix (r : DependencyResolver) (a l : List String)
    (h : chainDeps r (a ++ l)) : chainDeps r l := by
  induction a with
  | nil => exact h
  | cons x rest ih =>
    apply ih
    cases hr : rest ++ l with
    | nil => simp [chainDeps]
    | cons y t =>
      rw [List.cons_append, hr, chainDeps_cons] at h
      exact h.2

theorem chainDeps_prefix (r : DependencyResolver) (l c : List String)
    (h : chainDeps r (l ++ c)) : chainDeps r l := by
  induction l with
  | nil => simp [chainDeps]
  | cons x rest ih =>
    cases rest with
    | nil => simp [chainDeps]
    | cons y t =>
      simp only [List.cons_append, chainDeps_cons] at h ⊢
      exact ⟨h.1, ih h.2⟩

theorem exists_chain (r : DependencyResolver) (U : List String)
    (hU : ∀ x ∈ U, ∃ y ∈ U, y ∈ depsOf r x) (n : Nat) :
    ∀ x ∈ U, ∃ l : List String, l.length = n ∧ chainDeps r (x :: l) ∧ ∀ y ∈ l, y ∈ U := by
  induction n with
  | zero => intro x _; exact ⟨[], rfl, by simp [chainDeps], by simp⟩
  | succ n ih =>
    intro x hx
    obtain ⟨y, hyU, hyd⟩ := hU x hx
    obtain ⟨l, hlen, hchain, hmem⟩ := ih y hyU
    refine ⟨y :: l, by simp [hlen], (chainDeps_cons r x y l).2 ⟨hyd, hchain⟩, ?_⟩
    intro z hz
    rcases List.mem_cons.1 hz with h | h
    · rw [h]; exact hyU
    · exact hmem z h

theorem exists_repeat (l : List String) (h : ¬ l.Nodup) :
    ∃ (a : List String) (y : String) (b c : List String), l = a ++ y :: (b ++ y :: c) := by
  induction l with
  | nil => exact absurd List.nodup_nil h
  | cons x rest ih =>
    by_cases hx : x ∈ rest
    · obtain ⟨b, c, hbc⟩ := List.append_of_mem hx
      exact ⟨[], x, b, c, by rw [hbc]; rfl⟩
    · have hr : ¬ rest.Nodup := fun hn => h (List.nodup_cons.2 ⟨hx, hn⟩)
      obtain ⟨a, y, b, c, hl⟩ := ih hr
      exact ⟨x :: a, y, b, c, by rw [hl]; rfl⟩

/-- A non-empty set of names each of which depends on a member contains a
dependency cycle. -/
theorem knot_has_cycle (r : DependencyResolver) (U : List String)
    (hU : ∀ x ∈ U, ∃ y ∈ U, y ∈ depsOf r x) (x : String) (hx : x ∈ U) :
    ∃ cycle, IsDependencyCycle r cycle ∧ ∀ y ∈ cycle, y ∈ U := by
  obtain ⟨l, hlen, hchain, hmem⟩ := exists_chain r U hU U.length x hx
  have hsub : ∀ y ∈ x :: l, y ∈ U := by
    intro y hy
    rcases List.mem_cons.1 hy with h | h
    · rw [h]; exact hx
    · exact hmem y h
  have hnd : ¬ (x :: l).Nodup := by
    intro hn
    have := (List.subperm_of_subset hn hsub).length_le
    simp only [List.length_cons, hlen] at this
    omega
  obtain ⟨a, y, b, c, hl⟩ := exists_repeat (x :: l) hnd
  rw [hl] at hchain hsub
  have h1 : chainDeps r (y :: (b ++ y :: c)) := chainDeps_suffix r a _ hchain
  have h2 : chainDeps r ((y :: (b ++ [y])) ++ c) := by
    simpa [List.append_assoc] using h1
  have h3 := chainDeps_prefix r _ _ h2
  refine ⟨y :: b, h3, ?_⟩
  intro z hz
  apply hsub
  simp only [List.mem_append, List.mem_cons] at hz ⊢
  rcases hz with h | h
  · right; left; exact h
  · right; right; left; exact h

theorem chainDeps_rank (r : DependencyResolver) (packages : List String) (rank : String → Nat)
    (hrank : ∀ x ∈ packages, ∀ d ∈ depsOf r x, d ∈ packages → rank d < rank x)
    (l : List String) :
    ∀ a : String, chainDeps r (a :: l) → (∀ y ∈ a :: l, y ∈ packages) →
      ∀ y ∈ l, rank y < rank a := by
  induction l with
  | nil => intro a _ _ y hy; simp at hy
  | cons b rest ih =>
    intro a hchain hsub y hy
    rw [chainDeps_cons] at hchain
    have hab : rank b < rank a :=
      hrank a (hsub a (List.mem_cons_self _ _)) b hchain.1
        (hsub b (List.mem_cons_of_mem _ (List.mem_cons_self _ _)))
    rcases List.mem_cons.1 hy with h | h
    · rw [h]; exact hab
    · have := ih b hchain.2 (fun z hz => hsub z (List.mem_cons_of_mem _ hz)) y h
      omega

/-- When the candidates can be ranked so that every candidate ranks above the
candidates it depends on, no dependency cycle lies within the candidates. -/
theorem no_cycle_of_rank (r : DependencyResolver) (packages : List String)
    (rank : String → Nat)
    (hrank : ∀ x ∈ packages, ∀ d ∈ depsOf r x, d ∈ packages → rank d < rank x)
    (cycle : List String) (hcycle : IsDependencyCycle r cycle) :
    ∃ x ∈ cycle, x ∉ packages := by
  by_contra hall
  have hsub : ∀ x ∈ cycle, x ∈ packages := by
    intro x hx
    by_contra hxP
    exact hall ⟨x, hx, hxP⟩
  cases cycle with
  | nil => exact absurd hcycle (by simp [IsDependencyCycle])
  | cons a rest =>
    have hchain : chainDeps r (a :: (rest ++ [a])) := hcycle
    have := chainDeps_rank r packages rank hrank (rest ++ [a]) a hchain
      (by
        intro y hy
        apply hsub
        simp only [List.mem_cons, List.mem_append, List.mem_singleton] at hy ⊢
        tauto)
      a (by simp)
    omega

theorem staleResolver_acyclic (cycle : List String)
    (h : IsDependencyCycle
      (addAll [pkgWithDeps "Q" ["P"], pkgWithDeps "Q" [], pkgWithDeps "P" ["Q"]]) cycle) :
    ∃ x ∈ cycle, x ∉ ["P", "Q", "U"] := by
  apply no_cycle_of_rank _ _ (fun x => if x = "P" then 1 else 0) _ cycle h
  intro x _ d hd _
  have hdb : (addAll [pkgWithDeps "Q" ["P"], pkgWithDeps "Q" [],
      pkgWithDeps "P" ["Q"]]).package_database =
      [("P", pkgWithDeps "P" ["Q"]), ("Q", pkgWithDeps "Q" [])] := by decide
  unfold depsOf at hd
  rw [hdb] at hd
  simp only [StdMap.find] at hd
  by_cases hxP : x = "P"
  · simp only [hxP, if_true] at hd
    have hdQ : d = "Q" := by simpa [pkgWithDeps] using hd
    subst hdQ
    simp [hxP]
  · by_cases hxQ : x = "Q"
    · simp [hxQ, pkgWithDeps, PackageInfo.empty] at hd
    · simp [hxP, hxQ] at hd

/-! ## Dependencies are ordered first -/

theorem decOf_le_initVal (r : DependencyResolver) (hex : ReverseExact r)
    (packages done : List String) (x : String) (hdone : done.Nodup)
    (hsub : ∀ o ∈ done, o ∈ packages) :
    (decOf r x done : Int) ≤ initVal r packages x := by
  have h1 : decOf r x done = (done.map (fun d => (depsOf r x).count d)).sum := by
    unfold decOf
    congr 1
    apply List.map_congr_left
    intro d _
    exact hex d x
  rw [h1, sum_count_eq_filter done (depsOf r x) hdone, initVal, countCandidateDeps_eq]
  have := filter_mem_mono done packages (depsOf r x) hsub
  omega

theorem relax_depsFirst (r : DependencyResolver) (hex : ReverseExact r)
    (packages : List String) (d : String) (pending : List String) (st : OrderState)
    (hinv : OrderInv r packages [] (d :: pending) st) (hdf : DepsFirst r packages st) :
    DepsFirst r packages (relax st d) := by
  have hord_nodup : st.ordered.Nodup := (List.nodup_append.mp hinv.nodup).2.1
  have hord_sub : ∀ o ∈ st.ordered, o ∈ packages := fun o ho =>
    hinv.members o (List.mem_append_right _ ho)
  rcases relax_eq st d with h | ⟨hkey, hproc, h | h⟩
  · rw [h]; exact hdf
  · obtain ⟨hz, h⟩ := h
    rw [h]
    have hdP : d ∈ packages := (hinv.keys d).mp ((StdMap.count_eq_true_iff _ _).mp hkey)
    have hdo : d ∉ st.ordered := fun h => hproc ((hinv.processed d).mpr h)
    have hget : StdMap.getD st.indegree d 0 =
        initVal r packages d - decOf r d st.ordered + ((d :: pending).count d : Nat) :=
      StdMap.getD_of_find _ _ _ _ (hinv.book d hdP hdo)
    have hcnt : ((d :: pending).count d : Int) = (pending.count d : Int) + 1 := by
      simp [List.count_cons]
    have hle := decOf_le_initVal r hex packages st.ordered d hord_nodup hord_sub
    intro x hx y hy hyP
    simp only [List.append_assoc, List.mem_append, List.mem_singleton] at hx
    rcases hx with hx | hx | hx
    · exact hdf x (List.mem_append_left _ hx) y hy hyP
    · subst hx
      refine ⟨?_, fun hxo => absurd hxo hdo⟩
      by_contra hyo
      have := decOf_lt_initVal r hex packages st.ordered x y hord_nodup hord_sub hyP hyo hy
      rw [hget, hcnt] at hz
      omega
    · exact hdf x (List.mem_append_right _ hx) y hy hyP
  · obtain ⟨_, h⟩ := h
    rw [h]
    exact hdf

theorem foldl_relax_depsFirst (r : DependencyResolver) (hex : ReverseExact r)
    (packages : List String) (ds : List String) :
    ∀ st : OrderState, OrderInv r packages [] ds st → DepsFirst r packages st →
      DepsFirst r packages (ds.foldl relax st) := by
  induction ds with
  | nil => intro st _ h; exact h
  | cons d rest ih =>
    intro st hinv hdf
    simp only [List.foldl_cons]
    exact ih _ (relax_inv_any r packages d rest st hinv)
      (relax_depsFirst r hex packages d rest st hinv hdf)

theorem dequeue_depsFirst (r : DependencyResolver) (packages : List String)
    (st : OrderState) (current : String) (rest : List String)
    (hq : st.queue = current :: rest) (hinv : OrderInv r packages [] [] st)
    (hdf : DepsFirst r packages st) :
    DepsFirst r packages (dequeue st current rest) := by
  have hnd := hinv.nodup
  rw [hq] at hnd
  simp only [List.cons_append, List.nodup_cons, List.mem_append, not_or] at hnd
  have hcur : current ∉ st.ordered := hnd.1.2
  intro x hx y hy hyP
  simp only [dequeue, List.mem_append, List.mem_singleton] at hx ⊢
  have hxq : x ∈ st.queue ++ st.ordered := by
    rw [hq]
    simp only [List.cons_append, List.mem_cons, List.mem_append]
    tauto
  obtain ⟨hyo, hidx⟩ := hdf x hxq y hy hyP
  refine ⟨Or.inl hyo, ?_⟩
  intro hxo
  rw [List.indexOf_append_of_mem hyo]
  rcases hxo with hxo | hxo
  · rw [List.indexOf_append_of_mem hxo]
    exact hidx hxo
  · subst hxo
    rw [List.indexOf_append_of_not_mem hcur]
    have := List.indexOf_lt_length.2 hyo
    omega

theorem orderLoop_depsFirst (r : DependencyResolver) (hex : ReverseExact r)
    (packages : List String) (fuel : Nat) :
    ∀ st st' : OrderState, OrderInv r packages [] [] st → DepsFirst r packages st →
      orderLoop r.reverse_dependencies fuel st = some st' → DepsFirst r packages st' := by
  induction fuel with
  | zero => intro st st' _ _ h; simp [orderLoop] at h
  | succ fuel ih =>
    intro st st' hinv hdf h
    unfold orderLoop at h
    cases hq : st.queue with
    | nil =>
      simp only [hq, Option.some.injEq] at h
      subst h
      exact hdf
    | cons current rest =>
      simp only [hq] at h
      rw [orderStep_eq] at h
      have hinv1 := dequeue_inv r packages [] st current rest hq hinv
      have hdf1 := dequeue_depsFirst r packages st current rest hq hinv hdf
      have hinv2 : OrderInv r packages [] [] _ :=
        foldl_relax_inv r hex packages [] (fun x hx => absurd hx (List.not_mem_nil x)) _ _ hinv1
      exact ih _ _ hinv2 (foldl_relax_depsFirst r hex packages _ _ hinv1 hdf1) h

theorem orderInit_depsFirst (r : DependencyResolver) (hex : ReverseExact r)
    (packages : List String) : DepsFirst r packages (orderInit r packages) := by
  obtain ⟨_, _, hqueue, hord, _⟩ := orderInit_spec r packages
  intro x hx y hy hyP
  rw [hqueue, hord, List.append_nil] at hx
  obtain ⟨_, hz⟩ := List.mem_filter.mp hx
  simp only [decide_eq_true_eq] at hz
  have := decOf_lt_initVal r hex packages [] x y List.nodup_nil
    (fun o ho => by simp at ho) hyP (by simp) hy
  simp only [decOf, List.map_nil, List.sum_nil, Nat.cast_zero] at this
  omega

end DependencyResolver

/-! ## The breadth-first walk below the bound -/

namespace DependencyResolver

theorem visitDep_inv (r : DependencyResolver) (name current dep : String) (st : ResolveState)
    (hcur : current = name ∨ Reaches r name current) (hdep : dep ∈ depsOf r current)
    (hinv : ResolveInv r name (some current) st) :
    ResolveInv r name (some current) (visitDep true st dep) ∧
      dep ∈ (visitDep true st dep).visited ∧
      (∀ y ∈ st.visited, y ∈ (visitDep true st dep).visited) := by
  unfold visitDep
  by_cases hv : dep ∈ st.visited
  · rw [if_pos hv]
    exact ⟨hinv, hv, fun y hy => hy⟩
  · rw [if_neg hv]
    have hdn : dep ≠ name := fun e => hv ((hinv.visited_iff dep).2 (Or.inl e))
    have hdr : dep ∉ st.resolved := fun e => hv ((hinv.visited_iff dep).2 (Or.inr e))
    have hreach : Reaches r name dep := by
      rcases hcur with h | h
      · rw [← h]
        exact Relation.TransGen.single hdep
      · exact Relation.TransGen.tail h hdep
    refine ⟨⟨?_, ?_, ?_, ?_, ?_, ?_⟩, List.mem_cons_self _ _, fun y hy => List.mem_cons_of_mem _ hy⟩
    · intro y
      simp only [List.mem_cons, List.mem_append, List.mem_singleton, hinv.visited_iff y]
      tauto
    · exact List.Nodup.append hinv.nodup (List.nodup_singleton dep)
        (by
          intro a ha hb
          simp only [List.mem_singleton] at hb
          exact hdr (hb ▸ ha))
    · intro hm
      rcases List.mem_append.1 hm with h | h
      · exact hinv.fresh h
      · have hnd2 : name = dep := by simpa using h
        exact hdn hnd2.symm
    · intro y hy
      rcases List.mem_append.1 hy with h | h
      · exact hinv.reach y h
      · have : y = dep := by simpa using h
        rw [this]
        exact hreach
    · intro y hy
      simp only [if_true, List.mem_append, List.mem_singleton] at hy
      rcases hy with h | h
      · exact List.mem_cons_of_mem _ (hinv.queued y h)
      · rw [h]
        exact List.mem_cons_self _ _
    · intro v hvm
      simp only [if_true, List.mem_append, List.mem_singleton]
      rcases List.mem_cons.1 hvm with h | h
      · left; right; exact h
      · rcases hinv.closed v h with h1 | h1 | h1
        · left; left; exact h1
        · right; left; exact h1
        · right; right
          intro d hd
          exact List.mem_cons_of_mem _ (h1 d hd)

theorem foldl_visitDep_inv (r : DependencyResolver) (name current : String)
    (hcur : current = name ∨ Reaches r name current) (deps : List String) :
    ∀ st : ResolveState, (∀ d ∈ deps, d ∈ depsOf r current) →
      ResolveInv r name (some current) st →
      ResolveInv r name (some current) (deps.foldl (visitDep true) st) ∧
        (∀ d ∈ deps, d ∈ (deps.foldl (visitDep true) st).visited) ∧
        (∀ y ∈ st.visited, y ∈ (deps.foldl (visitDep true) st).visited) := by
  induction deps with
  | nil => intro st _ h; exact ⟨h, by simp, fun y hy => hy⟩
  | cons d rest ih =>
    intro st hsub hinv
    obtain ⟨h1, h2, h3⟩ := visitDep_inv r name current d st hcur
      (hsub d (List.mem_cons_self _ _)) hinv
    obtain ⟨g1, g2, g3⟩ := ih (visitDep true st d)
      (fun x hx => hsub x (List.mem_cons_of_mem _ hx)) h1
    simp only [List.foldl_cons]
    refine ⟨g1, ?_, fun y hy => g3 y (h3 y hy)⟩
    intro x hx
    rcases List.mem_cons.1 hx with h | h
    · rw [h]; exact g3 d h2
    · exact g2 x h

theorem resolveInv_close (r : DependencyResolver) (name current : String) (st : ResolveState)
    (hinv : ResolveInv r name (some current) st)
    (hdeps : ∀ d ∈ depsOf r current, d ∈ st.visited) :
    ResolveInv r name none st := by
  refine ⟨hinv.visited_iff, hinv.nodup, hinv.fresh, hinv.reach, hinv.queued, ?_⟩
  intro v hv
  rcases hinv.closed v hv with h | h | h
  · left; exact h
  · right; right
    have : v = current := by simpa using h
    rw [this]
    exact hdeps
  · right; right; exact h

theorem resolveInv_pop (r : DependencyResolver) (name current : String) (rest : List String)
    (st : ResolveState) (hq : st.to_process = current :: rest)
    (hinv : ResolveInv r name none st) :
    ResolveInv r name (some current) { st with to_process := rest } ∧
      (current = name ∨ Reaches r name current) := by
  have hcv : current ∈ st.visited := hinv.queued current (by rw [hq]; exact List.mem_cons_self _ _)
  refine ⟨⟨hinv.visited_iff, hinv.nodup, hinv.fresh, hinv.reach, ?_, ?_⟩, ?_⟩
  · intro y hy
    exact hinv.queued y (by rw [hq]; exact List.mem_cons_of_mem _ hy)
  · intro v hv
    rcases hinv.closed v hv with h | h | h
    · rw [hq] at h
      rcases List.mem_cons.1 h with h1 | h1
      · right; left; rw [h1]
      · left; exact h1
    · cases h
    · right; right; exact h
  · rcases (hinv.visited_iff current).1 hcv with h | h
    · left; exact h
    · right; exact hinv.reach current h

theorem resolveLoop_inv (r : DependencyResolver) (name : String) :
    ∀ (fuel : Nat) (st st2 : ResolveState), ResolveInv r name none st →
      resolveLoop r.package_database true fuel st = some st2 →
      ResolveInv r name none st2 ∧
        (st2.to_process = [] ∨ ¬ st2.resolved.length < DEPENDENCY_RESOLUTION_DEPTH) := by
  intro fuel
  induction fuel with
  | zero => intro st st2 _ h; simp [resolveLoop] at h
  | succ fuel ih =>
    intro st st2 hinv h
    unfold resolveLoop at h
    cases hq : st.to_process with
    | nil =>
      simp only [hq] at h
      cases h
      exact ⟨hinv, Or.inl hq⟩
    | cons current rest =>
      simp only [hq] at h
      by_cases hlen : st.resolved.length < DEPENDENCY_RESOLUTION_DEPTH
      · rw [if_pos hlen] at h
        obtain ⟨hpop, hcur⟩ := resolveInv_pop r name current rest st hq hinv
        cases hf : StdMap.find r.package_database current with
        | none =>
          simp only [hf] at h
          apply ih _ st2 _ h
          apply resolveInv_close r name current _ hpop
          intro d hd
          simp [depsOf, hf] at hd
        | some pkg =>
          simp only [hf] at h
          have hdeps : depsOf r current = pkg.dependencies := by simp [depsOf, hf]
          obtain ⟨g1, g2, _⟩ := foldl_visitDep_inv r name current hcur pkg.dependencies
            { st with to_process := rest } (fun d hd => by rw [hdeps]; exact hd) hpop
          apply ih _ st2 _ h
          apply resolveInv_close r name current _ g1
          intro d hd
          rw [hdeps] at hd
          exact g2 d hd
      · rw [if_neg hlen] at h
        cases h
        exact ⟨hinv, Or.inr hlen⟩

theorem resolveInv_init (r : DependencyResolver) (name : String) :
    ResolveInv r name none { resolved := [], visited := [name], to_process := [name] } := by
  refine ⟨?_, List.nodup_nil, by simp, by simp, by simp, ?_⟩
  · intro y; simp
  · intro v hv
    left
    exact hv

/-- Everything reached from `name` lies in a list that holds the dependencies of
`name` and of its own members. -/
theorem reaches_mem_of_closed (r : DependencyResolver) (name : String) (S : List String)
    (hclosed : ∀ x ∈ name :: S, ∀ d ∈ depsOf r x, d ∈ S) (y : String)
    (h : Reaches r name y) : y ∈ S := by
  induction h with
  | single h1 => exact hclosed name (List.mem_cons_self _ _) _ h1
  | tail _ h2 ih => exact hclosed _ (List.mem_cons_of_mem _ ih) _ h2

theorem reachable_few_of_closed (r : DependencyResolver) (name : String) (S : List String)
    (hclosed : ∀ x ∈ name :: S, ∀ d ∈ depsOf r x, d ∈ S)
    (hlen : S.length < DEPENDENCY_RESOLUTION_DEPTH) :
    ∀ l : List String, l.Nodup → (∀ y ∈ l, y ≠ name ∧ Reaches r name y) →
      l.length < DEPENDENCY_RESOLUTION_DEPTH := by
  intro l hnd hl
  have := (List.subperm_of_subset hnd
    (fun y hy => reaches_mem_of_closed r name S hclosed y (hl y hy).2)).length_le
  omega

end DependencyResolver

/-! ## Decomposing a URL -/

theorem beginsWith_append (q b : List Char) : beginsWith q (q ++ b) = true :=
  (beginsWith_iff q (q ++ b)).2 ⟨b, rfl⟩

theorem strFindFrom_first (c : Char) (q a b : List Char) (hc : c ∉ a) :
    ∀ pos, strFindFrom (c :: q) (a ++ ((c :: q) ++ b)) pos = some (pos + a.length) := by
  induction a with
  | nil =>
    intro pos
    have hb := beginsWith_append (c :: q) b
    simp only [List.nil_append, List.cons_append] at hb ⊢
    simp only [strFindFrom, hb, if_true, List.length_nil, Nat.add_zero]
  | cons x rest ih =>
    intro pos
    have hx : c ≠ x := fun e => hc (e ▸ List.mem_cons_self _ _)
    have hrest : c ∉ rest := fun e => hc (List.mem_cons_of_mem _ e)
    simp only [List.cons_append, strFindFrom, beginsWith, hx, decide_False, Bool.false_and,
      Bool.false_eq_true, if_false, List.append_eq]
    have := ih hrest (pos + 1)
    simp only [List.cons_append] at this
    rw [this]
    simp only [List.length_cons]
    congr 1
    omega

theorem strFindFrom_none (c : Char) (q s : List Char) (hc : c ∉ s) :
    ∀ pos, strFindFrom (c :: q) s pos = none := by
  induction s with
  | nil => intro pos; simp [strFindFrom]
  | cons x rest ih =>
    intro pos
    have hx : c ≠ x := fun e => hc (e ▸ List.mem_cons_self _ _)
    have hrest : c ∉ rest := fun e => hc (List.mem_cons_of_mem _ e)
    simp only [strFindFrom, beginsWith, hx, decide_False, Bool.false_and, Bool.false_eq_true,
      if_false]
    exact ih hrest (pos + 1)

theorem decimalValueRev_append (l : List Char) (c : Char) :
    decimalValueRev (l ++ [c]) = decimalValueRev l + 10 ^ l.length * (c.toNat - 48) := by
  induction l with
  | nil => simp [decimalValueRev]
  | cons x rest ih =>
    simp only [List.cons_append, decimalValueRev, List.append_eq]
    rw [ih]
    simp only [List.length_cons, pow_succ]
    ring

theorem foldl_digits (ds : List Char) :
    ∀ acc : Nat,
      ds.foldl (fun (acc : Nat) (c : Char) => acc * 10 + (c.toNat - 48)) acc =
        acc * 10 ^ ds.length + decimalValueRev ds.reverse := by
  induction ds with
  | nil => intro acc; simp [decimalValueRev]
  | cons c rest ih =>
    intro acc
    simp only [List.foldl_cons, ih, List.reverse_cons, decimalValueRev_append,
      List.length_reverse, List.length_cons, pow_succ]
    ring

namespace PackageDownloader

theorem not_isSpace_of_isDigit (c : Char) (h : c.isDigit = true) : isSpace c = false := by
  cases hs : isSpace c with
  | false => rfl
  | true =>
    exfalso
    simp only [isSpace, Bool.or_eq_true, decide_eq_true_eq] at hs
    rcases hs with ((((hs | hs) | hs) | hs) | hs) | hs <;> subst hs <;> revert h <;> decide

theorem stoi_decimal (N : String) (hN : IsDecimal N) (hval : decimalValue N < 2 ^ 31) :
    stoi N = some (decimalValue N : Int) := by
  obtain ⟨hne, hdig⟩ := hN
  cases hd : N.data with
  | nil => exact absurd hd hne
  | cons c rest =>
    have hc : c.isDigit = true := hdig c (by rw [hd]; exact List.mem_cons_self _ _)
    have hsp : isSpace c = false := not_isSpace_of_isDigit c hc
    have hminus : c ≠ '-' := by
      intro e
      subst e
      revert hc
      decide
    have hplus : c ≠ '+' := by
      intro e
      subst e
      revert hc
      decide
    have htake : (c :: rest).takeWhile Char.isDigit = c :: rest := by
      rw [List.takeWhile_eq_self_iff]
      intro x hx
      exact hdig x (by rw [hd]; exact hx)
    have hdrop : (c :: rest).dropWhile isSpace = c :: rest := by
      simp [List.dropWhile, hsp]
    have hmatch : (match c :: rest with
        | '-' :: u => (true, u)
        | '+' :: u => (false, u)
        | u => (false, u)) = (false, c :: rest) := by
      split
      · rename_i heq
        simp only [List.cons.injEq] at heq
        exact absurd heq.1 hminus
      · rename_i heq
        simp only [List.cons.injEq] at heq
        exact absurd heq.1 hplus
      · rfl
    unfold stoi
    simp only [hd, hdrop, hmatch, htake]
    have hfold := foldl_digits (c :: rest) 0
    simp only [Nat.zero_mul, Nat.zero_add] at hfold
    rw [hfold]
    have hdv : decimalValueRev (c :: rest).reverse = decimalValue N := by
      unfold decimalValue
      rw [hd]
    rw [hdv]
    have hval2 : decimalValue N < 2147483648 := by simpa using hval
    have h1 : (-2147483648 : Int) ≤ (decimalValue N : Int) := by omega
    simp [h1, hval2]

end PackageDownloader

namespace PackageDownloader

theorem drop_scheme (S R : List Char) :
    (S ++ (':' :: '/' :: '/' :: R)).drop (S.length + 3) = R := by
  rw [List.drop_append]
  rfl

theorem parseUrl_of_parts (url : String) (S HP T : List Char)
    (hurl : url.data = S ++ (':' :: '/' :: '/' :: (HP ++ T))) (hS : ':' ∉ S)
    (hHP : '/' ∉ HP) (hT : T = [] ∨ ∃ P, T = '/' :: P) :
    parseUrl url =
      match strFind ⟨HP⟩ ":" with
      | some port_pos =>
        match stoi (substrFrom ⟨HP⟩ (port_pos + 1)) with
        | some n =>
          some { host := substr ⟨HP⟩ 0 port_pos, path := if T = [] then "/" else ⟨T⟩,
                 port := Json.wrapUnsigned 16 n,
                 use_ssl := decide ((⟨S⟩ : String) = "https") }
        | none => none
      | none =>
        some { host := ⟨HP⟩, path := if T = [] then "/" else ⟨T⟩, port := 443,
               use_ssl := decide ((⟨S⟩ : String) = "https") } := by
  have hfind : strFind url "://" = some S.length := by
    unfold strFind
    rw [hurl]
    have := strFindFrom_first ':' ['/', '/'] S (HP ++ T) hS 0
    simpa using this
  have hproto : substr url 0 S.length = ⟨S⟩ := by
    unfold substr
    rw [hurl]
    simp
  have hdrop : url.data.drop (S.length + 3) = HP ++ T := by
    rw [hurl]
    exact drop_scheme S (HP ++ T)
  have hsplit : (match strFindFrom ['/'] (url.data.drop (S.length + 3)) (S.length + 3) with
      | some path_start =>
        (substr url (S.length + 3) (path_start - (S.length + 3)), substrFrom url path_start)
      | none => (substrFrom url (S.length + 3), "/")) =
      ((⟨HP⟩ : String), if T = [] then "/" else (⟨T⟩ : String)) := by
    rcases hT with hT | ⟨P, hT⟩
    · subst hT
      rw [hdrop, List.append_nil, strFindFrom_none '/' [] HP hHP]
      simp only [substrFrom, hdrop, List.append_nil, if_true]
    · subst hT
      rw [hdrop]
      have := strFindFrom_first '/' [] HP P hHP (S.length + 3)
      simp only [List.nil_append, List.cons_append] at this
      rw [this]
      simp only [substr, substrFrom, hdrop, Nat.add_sub_cancel_left]
      have h1 : url.data.drop (S.length + 3 + HP.length) = '/' :: P := by
        rw [← List.drop_drop, hdrop]
        simp
      rw [h1]
      simp
  unfold parseUrl
  simp only [hfind, hproto, hsplit]

theorem parseUrl_host_only (url : String) (S H T : List Char)
    (hurl : url.data = S ++ (':' :: '/' :: '/' :: (H ++ T))) (hS : ':' ∉ S)
    (hH1 : ':' ∉ H) (hH2 : '/' ∉ H) (hT : T = [] ∨ ∃ P, T = '/' :: P) :
    parseUrl url =
      some { host := ⟨H⟩, path := if T = [] then "/" else ⟨T⟩, port := 443,
             use_ssl := decide ((⟨S⟩ : String) = "https") } := by
  rw [parseUrl_of_parts url S H T hurl hS hH2 hT]
  have hnone : strFind ⟨H⟩ ":" = none := by
    unfold strFind
    exact strFindFrom_none ':' [] H hH1 0
  simp only [hnone]

theorem parseUrl_host_port (url : String) (S H T : List Char) (N : String)
    (hurl : url.data = S ++ (':' :: '/' :: '/' :: ((H ++ ':' :: N.data) ++ T))) (hS : ':' ∉ S)
    (hH1 : ':' ∉ H) (hH2 : '/' ∉ H) (hN : IsDecimal N) (hval : decimalValue N < 65536)
    (hT : T = [] ∨ ∃ P, T = '/' :: P) :
    parseUrl url =
      some { host := ⟨H⟩, path := if T = [] then "/" else ⟨T⟩, port := decimalValue N,
             use_ssl := decide ((⟨S⟩ : String) = "https") } := by
  have hslash : '/' ∉ H ++ ':' :: N.data := by
    intro hm
    rcases List.mem_append.1 hm with h | h
    · exact hH2 h
    · rcases List.mem_cons.1 h with h | h
      · exact absurd h (by decide)
      · have := hN.2 '/' h
        revert this
        decide
  rw [parseUrl_of_parts url S (H ++ ':' :: N.data) T hurl hS hslash hT]
  have hfind : strFind ⟨H ++ ':' :: N.data⟩ ":" = some H.length := by
    unfold strFind
    have := strFindFrom_first ':' [] H N.data hH1 0
    simpa using this
  have hport : substrFrom ⟨H ++ ':' :: N.data⟩ (H.length + 1) = N := by
    unfold substrFrom
    apply String.ext
    simp
  have hhost : substr ⟨H ++ ':' :: N.data⟩ 0 H.length = ⟨H⟩ := by
    unfold substr
    simp
  have hstoi := stoi_decimal N hN (by omega)
  have hwrap : Json.wrapUnsigned 16 (decimalValue N : Int) = decimalValue N := by
    unfold Json.wrapUnsigned
    have : ((decimalValue N : Int) % 2 ^ 16) = (decimalValue N : Int) :=
      Int.emod_eq_of_lt (Int.natCast_nonneg _) (by exact_mod_cast hval)
    rw [this]
    simp
  simp only [hfind, hport, hhost, hstoi, hwrap]

end PackageDownloader

/-! ## The claims -/

open DependencyResolver PackageCache ElazarPackageManager

/-- C1 (fails on the code).  In the scenario of the claim, `A` depending on `B`,
the order of `[A, B]` is `[B, A]`.  But once the record of `A` has been registered
a second time, as a repeated installation does, every reverse edge of `A` is
stored twice: with `A` depending on `B` and `D`, and `D` on `B`, the acyclic
duplicate-free candidate list `[A, B, D]` is ordered `[B, A, D]`, with `A` before
its dependency `D`. -/
theorem getInstallationOrder_after_repeated_addPackage :
    getInstallationOrder (addAll [pkgWithDeps "A" ["B"], pkgWithDeps "B" []]) ["A", "B"]
      = ["B", "A"] ∧
    StdMap.find
        (addAll [pkgWithDeps "A" ["B", "D"], pkgWithDeps "A" ["B", "D"],
                 pkgWithDeps "D" ["B"], pkgWithDeps "B" []]).package_database "A"
      = some (pkgWithDeps "A" ["B", "D"]) ∧
    getInstallationOrder
        (addAll [pkgWithDeps "A" ["B", "D"], pkgWithDeps "A" ["B", "D"],
                 pkgWithDeps "D" ["B"], pkgWithDeps "B" []]) ["A", "B", "D"]
      = ["B", "A", "D"] := by
  decide

/-- C2 (fails on the code).  The size bound is tested only between two dequeued
packages: for a record `P` that lists 51 distinct dependencies,
`resolveDependencies("P")` returns all 51 names, with either value of `recursive`. -/
theorem resolveDependencies_exceeds_depth :
    resolveDependencies (addAll [pkgWithDeps "P" fiftyOneNames]) "P" true = fiftyOneNames ∧
    resolveDependencies (addAll [pkgWithDeps "P" fiftyOneNames]) "P" false = fiftyOneNames ∧
    DEPENDENCY_RESOLUTION_DEPTH < fiftyOneNames.length := by
  decide

/-- C3 (fails on the code).  The resolver only learns a record when the installer
registers it, so on a fresh system it knows no dependency of any package: with the
merged index holding `A` (which depends on `B`) and `B`, and every download and
extraction succeeding, `installPackage("A")` returns true after downloading and
installing `A` alone; `B` is neither downloaded nor installed, and the resolver
still has no record of it. -/
theorem installPackage_skips_index_dependencies :
    StdMap.find (indexOf [pkgWithDeps "A" ["B"], pkgWithDeps "B" []]) "A"
      = some (pkgWithDeps "A" ["B"]) ∧
    StdMap.find (indexOf [pkgWithDeps "A" ["B"], pkgWithDeps "B" []]) "B"
      = some (pkgWithDeps "B" []) ∧
    (installPackage sampleEnv
        (freshManager (indexOf [pkgWithDeps "A" ["B"], pkgWithDeps "B" []]) DependencyResolver.new)
        "A").1 = some true ∧
    (installPackage sampleEnv
        (freshManager (indexOf [pkgWithDeps "A" ["B"], pkgWithDeps "B" []]) DependencyResolver.new)
        "A").2.trace =
      [Event.download "https://packages.elazar-os.org/stable/packages/A-1.0.pkg"
         "/opt/elazar/cache/A-1.0.pkg" "" true,
       Event.install "A" true] ∧
    StdMap.find
        (installPackage sampleEnv
          (freshManager (indexOf [pkgWithDeps "A" ["B"], pkgWithDeps "B" []])
            DependencyResolver.new)
          "A").2.dependency_resolver.package_database "B" = none := by
  decide

/-- C4 (fails on the code).  `addPackage` only ever appends to the reverse index:
after the record of `Q`, which depended on `P`, is replaced by one without
dependencies, `findReverseDependencies("P")` still reports `Q`. -/
theorem findReverseDependencies_keeps_stale_edge :
    StdMap.find (addAll [pkgWithDeps "Q" ["P"], pkgWithDeps "Q" []]).package_database "Q"
      = some (pkgWithDeps "Q" []) ∧
    findReverseDependencies (addAll [pkgWithDeps "Q" ["P"], pkgWithDeps "Q" []]) "P" = ["Q"] := by
  decide

/-- C5 (fails on the code).  A second `addPackage` of the same record appends its
name to the reverse-dependency lists once more: the resolver state differs from
the one after a single call, and `findReverseDependencies("B")` is `[A, A]`
instead of `[A]`. -/
theorem addPackage_twice_differs :
    addPackage (addPackage DependencyResolver.new (pkgWithDeps "A" ["B"])) (pkgWithDeps "A" ["B"])
      ≠ addPackage DependencyResolver.new (pkgWithDeps "A" ["B"]) ∧
    findReverseDependencies (addPackage DependencyResolver.new (pkgWithDeps "A" ["B"])) "B"
      = ["A"] ∧
    findReverseDependencies
        (addPackage (addPackage DependencyResolver.new (pkgWithDeps "A" ["B"]))
          (pkgWithDeps "A" ["B"])) "B"
      = ["A", "A"] := by
  decide

/-- C6 as stated fails.  A candidate list that names `C` twice processes `C`
twice: with `A` depending on `B` and `C`, and `B` on `A`, the candidates
`[C, C, A, B]` are ordered `[C, C, A, B]`, members of the cycle included.  The
same happens for the duplicate-free list `[A, B, C]` once the record of `A` has
been registered twice, because its reverse edges are then stored twice. -/
theorem getInstallationOrder_emits_cycle_members :
    getInstallationOrder (addAll [pkgWithDeps "A" ["B", "C"], pkgWithDeps "B" ["A"]])
        ["C", "C", "A", "B"]
      = ["C", "C", "A", "B"] ∧
    getInstallationOrder
        (addAll [pkgWithDeps "A" ["B", "C"], pkgWithDeps "A" ["B", "C"], pkgWithDeps "B" ["A"]])
        ["A", "B", "C"]
      = ["C", "A", "B"] := by
  decide

/-- C6, amended.  In every resolver state reached by registering each package
name at most once, and for every duplicate-free candidate list, no candidate that
lies on a dependency cycle whose members are all candidates appears in the output
of `getInstallationOrder`; in particular, with `A` depending on `B` and `B` on
`A`, `getInstallationOrder([A, B])` is empty. -/
theorem getInstallationOrder_drops_cycles (pkgs : List PackageInfo)
    (packages cycle : List String) (X : String)
    (hreg : (pkgs.map (fun p => p.name)).Nodup) (hpk : packages.Nodup)
    (hcycle : IsDependencyCycle (addAll pkgs) cycle)
    (hcand : ∀ x ∈ cycle, x ∈ packages) (hX : X ∈ cycle) :
    X ∉ getInstallationOrder (addAll pkgs) packages ∧
    getInstallationOrder (addAll [pkgWithDeps "A" ["B"], pkgWithDeps "B" ["A"]]) ["A", "B"]
      = [] :=
  ⟨getInstallationOrder_avoids_knot (addAll pkgs) (ReverseExact_addAll pkgs hreg) packages
    cycle hpk (fun x hx => ⟨hcand x hx, cycle_is_knot (addAll pkgs) cycle hcycle x hx⟩) X hX,
   by decide⟩

/-- Witness for C6, amended: with `A` depending on `B` and `C`, `B` on `A`, and
`C` on nothing, each registered once, the cycle `[A, B]` lies within the
candidates `[A, B, C]`; `A` is not in the output, which is `[C]`. -/
theorem getInstallationOrder_drops_cycles_witness :
    IsDependencyCycle
      (addAll [pkgWithDeps "A" ["B", "C"], pkgWithDeps "B" ["A"], pkgWithDeps "C" []])
      ["A", "B"] ∧
    getInstallationOrder
        (addAll [pkgWithDeps "A" ["B", "C"], pkgWithDeps "B" ["A"], pkgWithDeps "C" []])
        ["A", "B", "C"] = ["C"] ∧
    "A" ∉ getInstallationOrder
        (addAll [pkgWithDeps "A" ["B", "C"], pkgWithDeps "B" ["A"], pkgWithDeps "C" []])
        ["A", "B", "C"] :=
  ⟨⟨by decide, by decide, trivial⟩, by decide,
   (getInstallationOrder_drops_cycles
     [pkgWithDeps "A" ["B", "C"], pkgWithDeps "B" ["A"], pkgWithDeps "C" []]
     ["A", "B", "C"] ["A", "B"] "A" (by decide) (by decide) ⟨by decide, by decide, trivial⟩
     (by decide) (by decide)).1⟩

/-- C7 (fails on the code).  Budget 100 bytes, `E1` then `E2` of 60 bytes each.
Adding `E1` returns with 80 bytes in the directory (archive and index file).
`addToCache` of `E2` does not return: it holds `cache_mutex` when
`enforceCacheSize` calls `removeFromCache`, which locks the same mutex.  Run
without the lock, as the constructor runs it, `enforceCacheSize` on the same state
removes `E1` and then `E2` as well, because `current_size` is only reduced when
the archive still exists after its removal: nothing stays cached and the
directory holds the 4-byte index file only. -/
theorem enforceCacheSize_two_entries :
    addToCache sampleEnv (emptyCache 100)
        (emptyCacheDir.write ((emptyCache 100).getCachePath "E1" "1.0") archive60)
        "E1" "1.0" 1000 = some cacheAfterE1 ∧
    getCacheSize cacheAfterE1.1 cacheAfterE1.2 = 80 ∧
    addToCache sampleEnv cacheAfterE1.1
        (cacheAfterE1.2.write (cacheAfterE1.1.getCachePath "E2" "1.0") archive60)
        "E2" "1.0" 2000 = none ∧
    saveCacheIndex sampleEnv cacheWithE1E2.1
        (cacheAfterE1.2.write (cacheAfterE1.1.getCachePath "E2" "1.0") archive60)
      = cacheWithE1E2.2 ∧
    enforceCacheSize sampleEnv false cacheWithE1E2.1 cacheWithE1E2.2 =
      some (emptyCache 100,
            { files := [("/opt/elazar/cache/cache_index.json",
                         { size := 4, sha256 := "", archive := none })]
              dirs := ["/opt/elazar/cache"] }) := by
  decide

/-- C9.  `checkConflicts(name)` is true exactly when `name` has a stored record and
some entry of that record's conflict list names a package whose stored record is
marked installed; the resolver state it leaves is the one it was called on. -/
theorem checkConflicts_iff (r : DependencyResolver) (name : String) :
    ((r.checkConflicts name).1 = true ↔
      ∃ pkg, StdMap.find r.package_database name = some pkg ∧
        ∃ c ∈ pkg.conflicts, ∃ q, StdMap.find r.package_database c = some q ∧
          q.installed = true) ∧
    (r.checkConflicts name).2 = r := by
  rw [checkConflicts_eq]
  simp

/-- C10 as stated fails: the conflict is only checked by the installer, after the
archive has been fetched.  With `X` offered by the index, known to the resolver
with `Y` in its conflict list, `Y` marked installed and the archive of `X` not in
the cache, `installPackage("X")` returns false, but only after one
`downloadPackage` call, for the archive of `X`. -/
theorem installPackage_conflict_downloads_first :
    StdMap.find conflictManager.package_index "X" = some (pkgWithConflicts "X" ["Y"] false) ∧
    StdMap.find conflictManager.dependency_resolver.package_database "X"
      = some (pkgWithConflicts "X" ["Y"] true) ∧
    StdMap.find conflictManager.dependency_resolver.package_database "Y"
      = some (pkgWithConflicts "Y" [] true) ∧
    (installPackage sampleEnv conflictManager "X").1 = some false ∧
    (installPackage sampleEnv conflictManager "X").2.downloads =
      [Event.download "https://packages.elazar-os.org/stable/packages/X-1.0.pkg"
         "/opt/elazar/cache/X-1.0.pkg" "" true] := by
  decide

/-- C10, amended.  Let `X`, a non-empty name, be in the merged index under its own
name and not marked installed there; let the resolver know `X` without
dependencies and with `Y` in its conflict list, and let `Y` be marked installed.
If the archive of `X` is cached, `installPackage(X)` returns false and no
`downloadPackage` call is made.  If it is not cached, exactly one
`downloadPackage` call is made, for the archive of `X`, before the conflict is
checked; the call then returns false, unless the download succeeded and
`addToCache` does not return. -/
theorem installPackage_conflict (env : Env) (m : ElazarPackageManager) (X Y : String)
    (rx r ry : PackageInfo)
    (hidx : StdMap.find m.package_index X = some rx)
    (hname : rx.name = X) (hX : X ≠ "") (hinst : rx.installed = false)
    (hdb : StdMap.find m.dependency_resolver.package_database X = some r)
    (hdeps : r.dependencies = [])
    (hY : Y ∈ r.conflicts)
    (hdbY : StdMap.find m.dependency_resolver.package_database Y = some ry)
    (hYinst : ry.installed = true) :
    (m.package_cache.isCached rx.name rx.version = true →
      (installPackage env m X).1 = some false ∧
      (installPackage env m X).2.downloads = m.downloads) ∧
    (m.package_cache.isCached rx.name rx.version = false →
      (installPackage env m X).2.downloads = m.downloads ++
        [Event.download (rx.repository ++ "/packages/" ++ rx.name ++ "-" ++ rx.version ++ ".pkg")
          (m.package_cache.getCachePath rx.name rx.version) rx.sha256
          (PackageDownloader.downloadPackage env m.fs
            (rx.repository ++ "/packages/" ++ rx.name ++ "-" ++ rx.version ++ ".pkg")
            (m.package_cache.getCachePath rx.name rx.version) rx.sha256).1] ∧
      ((installPackage env m X).1 = some false ∨
        ((installPackage env m X).1 = none ∧
          (PackageDownloader.downloadPackage env m.fs
            (rx.repository ++ "/packages/" ++ rx.name ++ "-" ++ rx.version ++ ".pkg")
            (m.package_cache.getCachePath rx.name rx.version) rx.sha256).1 = true ∧
          m.package_cache.addToCache env
            (PackageDownloader.downloadPackage env m.fs
              (rx.repository ++ "/packages/" ++ rx.name ++ "-" ++ rx.version ++ ".pkg")
              (m.package_cache.getCachePath rx.name rx.version) rx.sha256).2
            rx.name rx.version (env.clock m.clock_reads) = none))) := by
  have hinfo : getPackageInfo m.package_index X = rx := by
    simp [getPackageInfo, StdMap.count, StdMap.getD, hidx]
  have hne : ¬ rx.name = "" := by rw [hname]; exact hX
  have hrun : installPackage env m X = installOne env m X := by
    unfold installPackage
    simp only [hinfo, hne, if_false]
    rw [resolveDependencies_no_deps _ X r hdb hdeps, List.nil_append,
      getInstallationOrder_single _ X r hdb hdeps, installLoop_single]
  have hdb' : StdMap.find m.dependency_resolver.package_database rx.name = some r := by
    rw [hname]; exact hdb
  rw [hrun]
  unfold installOne
  simp only [hinfo, hinst, Bool.false_eq_true, if_false]
  constructor
  · intro hc
    simp only [hc, Bool.not_true, Bool.false_eq_true, if_false]
    rw [installer_refuses _ _ _ _ _ Y r ry hdb' hY hdbY hYinst]
    simp [downloads, downloads_append_install]
  · intro hc
    simp only [hc, Bool.not_false, if_true]
    cases hdl : (PackageDownloader.downloadPackage env m.fs
        (rx.repository ++ "/packages/" ++ rx.name ++ "-" ++ rx.version ++ ".pkg")
        (m.package_cache.getCachePath rx.name rx.version) rx.sha256).1 with
    | false => simp [downloads, downloads_append_download]
    | true =>
      simp only [Bool.not_true, Bool.false_eq_true, if_false]
      cases hadd : m.package_cache.addToCache env
          (PackageDownloader.downloadPackage env m.fs
            (rx.repository ++ "/packages/" ++ rx.name ++ "-" ++ rx.version ++ ".pkg")
            (m.package_cache.getCachePath rx.name rx.version) rx.sha256).2
          rx.name rx.version (env.clock m.clock_reads) with
      | none => simp [downloads, downloads_append_download]
      | some res =>
        obtain ⟨c, fs2⟩ := res
        simp only
        rw [installer_refuses _ _ _ _ _ Y r ry hdb' hY hdbY hYinst]
        simp [downloads, List.filter_append]

/-- Witness for C10, amended: with the archive of `X` in the cache,
`installPackage("X")` on `conflictManagerCached` returns false and the log of
download calls stays empty. -/
theorem installPackage_conflict_witness :
    conflictManagerCached.package_cache.isCached "X" "1.0" = true ∧
    (installPackage sampleEnv conflictManagerCached "X").1 = some false ∧
    (installPackage sampleEnv conflictManagerCached "X").2.downloads = [] :=
  ⟨by decide,
   (installPackage_conflict sampleEnv conflictManagerCached "X" "Y"
     (pkgWithConflicts "X" ["Y"] false) (pkgWithConflicts "X" ["Y"] true)
     (pkgWithConflicts "Y" [] true)
     (by decide) (by decide) (by decide) (by decide) (by decide) (by decide) (by decide)
     (by decide) (by decide)).1 (by decide)⟩

/-- C11.  When `findReverseDependencies(P)` is not empty, `removePackage(P)` of
the installer returns false and hands back the resolver and the file system it was
given: no file or directory is touched, the files below `install_root/packages/P`
included, and nothing changes in the resolver. -/
theorem removePackage_refused (install_root : String) (resolver : DependencyResolver)
    (fs : FileSystem) (P : String) (h : resolver.findReverseDependencies P ≠ []) :
    PackageInstaller.removePackage install_root resolver fs P = (false, resolver, fs) := by
  unfold PackageInstaller.removePackage
  simp only [findReverseDependenciesState_eq]
  rw [if_pos h]

/-- Witness for C11: `Q` depends on `P`, and a file of `P` is installed; removing
`P` is refused and the file stays. -/
theorem removePackage_refused_witness :
    findReverseDependencies (addAll [pkgWithDeps "Q" ["P"], pkgWithDeps "P" []]) "P" ≠ [] ∧
    PackageInstaller.removePackage "/opt/elazar"
        (addAll [pkgWithDeps "Q" ["P"], pkgWithDeps "P" []])
        { files := [("/opt/elazar/packages/P/bin/p", archive60)],
          dirs := ["/opt/elazar", "/opt/elazar/packages/P", "/opt/elazar/packages/P/bin"] }
        "P" =
      (false, addAll [pkgWithDeps "Q" ["P"], pkgWithDeps "P" []],
        { files := [("/opt/elazar/packages/P/bin/p", archive60)],
          dirs := ["/opt/elazar", "/opt/elazar/packages/P", "/opt/elazar/packages/P/bin"] }) :=
  ⟨by decide,
   removePackage_refused "/opt/elazar" (addAll [pkgWithDeps "Q" ["P"], pkgWithDeps "P" []])
     { files := [("/opt/elazar/packages/P/bin/p", archive60)],
       dirs := ["/opt/elazar", "/opt/elazar/packages/P", "/opt/elazar/packages/P/bin"] }
     "P" (by decide)⟩

/-- C17.  Whenever `installPackage(record, archive_path)` of the installer
returns true, the resolver afterwards stores, under `record.name`, the record with
`installed` set, and `checkConflicts(Z)` is true for every `Z` it has a record of
whose conflict list names `record.name`. -/
theorem installPackage_marks_installed (install_root : String) (resolver : DependencyResolver)
    (fs : FileSystem) (record : PackageInfo) (archive_path : String)
    (h : (PackageInstaller.installPackage install_root resolver fs record archive_path).1
      = some true) :
    StdMap.find
        (PackageInstaller.installPackage install_root resolver fs record
          archive_path).2.1.package_database record.name
      = some { record with installed := true } ∧
    ∀ (Z : String) (z : PackageInfo),
      StdMap.find
          (PackageInstaller.installPackage install_root resolver fs record
            archive_path).2.1.package_database Z = some z →
      record.name ∈ z.conflicts →
      (checkConflicts
        (PackageInstaller.installPackage install_root resolver fs record archive_path).2.1
        Z).1 = true := by
  have hres : (PackageInstaller.installPackage install_root resolver fs record
      archive_path).2.1 = resolver.addPackage { record with installed := true } := by
    unfold PackageInstaller.installPackage at h ⊢
    simp only [checkConflicts_eq] at h ⊢
    split at h
    · simp at h
    · rename_i h1
      rw [if_neg h1]
      cases hx : (PackageInstaller.extractPackage install_root fs archive_path record).1 with
      | none => simp [hx] at h
      | some b =>
        cases b with
        | false => simp [hx] at h
        | true => rfl
  rw [hres]
  have hself : StdMap.find (resolver.addPackage { record with installed := true }).package_database
      record.name = some { record with installed := true } := by
    unfold addPackage
    exact StdMap.find_insert_self _ _ _
  refine ⟨hself, ?_⟩
  intro Z z hZ hmem
  rw [checkConflicts_eq]
  simp only [decide_eq_true_eq]
  exact ⟨z, hZ, record.name, hmem, _, hself, rfl⟩

/-- Witness for C17: on a fresh resolver that only knows `Z`, which conflicts with
`N`, installing `N` from a readable archive returns true; afterwards `N` is stored
as installed and `checkConflicts("Z")` is true. -/
theorem installPackage_marks_installed_witness :
    (PackageInstaller.installPackage "/opt/elazar" (addAll [pkgWithConflicts "Z" ["N"] false])
        { files := [("/opt/elazar/cache/N-1.0.pkg", archive60)], dirs := ["/opt/elazar"] }
        (pkgWithDeps "N" []) "/opt/elazar/cache/N-1.0.pkg").1 = some true ∧
    (checkConflicts (addAll [pkgWithConflicts "Z" ["N"] false]) "Z").1 = false ∧
    (checkConflicts
      (PackageInstaller.installPackage "/opt/elazar" (addAll [pkgWithConflicts "Z" ["N"] false])
        { files := [("/opt/elazar/cache/N-1.0.pkg", archive60)], dirs := ["/opt/elazar"] }
        (pkgWithDeps "N" []) "/opt/elazar/cache/N-1.0.pkg").2.1 "Z").1 = true :=
  ⟨by decide, by decide,
   (installPackage_marks_installed "/opt/elazar" (addAll [pkgWithConflicts "Z" ["N"] false])
      { files := [("/opt/elazar/cache/N-1.0.pkg", archive60)], dirs := ["/opt/elazar"] }
      (pkgWithDeps "N" []) "/opt/elazar/cache/N-1.0.pkg" (by decide)).2 "Z"
      (pkgWithConflicts "Z" ["N"] false) (by decide) (by decide)⟩

/-- C18.  In every resolver state, cycles through `name` and records that list
themselves included, and for both values of `recursive`, the list
`resolveDependencies(name)` returns does not contain `name`. -/
theorem resolveDependencies_excludes_name (r : DependencyResolver) (name : String)
    (recursive : Bool) : name ∉ resolveDependencies r name recursive := by
  unfold resolveDependencies
  cases h : resolveLoop r.package_database recursive (DEPENDENCY_RESOLUTION_DEPTH + 2)
      { resolved := [], visited := [name], to_process := [name] } with
  | none => simp
  | some st =>
    exact resolveLoop_keeps_out r.package_database recursive name _ _ st (by simp) h

/-- C13 (fails on the code).  `downloadPackage` compares the digest it computed
with the expected one as strings.  For an empty body, whose digest
`calculateSHA256` prints in lower-case hex, the same digest written in upper-case
hex is equal to it up to letter case, yet the call returns false and the
downloaded file is removed. -/
theorem downloadPackage_rejects_upper_case_digest :
    emptyBody.sha256 = "e3b0c44298fc1c149afbf4c8996fb92427ae41e4649b934ca495991b7852b855" ∧
    EqualUpToCase "E3B0C44298FC1C149AFBF4C8996FB92427AE41E4649B934CA495991B7852B855"
      emptyBody.sha256 ∧
    PackageDownloader.downloadPackage emptyBodyEnv emptyCacheDir
        "https://packages.elazar-os.org/stable/packages/e-1.0.pkg" "/opt/elazar/cache/e-1.0.pkg"
        "E3B0C44298FC1C149AFBF4C8996FB92427AE41E4649B934CA495991B7852B855"
      = (false, emptyCacheDir) := by
  unfold EqualUpToCase
  decide

/-- C13, amended.  For every response with status `ok` and every non-empty
expected digest that is, character for character, the digest `calculateSHA256`
computes for the body, `downloadPackage` returns true and leaves the body in the
file at `output_path`. -/
theorem downloadPackage_accepts_exact_digest (env : Env) (fs : FileSystem)
    (url output_path expected_sha256 : String) (res : Response)
    (hfetch : env.fetch url = some res) (hok : res.ok = true)
    (hne : expected_sha256 ≠ "") (hdigest : expected_sha256 = res.body.sha256) :
    PackageDownloader.downloadPackage env fs url output_path expected_sha256
      = (true, fs.write output_path res.body) ∧
    StdMap.find
        (PackageDownloader.downloadPackage env fs url output_path expected_sha256).2.files
        output_path = some res.body := by
  have hfind : StdMap.find (fs.write output_path res.body).files output_path = some res.body :=
    StdMap.find_insert_self _ _ _
  have hdl : PackageDownloader.downloadPackage env fs url output_path expected_sha256
      = (true, fs.write output_path res.body) := by
    unfold PackageDownloader.downloadPackage PackageDownloader.calculateSHA256
    simp only [hfetch, hok, if_true, hfind]
    rw [if_pos hne, if_neg (by simp [hdigest])]
  rw [hdl]
  exact ⟨rfl, hfind⟩

/-- Witness for C13, amended: the empty body is accepted under its lower-case
digest. -/
theorem downloadPackage_accepts_exact_digest_witness :
    PackageDownloader.downloadPackage emptyBodyEnv emptyCacheDir
        "https://packages.elazar-os.org/stable/packages/e-1.0.pkg" "/opt/elazar/cache/e-1.0.pkg"
        "e3b0c44298fc1c149afbf4c8996fb92427ae41e4649b934ca495991b7852b855"
      = (true, emptyCacheDir.write "/opt/elazar/cache/e-1.0.pkg" emptyBody) :=
  (downloadPackage_accepts_exact_digest emptyBodyEnv emptyCacheDir
    "https://packages.elazar-os.org/stable/packages/e-1.0.pkg" "/opt/elazar/cache/e-1.0.pkg"
    "e3b0c44298fc1c149afbf4c8996fb92427ae41e4649b934ca495991b7852b855"
    { ok := true, body := emptyBody } rfl rfl (by decide) (by decide)).1

/-- C14.  For every response with status `ok` and every non-empty expected digest
that differs from the digest of the body, `downloadPackage` returns false, and the
file system it leaves has no file at `output_path` (the table of files, as a
`std::map`, holding every path once). -/
theorem downloadPackage_wrong_digest (env : Env) (fs : FileSystem)
    (url output_path expected_sha256 : String) (res : Response)
    (hfs : (fs.files.map Prod.fst).Nodup)
    (hfetch : env.fetch url = some res) (hok : res.ok = true)
    (hne : expected_sha256 ≠ "") (hdigest : expected_sha256 ≠ res.body.sha256) :
    (PackageDownloader.downloadPackage env fs url output_path expected_sha256).1 = false ∧
    StdMap.find
        (PackageDownloader.downloadPackage env fs url output_path expected_sha256).2.files
        output_path = none := by
  have hfind : StdMap.find (fs.write output_path res.body).files output_path = some res.body :=
    StdMap.find_insert_self _ _ _
  have hdl : PackageDownloader.downloadPackage env fs url output_path expected_sha256
      = (false, (fs.write output_path res.body).remove output_path) := by
    unfold PackageDownloader.downloadPackage PackageDownloader.calculateSHA256
    simp only [hfetch, hok, if_true, hfind]
    rw [if_pos hne, if_pos (fun h => hdigest h.symm)]
  rw [hdl]
  refine ⟨rfl, ?_⟩
  exact StdMap.find_erase_self _ _ (StdMap.nodup_keys_insert _ _ _ hfs)

/-- Witness for C14: a 60-byte archive whose digest is not the expected one, with
an older file already at the output path; the call returns false and no file is
left there. -/
theorem downloadPackage_wrong_digest_witness :
    (PackageDownloader.downloadPackage sampleEnv
        { files := [("/opt/elazar/cache/e-1.0.pkg", emptyBody)], dirs := ["/opt/elazar/cache"] }
        "https://packages.elazar-os.org/stable/packages/e-1.0.pkg" "/opt/elazar/cache/e-1.0.pkg"
        "e3b0c44298fc1c149afbf4c8996fb92427ae41e4649b934ca495991b7852b855").1 = false ∧
    StdMap.find
        (PackageDownloader.downloadPackage sampleEnv
          { files := [("/opt/elazar/cache/e-1.0.pkg", emptyBody)], dirs := ["/opt/elazar/cache"] }
          "https://packages.elazar-os.org/stable/packages/e-1.0.pkg" "/opt/elazar/cache/e-1.0.pkg"
          "e3b0c44298fc1c149afbf4c8996fb92427ae41e4649b934ca495991b7852b855").2.files
        "/opt/elazar/cache/e-1.0.pkg" = none :=
  downloadPackage_wrong_digest sampleEnv
    { files := [("/opt/elazar/cache/e-1.0.pkg", emptyBody)], dirs := ["/opt/elazar/cache"] }
    "https://packages.elazar-os.org/stable/packages/e-1.0.pkg" "/opt/elazar/cache/e-1.0.pkg"
    "e3b0c44298fc1c149afbf4c8996fb92427ae41e4649b934ca495991b7852b855"
    { ok := true, body := archive60 } (by decide) rfl rfl (by decide) (by decide)

/-- C12 (fails on the code).  `extractPackage` appends the path of every entry to
the package directory and writes there: for an archive of package `n` with the
regular entry `../../evil`, extraction returns true and creates the file
`/opt/elazar/packages/n/../../evil`, which leads to `/opt/elazar/evil`, outside
`/opt/elazar/packages/n`. -/
theorem extractPackage_follows_dot_dot :
    (PackageInstaller.extractPackage "/opt/elazar" traversalFs "/opt/elazar/cache/n-1.0.pkg"
      (pkgWithDeps "n" [])).1 = some true ∧
    StdMap.find traversalFs.files "/opt/elazar/packages/n/../../evil" = none ∧
    StdMap.find
        (PackageInstaller.extractPackage "/opt/elazar" traversalFs "/opt/elazar/cache/n-1.0.pkg"
          (pkgWithDeps "n" [])).2.files "/opt/elazar/packages/n/../../evil"
      = some { size := 7, sha256 := "", archive := none } ∧
    resolvePath "/opt/elazar/packages/n/../../evil" = ["opt".data, "elazar".data, "evil".data] ∧
    ¬ Inside "/opt/elazar/packages/n" "/opt/elazar/packages/n/../../evil" := by
  refine ⟨by decide, by decide, by decide, by decide, ?_⟩
  unfold Inside
  decide

/-- C12, amended.  For every archive none of whose entry paths has a `..`
component (absolute entry paths included: they are appended to the package
directory, not resolved), extraction either returns true or is left by an
exception of `create_directories`; either way, at every path that does not lead
into `install_root/packages/<name>` the files are what they were, and a directory
has been created there only if the path is an ancestor of
`install_root/packages/<name>` that was missing. -/
theorem extractPackage_confined (install_root : String) (fs : FileSystem)
    (archive_path : String) (pkg : PackageInfo) (entries : List ArchiveEntry)
    (harchive : (StdMap.find fs.files archive_path).bind (fun data => data.archive)
      = some entries)
    (hentries : ∀ e ∈ entries, NoDotDot e.pathname)
    (p : String) (hp : ¬ Inside (install_root ++ "/packages/" ++ pkg.name) p) :
    ((PackageInstaller.extractPackage install_root fs archive_path pkg).1 = some true ∨
      (PackageInstaller.extractPackage install_root fs archive_path pkg).1 = none) ∧
    StdMap.find (PackageInstaller.extractPackage install_root fs archive_path pkg).2.files p
      = StdMap.find fs.files p ∧
    (p ∈ (PackageInstaller.extractPackage install_root fs archive_path pkg).2.dirs →
      p ∈ fs.dirs ∨ p ∈ ancestors (install_root ++ "/packages/" ++ pkg.name)) := by
  have h := PackageInstaller.extractPackage_outside_unchanged install_root fs archive_path pkg
    entries harchive hentries p hp
  refine ⟨?_, h.2⟩
  cases hx : (PackageInstaller.extractPackage install_root fs archive_path pkg).1 with
  | none => exact Or.inr rfl
  | some b =>
    cases b with
    | true => exact Or.inl rfl
    | false => exact absurd hx h.1

/-- Witness for C12, amended.  An archive with the entries `bin/tool` and
`/etc/tool.conf` is extracted, and extraction returns true: nothing appears at
`/etc/tool.conf`, the second entry having been written below the package
directory, and the directory `/opt/elazar/packages`, created on the way, is an
ancestor of the package directory.  For an archive with the regular entries `a`
and `a/b`, `create_directories` throws at the second entry, `a` being a regular
file by then: extraction does not return, and nothing has appeared at
`/opt/elazar/a`. -/
theorem extractPackage_confined_witness :
    (PackageInstaller.extractPackage "/opt/elazar"
      { files := [("/opt/elazar/cache/n-1.0.pkg", plainArchive)], dirs := ["/opt/elazar"] }
      "/opt/elazar/cache/n-1.0.pkg" (pkgWithDeps "n" [])).1 = some true ∧
    StdMap.find
        (PackageInstaller.extractPackage "/opt/elazar"
          { files := [("/opt/elazar/cache/n-1.0.pkg", plainArchive)], dirs := ["/opt/elazar"] }
          "/opt/elazar/cache/n-1.0.pkg" (pkgWithDeps "n" [])).2.files "/etc/tool.conf"
      = none ∧
    StdMap.find
        (PackageInstaller.extractPackage "/opt/elazar"
          { files := [("/opt/elazar/cache/n-1.0.pkg", plainArchive)], dirs := ["/opt/elazar"] }
          "/opt/elazar/cache/n-1.0.pkg" (pkgWithDeps "n" [])).2.files
        "/opt/elazar/packages/n//etc/tool.conf"
      = some { size := 3, sha256 := "", archive := none } ∧
    "/opt/elazar/packages" ∈
      (PackageInstaller.extractPackage "/opt/elazar"
        { files := [("/opt/elazar/cache/n-1.0.pkg", plainArchive)], dirs := ["/opt/elazar"] }
        "/opt/elazar/cache/n-1.0.pkg" (pkgWithDeps "n" [])).2.dirs ∧
    ancestors "/opt/elazar/packages/n" = ["/opt/elazar/packages", "/opt/elazar", "/opt"] ∧
    (PackageInstaller.extractPackage "/opt/elazar"
      { files := [("/opt/elazar/cache/n-1.0.pkg", clashArchive)], dirs := ["/opt/elazar"] }
      "/opt/elazar/cache/n-1.0.pkg" (pkgWithDeps "n" [])).1 = none ∧
    StdMap.find
        (PackageInstaller.extractPackage "/opt/elazar"
          { files := [("/opt/elazar/cache/n-1.0.pkg", clashArchive)], dirs := ["/opt/elazar"] }
          "/opt/elazar/cache/n-1.0.pkg" (pkgWithDeps "n" [])).2.files "/opt/elazar/a"
      = none :=
  have h := extractPackage_confined "/opt/elazar"
    { files := [("/opt/elazar/cache/n-1.0.pkg", plainArchive)], dirs := ["/opt/elazar"] }
    "/opt/elazar/cache/n-1.0.pkg" (pkgWithDeps "n" [])
    [{ pathname := "bin/tool", regular := true, size := 7, sha256 := "" },
     { pathname := "/etc/tool.conf", regular := true, size := 3, sha256 := "" }]
    (by decide) (by unfold NoDotDot; decide) "/etc/tool.conf" (by unfold Inside; decide)
  have h2 := extractPackage_confined "/opt/elazar"
    { files := [("/opt/elazar/cache/n-1.0.pkg", clashArchive)], dirs := ["/opt/elazar"] }
    "/opt/elazar/cache/n-1.0.pkg" (pkgWithDeps "n" [])
    [{ pathname := "a", regular := true, size := 7, sha256 := "" },
     { pathname := "a/b", regular := true, size := 3, sha256 := "" }]
    (by decide) (by unfold NoDotDot; decide) "/opt/elazar/a" (by unfold Inside; decide)
  ⟨by decide, h.2.1, by decide, by decide, by decide, by decide, h2.2.1⟩

/-- C16 (fails on the code).  The install loop reads `installed` from the record of
the merged index, which an installation never updates: the installer sets the flag
on the copy it registers with the resolver.  With the index offering `A`, a first
`installPackage("A")` downloads and installs `A` and returns true; the index record
still has `installed = false`, and a second `installPackage("A")` returns true
after calling the installer for `A` again, which raises the counter to 2.  When `A`
lists a dependency `B`, the second call also changes the resolver: the reverse
edge from `B` to `A` is stored a second time. -/
theorem installPackage_again_reinstalls :
    (installPackage sampleEnv (managerOffering [pkgWithDeps "A" []]) "A").1 = some true ∧
    (afterInstall [pkgWithDeps "A" []] "A").trace =
      [Event.download "https://packages.elazar-os.org/stable/packages/A-1.0.pkg"
         "/opt/elazar/cache/A-1.0.pkg" "" true,
       Event.install "A" true] ∧
    (afterInstall [pkgWithDeps "A" []] "A").total_packages_installed = 1 ∧
    (getPackageInfo (afterInstall [pkgWithDeps "A" []] "A").package_index "A").installed
      = false ∧
    (installPackage sampleEnv (afterInstall [pkgWithDeps "A" []] "A") "A").1 = some true ∧
    (installPackage sampleEnv (afterInstall [pkgWithDeps "A" []] "A") "A").2.trace =
      (afterInstall [pkgWithDeps "A" []] "A").trace ++ [Event.install "A" true] ∧
    (installPackage sampleEnv (afterInstall [pkgWithDeps "A" []] "A")
      "A").2.total_packages_installed = 2 ∧
    (afterInstall [pkgWithDeps "A" ["B"], pkgWithDeps "B" []]
      "A").dependency_resolver.reverse_dependencies = [("B", ["A"])] ∧
    (installPackage sampleEnv (afterInstall [pkgWithDeps "A" ["B"], pkgWithDeps "B" []] "A")
      "A").2.dependency_resolver.reverse_dependencies = [("B", ["A", "A"])] := by
  decide

/-- C15.  For every record whose field values fit their C++ types, the release
date being a whole number of milliseconds, `PackageInfo::fromJson(r.toJson())`
returns, without throwing, a record equal to `r` in every one of the sixteen
fields. -/
theorem fromJson_toJson (r : PackageInfo) (h : r.WellTyped) :
    PackageInfo.fromJson r.toJson = some r := by
  obtain ⟨hs, hp, hd⟩ := h
  unfold PackageInfo.toJson Json.ofPairs PackageInfo.fromJson
  simp only [Json.value, find_foldl_emplace, find_nil]
  simp [List.lookup, Json.getString, Json.getStrings, Json.getNumber, Json.getBool, getStringList_map,
    wrapUnsigned_of_lt r.size hs, wrapSigned_of_range 32 (by decide) r.priority hp.1 hp.2,
    wrapSigned_of_range 64 (by decide) r.release_date (by omega) (by omega)]

/-- Witness for C15: a record with dependencies, conflicts, a size, a release date
before the epoch, a negative priority and the `installed` flag set. -/
theorem fromJson_toJson_witness :
    PackageInfo.fromJson
        (PackageInfo.toJson
          { pkgWithDeps "A" ["B", "C"] with
            conflicts := ["X"], size := 4096, release_date := -86400000, priority := -3,
            installed := true })
      = some
          { pkgWithDeps "A" ["B", "C"] with
            conflicts := ["X"], size := 4096, release_date := -86400000, priority := -3,
            installed := true } :=
  fromJson_toJson
    { pkgWithDeps "A" ["B", "C"] with
      conflicts := ["X"], size := 4096, release_date := -86400000, priority := -3,
      installed := true }
    (by unfold PackageInfo.WellTyped; decide)

/-- C19.  On every merged index (records stored under their names, in ascending
order of the names), `searchPackages(query)` returns exactly the records whose name
or description contains `query` as a substring, compared character by character:
the stored records filtered by that condition, in the order of the index, so that
the names of the result ascend strictly and no record comes twice; the empty query
returns every record. -/
theorem searchPackages_spec (rm : RepositoryManager) (query : String)
    (h : IsMergedIndex rm.package_index) :
    (∃ hit : PackageInfo → Bool,
      (∀ pkg, hit pkg = true ↔ (Occurs query pkg.name ∨ Occurs query pkg.description)) ∧
      RepositoryManager.searchPackages rm query = (rm.package_index.map Prod.snd).filter hit) ∧
    List.Pairwise (fun a b => StdMap.keyLt a.name b.name = true) (RepositoryManager.searchPackages rm query) ∧
    (query = "" → RepositoryManager.searchPackages rm query = rm.package_index.map Prod.snd) := by
  have hfilter : RepositoryManager.searchPackages rm query =
      (rm.package_index.map Prod.snd).filter
        (fun pkg => (strFind pkg.name query).isSome || (strFind pkg.description query).isSome) := by
    unfold RepositoryManager.searchPackages
    rw [RepositoryManager.foldl_searchStep, List.nil_append, List.filter_map]
    congr 1
    apply List.filter_congr
    intro entry hentry
    simp only [Function.comp, h.2 entry hentry]
  have hasc : List.Pairwise (fun a b => StdMap.keyLt a.name b.name = true)
      (rm.package_index.map Prod.snd) := by
    rw [List.pairwise_map]
    refine List.Pairwise.imp_of_mem ?_ h.1
    intro a b ha hb hab
    rw [h.2 a ha, h.2 b hb]
    exact hab
  refine ⟨⟨_, ?_, hfilter⟩, ?_, ?_⟩
  · intro pkg
    simp only [Bool.or_eq_true, strFind_isSome_iff]
  · rw [hfilter]
    exact hasc.sublist (List.filter_sublist _)
  · intro hq
    rw [hfilter, hq]
    apply List.filter_eq_self.2
    intro pkg _
    simp only [strFind_empty, Bool.true_or]

/-- Witness for C19: a merged index of three records; the query `edit` finds
`editor` by its name and `vim` by its description, in this order. -/
theorem searchPackages_spec_witness :
    IsMergedIndex
      (indexOf [pkgDescribed "vim" "9.0" "a text editor", pkgDescribed "editor" "5.1" "for text",
                pkgDescribed "zip" "3.0" "archiver"]) ∧
    RepositoryManager.searchPackages
        { repositories := [],
          package_index :=
            indexOf [pkgDescribed "vim" "9.0" "a text editor",
                     pkgDescribed "editor" "5.1" "for text", pkgDescribed "zip" "3.0" "archiver"] }
        "edit"
      = [pkgDescribed "editor" "5.1" "for text", pkgDescribed "vim" "9.0" "a text editor"] ∧
    List.Pairwise (fun a b => StdMap.keyLt a.name b.name = true)
      (RepositoryManager.searchPackages
        { repositories := [],
          package_index :=
            indexOf [pkgDescribed "vim" "9.0" "a text editor",
                     pkgDescribed "editor" "5.1" "for text", pkgDescribed "zip" "3.0" "archiver"] }
        "edit") :=
  ⟨by unfold IsMergedIndex StdMap.Ascending; decide, by decide,
   (searchPackages_spec
      { repositories := [],
        package_index :=
          indexOf [pkgDescribed "vim" "9.0" "a text editor",
                   pkgDescribed "editor" "5.1" "for text", pkgDescribed "zip" "3.0" "archiver"] }
      "edit" (by unfold IsMergedIndex StdMap.Ascending; decide)).2.1⟩

/-- C20.  Let the origin `u` of the repository list have its document fetched and
parsed, every element being a record and the last one named `N` being `pkg`, and
let no origin after `u` contribute a record named `N`.  Then after
`updatePackageIndex`, whatever the origins before `u` delivered (a record named `N`
included) and whichever origins failed, `getPackageInfo(N)` is `pkg` with its
`repository` field replaced by `u`. -/
theorem updatePackageIndex_last_origin_wins (env : Env) (rm : RepositoryManager)
    (fs : FileSystem) (rand_calls : Nat) (pre post : List String) (u N : String)
    (res : Response) (doc : Json) (r1 r2 : List PackageInfo) (pkg : PackageInfo)
    (hrepos : rm.repositories = pre ++ u :: post)
    (hfetch : env.fetch (u ++ "/packages.json") = some res) (hok : res.ok = true)
    (hparse : env.jsonParse res.body = some doc)
    (hrecs : doc.elements.map PackageInfo.fromJson = (r1 ++ pkg :: r2).map some)
    (hname : pkg.name = N) (hlast : ∀ x ∈ r2, x.name ≠ N)
    (hpost : ∀ v ∈ post, ∀ x ∈ parsedPrefix (originElements env v), x.name ≠ N) :
    getPackageInfo (RepositoryManager.updatePackageIndex env rm fs rand_calls).1.package_index N
      = { pkg with repository := u } := by
  apply getPackageInfo_of_find
  unfold RepositoryManager.updatePackageIndex
  simp only [hrepos, List.foldl_append, List.foldl_cons]
  rw [RepositoryManager.foldl_updateOne_absent env N post hpost,
    RepositoryManager.updateOne_index, RepositoryManager.mergeRecords_eq_foldl]
  have hel : originElements env u = doc.elements := by
    unfold originElements
    simp [hfetch, hok, hparse]
  rw [hel, parsedPrefix_of_all _ _ hrecs]
  exact RepositoryManager.find_foldl_merge_last u N r1 r2 pkg hname hlast _

/-- Witness for C20: the origins are stable, unstable and a mirror that cannot be
reached.  Both documents hold a record named `N`, with a `repository` value of
their own; after the update `getPackageInfo("N")` is the record of the unstable
origin, version 2.0, with the URL of that origin as its repository. -/
theorem updatePackageIndex_last_origin_wins_witness :
    (RepositoryManager.addRepository RepositoryManager.new
        "https://mirror.example.org").repositories =
      ["https://packages.elazar-os.org/stable"] ++
        "https://packages.elazar-os.org/unstable" :: ["https://mirror.example.org"] ∧
    indexEnv.fetch "https://mirror.example.org/packages.json" = none ∧
    getPackageInfo
        (RepositoryManager.updatePackageIndex indexEnv
          (RepositoryManager.addRepository RepositoryManager.new "https://mirror.example.org")
          emptyCacheDir 0).1.package_index "N"
      = { pkgDescribed "N" "2.0" "network tools" with
          repository := "https://packages.elazar-os.org/unstable" } :=
  ⟨rfl, rfl,
   updatePackageIndex_last_origin_wins indexEnv
     (RepositoryManager.addRepository RepositoryManager.new "https://mirror.example.org")
     emptyCacheDir 0 ["https://packages.elazar-os.org/stable"] ["https://mirror.example.org"]
     "https://packages.elazar-os.org/unstable" "N"
     { ok := true, body := { size := 640, sha256 := "7a", archive := none } }
     unstableDocument [pkgDescribed "editor" "5.1" "a text editor"] []
     { pkgDescribed "N" "2.0" "network tools" with repository := "elsewhere" }
     rfl rfl rfl rfl (by decide) rfl (by decide) (by decide)⟩

/-- C21 (fails on the code).  `fromJson` takes `installed` from the document and
`updatePackageIndex` replaces the `repository` field only.  When the document of an
origin declares `N` installed, the merged record of `N` has `installed = true`, and
`installPackage("N")` on a freshly started manager with that index returns true
without a download or an installation: the state is unchanged. -/
theorem updatePackageIndex_trusts_installed_flag :
    (getPackageInfo
      (RepositoryManager.updatePackageIndex installedEnv RepositoryManager.new emptyCacheDir
        0).1.package_index "N").installed = true ∧
    installPackage installedEnv
        (freshManager
          (RepositoryManager.updatePackageIndex installedEnv RepositoryManager.new emptyCacheDir
            0).1.package_index DependencyResolver.new) "N"
      = (some true,
         freshManager
          (RepositoryManager.updatePackageIndex installedEnv RepositoryManager.new emptyCacheDir
            0).1.package_index DependencyResolver.new) ∧
    (freshManager
      (RepositoryManager.updatePackageIndex installedEnv RepositoryManager.new emptyCacheDir
        0).1.package_index DependencyResolver.new).trace = [] := by
  decide

/-- C21, amended.  A record converted from a document object has `installed = true`
exactly when the object's `installed` member is `true` (so it is false when the
member is missing).  When the record `pkg` is the one `updatePackageIndex` keeps
for `N` (the last record named `N` of the last origin that delivers one), the
merged record has the `installed` value of `pkg`; and if that value is true, the
install loop skips `N` in every manager state with this index. -/
theorem updatePackageIndex_installed_from_document (env : Env) (rm : RepositoryManager)
    (fs : FileSystem) (rand_calls : Nat) (pre post : List String) (u N : String)
    (res : Response) (doc : Json) (r1 r2 : List PackageInfo) (pkg : PackageInfo)
    (hrepos : rm.repositories = pre ++ u :: post)
    (hfetch : env.fetch (u ++ "/packages.json") = some res) (hok : res.ok = true)
    (hparse : env.jsonParse res.body = some doc)
    (hrecs : doc.elements.map PackageInfo.fromJson = (r1 ++ pkg :: r2).map some)
    (hname : pkg.name = N) (hlast : ∀ x ∈ r2, x.name ≠ N)
    (hpost : ∀ v ∈ post, ∀ x ∈ parsedPrefix (originElements env v), x.name ≠ N) :
    (∀ (members : StdMap Json) (p : PackageInfo),
      PackageInfo.fromJson (Json.object members) = some p →
      (p.installed = true ↔ StdMap.find members "installed" = some (Json.boolean true))) ∧
    (getPackageInfo
      (RepositoryManager.updatePackageIndex env rm fs rand_calls).1.package_index N).installed
      = pkg.installed ∧
    (pkg.installed = true →
      ∀ (env2 : Env) (m : ElazarPackageManager),
        m.package_index =
          (RepositoryManager.updatePackageIndex env rm fs rand_calls).1.package_index →
        installOne env2 m N = (some true, m)) := by
  have hfind := find_updatePackageIndex env rm fs rand_calls pre post u N res doc r1 r2 pkg
    hrepos hfetch hok hparse hrecs hname hlast hpost
  have hget := getPackageInfo_of_find _ _ _ hfind
  refine ⟨fromJson_installed, by rw [hget], ?_⟩
  intro hinst env2 m hm
  apply installOne_skips
  rw [hm, hget]
  exact hinst

/-- Witness for C21, amended: the stable origin declares `N` installed, the
unstable origin delivers no index; the merged record of `N` is marked installed. -/
theorem updatePackageIndex_installed_from_document_witness :
    (getPackageInfo
      (RepositoryManager.updatePackageIndex installedEnv RepositoryManager.new emptyCacheDir
        0).1.package_index "N").installed = true :=
  (updatePackageIndex_installed_from_document installedEnv RepositoryManager.new emptyCacheDir 0
    [] ["https://packages.elazar-os.org/unstable"] "https://packages.elazar-os.org/stable" "N"
    { ok := true, body := { size := 256, sha256 := "1d", archive := none } }
    installedDocument [] []
    { pkgDescribed "N" "2.0" "network tools" with installed := true }
    rfl rfl rfl rfl (by decide) rfl (by decide) (by decide)).2.1

/-- C27.  After any sequence of `addPackage` calls, if the record stored for `Q`
lists `P` among its dependencies, then `Q` occurs in `findReverseDependencies(P)`,
and `removePackage(P)` of the installer returns false. -/
theorem findReverseDependencies_covers_dependencies (pkgs : List PackageInfo) (P Q : String) (pkg : PackageInfo)
    (hQ : StdMap.find (addAll pkgs).package_database Q = some pkg)
    (hP : P ∈ pkg.dependencies) :
    Q ∈ findReverseDependencies (addAll pkgs) P ∧
    ∀ (install_root : String) (fs : FileSystem),
      (PackageInstaller.removePackage install_root (addAll pkgs) fs P).1 = false := by
  have hmem := mem_findReverseDependencies_of_covers (addAll pkgs) (ReverseCovers_addAll pkgs)
    P Q pkg hQ hP
  refine ⟨hmem, ?_⟩
  intro install_root fs
  unfold PackageInstaller.removePackage
  simp only [findReverseDependenciesState_eq]
  rw [if_pos (List.ne_nil_of_mem hmem)]

/-- Witness for C27: `Q` was registered twice, the second time with `P` among its
dependencies. -/
theorem findReverseDependencies_covers_dependencies_witness :
    "Q" ∈ findReverseDependencies (addAll [pkgWithDeps "Q" [], pkgWithDeps "Q" ["P", "R"]]) "P" ∧
    (PackageInstaller.removePackage "/opt/elazar"
      (addAll [pkgWithDeps "Q" [], pkgWithDeps "Q" ["P", "R"]]) emptyCacheDir "P").1 = false :=
  have h := findReverseDependencies_covers_dependencies
    [pkgWithDeps "Q" [], pkgWithDeps "Q" ["P", "R"]] "P" "Q" (pkgWithDeps "Q" ["P", "R"])
    (by decide) (by decide)
  ⟨h.1, h.2 "/opt/elazar" emptyCacheDir⟩

/-- C28.  `removePackage` of the installer hands back the resolver it was given,
whatever it returns.  So after `removePackage(P)` in a state reached by `addPackage`
calls, the record of `P` is stored as before, `checkConflicts` answers as before,
`P` still occurs in `findReverseDependencies(D)` for each dependency `D` its record
lists, and `removePackage(D)` returns false. -/
theorem removePackage_keeps_resolver (install_root : String) (fs : FileSystem) (P : String) :
    (∀ resolver : DependencyResolver,
      (PackageInstaller.removePackage install_root resolver fs P).2.1 = resolver) ∧
    ∀ (pkgs : List PackageInfo) (pkg : PackageInfo) (D : String),
      StdMap.find (addAll pkgs).package_database P = some pkg → D ∈ pkg.dependencies →
      StdMap.find
          (PackageInstaller.removePackage install_root (addAll pkgs) fs P).2.1.package_database P
        = some pkg ∧
      (∀ Z, checkConflicts (PackageInstaller.removePackage install_root (addAll pkgs) fs P).2.1 Z
        = checkConflicts (addAll pkgs) Z) ∧
      P ∈ findReverseDependencies
        (PackageInstaller.removePackage install_root (addAll pkgs) fs P).2.1 D ∧
      (PackageInstaller.removePackage install_root
        (PackageInstaller.removePackage install_root (addAll pkgs) fs P).2.1
        (PackageInstaller.removePackage install_root (addAll pkgs) fs P).2.2 D).1 = false := by
  have hkeep : ∀ resolver : DependencyResolver,
      (PackageInstaller.removePackage install_root resolver fs P).2.1 = resolver := by
    intro resolver
    unfold PackageInstaller.removePackage
    simp only [findReverseDependenciesState_eq]
    split <;> rfl
  refine ⟨hkeep, ?_⟩
  intro pkgs pkg D hP hD
  rw [hkeep]
  have hmem := mem_findReverseDependencies_of_covers (addAll pkgs) (ReverseCovers_addAll pkgs)
    D P pkg hP hD
  refine ⟨hP, fun Z => rfl, hmem, ?_⟩
  unfold PackageInstaller.removePackage
  simp only [findReverseDependenciesState_eq]
  rw [if_pos (List.ne_nil_of_mem hmem)]

/-- Witness for C28: `P`, installed, depends on `D`; nothing depends on `P`, so
`removePackage("P")` returns true and deletes its directory, yet the record of `P`
stays and `removePackage("D")` is refused afterwards. -/
theorem removePackage_keeps_resolver_witness :
    (PackageInstaller.removePackage "/opt/elazar"
      (addAll [{ pkgWithDeps "D" [] with installed := true },
               { pkgWithDeps "P" ["D"] with installed := true }])
      { files := [("/opt/elazar/packages/P/bin/p", archive60)],
        dirs := ["/opt/elazar", "/opt/elazar/packages/P"] } "P").1 = true ∧
    (PackageInstaller.removePackage "/opt/elazar"
      (addAll [{ pkgWithDeps "D" [] with installed := true },
               { pkgWithDeps "P" ["D"] with installed := true }])
      { files := [("/opt/elazar/packages/P/bin/p", archive60)],
        dirs := ["/opt/elazar", "/opt/elazar/packages/P"] } "P").2.2
      = { files := [], dirs := ["/opt/elazar"] } ∧
    (PackageInstaller.removePackage "/opt/elazar"
      (PackageInstaller.removePackage "/opt/elazar"
        (addAll [{ pkgWithDeps "D" [] with installed := true },
                 { pkgWithDeps "P" ["D"] with installed := true }])
        { files := [("/opt/elazar/packages/P/bin/p", archive60)],
          dirs := ["/opt/elazar", "/opt/elazar/packages/P"] } "P").2.1
      (PackageInstaller.removePackage "/opt/elazar"
        (addAll [{ pkgWithDeps "D" [] with installed := true },
                 { pkgWithDeps "P" ["D"] with installed := true }])
        { files := [("/opt/elazar/packages/P/bin/p", archive60)],
          dirs := ["/opt/elazar", "/opt/elazar/packages/P"] } "P").2.2 "D").1 = false :=
  ⟨by decide, by decide,
   ((removePackage_keeps_resolver "/opt/elazar"
      { files := [("/opt/elazar/packages/P/bin/p", archive60)],
        dirs := ["/opt/elazar", "/opt/elazar/packages/P"] } "P").2
      [{ pkgWithDeps "D" [] with installed := true },
       { pkgWithDeps "P" ["D"] with installed := true }]
      { pkgWithDeps "P" ["D"] with installed := true } "D" (by decide) (by decide)).2.2.2⟩

/-- C29.  The result of `installPackage` of the installer depends on the record
passed in through its name only, not through its conflict list; and when the
resolver has no record under `record.name`, there is no refusal for conflicts,
whatever `record.conflicts` names: the result is that of the extraction. -/
theorem installPackage_ignores_record_conflicts (install_root : String) (resolver : DependencyResolver) (fs : FileSystem)
    (record : PackageInfo) (archive_path : String) :
    (∀ other : PackageInfo, other.name = record.name →
      (PackageInstaller.installPackage install_root resolver fs other archive_path).1 =
        (PackageInstaller.installPackage install_root resolver fs record archive_path).1) ∧
    (StdMap.find resolver.package_database record.name = none →
      (PackageInstaller.installPackage install_root resolver fs record archive_path).1 =
        (PackageInstaller.extractPackage install_root fs archive_path record).1) := by
  constructor
  · intro other hname
    unfold PackageInstaller.installPackage
    simp only [checkConflicts_eq, hname,
      extractPackage_name_only install_root fs archive_path other record hname]
    split
    · rfl
    · split <;> rfl
  · intro hunknown
    unfold PackageInstaller.installPackage
    simp only [checkConflicts_eq, hunknown]
    rw [if_neg (by simp)]
    cases hx : (PackageInstaller.extractPackage install_root fs archive_path record).1 with
    | none => rfl
    | some b => cases b <;> rfl

/-- Witness for C29: the resolver knows `Y` as installed and has no record of `X`;
the record of `X` passed in lists `Y` as a conflict, and the installation returns
true. -/
theorem installPackage_ignores_record_conflicts_witness :
    (checkConflicts (addAll [pkgWithConflicts "Y" [] true]) "X").1 = false ∧
    (PackageInstaller.installPackage "/opt/elazar" (addAll [pkgWithConflicts "Y" [] true])
      { files := [("/opt/elazar/cache/X-1.0.pkg", archive60)], dirs := ["/opt/elazar"] }
      (pkgWithConflicts "X" ["Y"] false) "/opt/elazar/cache/X-1.0.pkg").1 = some true :=
  ⟨by decide,
   ((installPackage_ignores_record_conflicts "/opt/elazar"
      (addAll [pkgWithConflicts "Y" [] true])
      { files := [("/opt/elazar/cache/X-1.0.pkg", archive60)], dirs := ["/opt/elazar"] }
      (pkgWithConflicts "X" ["Y"] false) "/opt/elazar/cache/X-1.0.pkg").2 (by decide)).trans
     (by decide)⟩

/-- C30.  The key and the path of a cache entry depend on `name + "-" + version`
only: when two pairs have the same concatenation and `addToCache(n, v)` has
returned, `isCached(n2, v2)` is true and both pairs have the same cache path. -/
theorem cache_key_collision (env : Env) (c : PackageCache) (fs : FileSystem) (n v n2 v2 : String) (now : Int)
    (c1 : PackageCache) (fs1 : FileSystem)
    (hkey : n ++ "-" ++ v = n2 ++ "-" ++ v2)
    (hret : addToCache env c fs n v now = some (c1, fs1)) :
    isCached c1 n2 v2 = true ∧ getCachePath c1 n v = getCachePath c1 n2 v2 := by
  obtain ⟨hidx, _⟩ := addToCache_index env c fs n v now c1 fs1 hret
  constructor
  · unfold isCached
    rw [hidx, ← hkey]
    simp [StdMap.count, StdMap.find_insert_self]
  · unfold getCachePath
    have h1 : ∀ a b : String, c1.cache_dir ++ "/" ++ a ++ "-" ++ b ++ ".pkg" =
        c1.cache_dir ++ "/" ++ (a ++ "-" ++ b) ++ ".pkg" := by
      intro a b
      simp [String.append_assoc]
    rw [h1, h1, hkey]

/-- Witness for C30: the pairs `("a-b", "c")` and `("a", "b-c")` differ and have
the same concatenation; after `addToCache("a-b", "c")` has returned,
`isCached("a", "b-c")` is true. -/
theorem cache_key_collision_witness :
    ("a-b", "c") ≠ ("a", "b-c") ∧
    isCached
      { emptyCache 100 with cache_index := [("a-b-c", 1000)] } "a" "b-c" = true ∧
    getCachePath { emptyCache 100 with cache_index := [("a-b-c", 1000)] } "a-b" "c" =
      getCachePath { emptyCache 100 with cache_index := [("a-b-c", 1000)] } "a" "b-c" :=
  have h := cache_key_collision sampleEnv (emptyCache 100)
    (emptyCacheDir.write "/opt/elazar/cache/a-b-c.pkg" archive60) "a-b" "c" "a" "b-c" 1000
    { emptyCache 100 with cache_index := [("a-b-c", 1000)] }
    (saveCacheIndex sampleEnv { emptyCache 100 with cache_index := [("a-b-c", 1000)] }
      (emptyCacheDir.write "/opt/elazar/cache/a-b-c.pkg" archive60))
    (by decide) (by decide)
  ⟨by decide, h.1, h.2⟩

/-- C23.  In a resolver state in which every name was registered at most once,
and for a duplicate-free candidate list (with or without cycles), every candidate
`D` that the record of `X` lists as a dependency is in the output of
`getInstallationOrder` whenever `X` is, at a position ahead of `X`. -/
theorem getInstallationOrder_dependencies_first (pkgs : List PackageInfo) (packages : List String) (X D : String)
    (hreg : (pkgs.map (fun p => p.name)).Nodup) (hpk : packages.Nodup)
    (hX : X ∈ getInstallationOrder (addAll pkgs) packages)
    (hD : D ∈ depsOf (addAll pkgs) X) (hDP : D ∈ packages) :
    D ∈ getInstallationOrder (addAll pkgs) packages ∧
    List.indexOf D (getInstallationOrder (addAll pkgs) packages) <
      List.indexOf X (getInstallationOrder (addAll pkgs) packages) := by
  have hex := ReverseExact_addAll pkgs hreg
  obtain ⟨st, hst, hout⟩ := getInstallationOrder_total (addAll pkgs) packages
  obtain ⟨hinv, _⟩ := orderInit_inv_any (addAll pkgs) packages hpk
  have hdf := orderLoop_depsFirst (addAll pkgs) hex packages _ _ _ hinv
    (orderInit_depsFirst (addAll pkgs) hex packages) hst
  rw [hout] at hX ⊢
  obtain ⟨h1, h2⟩ := hdf X (List.mem_append_right _ hX) D hD hDP
  exact ⟨h1, h2 hX⟩

/-- Witness for C23: `A` depends on `B` and `C`, `B` on `C`; in the order
`[C, B, A]` of the candidates `[A, B, C]`, `B` comes before `A`. -/
theorem getInstallationOrder_dependencies_first_witness :
    getInstallationOrder
        (addAll [pkgWithDeps "A" ["B", "C"], pkgWithDeps "B" ["C"], pkgWithDeps "C" []])
        ["A", "B", "C"] = ["C", "B", "A"] ∧
    List.indexOf "B"
        (getInstallationOrder
          (addAll [pkgWithDeps "A" ["B", "C"], pkgWithDeps "B" ["C"], pkgWithDeps "C" []])
          ["A", "B", "C"]) <
      List.indexOf "A"
        (getInstallationOrder
          (addAll [pkgWithDeps "A" ["B", "C"], pkgWithDeps "B" ["C"], pkgWithDeps "C" []])
          ["A", "B", "C"]) :=
  ⟨by decide,
   (getInstallationOrder_dependencies_first
      [pkgWithDeps "A" ["B", "C"], pkgWithDeps "B" ["C"], pkgWithDeps "C" []]
      ["A", "B", "C"] "A" "B" (by decide) (by decide) (by decide) (by decide) (by decide)).2⟩

/-- C24.  In every resolver state reached by `addPackage` calls, and for every
duplicate-free candidate list within which no dependency cycle lies, every
candidate, with a record or without, is in the output of `getInstallationOrder`. -/
theorem getInstallationOrder_complete_when_acyclic (pkgs : List PackageInfo) (packages : List String) (hpk : packages.Nodup)
    (hacyclic : ∀ cycle, IsDependencyCycle (addAll pkgs) cycle → ∃ x ∈ cycle, x ∉ packages)
    (X : String) (hX : X ∈ packages) :
    X ∈ getInstallationOrder (addAll pkgs) packages := by
  obtain ⟨st, _, hout, hinv, hpos, hq⟩ := getInstallationOrder_final (addAll pkgs) packages hpk
  rw [hout]
  by_contra hXo
  have hknot : ∀ x ∈ packages.filter (fun p => decide (p ∉ st.ordered)),
      ∃ y ∈ packages.filter (fun p => decide (p ∉ st.ordered)), y ∈ depsOf (addAll pkgs) x := by
    intro x hx
    obtain ⟨hxP, hxo⟩ := List.mem_filter.1 hx
    simp only [decide_eq_true_eq] at hxo
    obtain ⟨y, hyd, hyP, hyo⟩ := unordered_has_unordered_dep (addAll pkgs)
      (ReverseCovers_addAll pkgs) packages st hinv hpos hq x hxP hxo
    exact ⟨y, List.mem_filter.2 ⟨hyP, by simpa using hyo⟩, hyd⟩
  obtain ⟨cycle, hcycle, hmem⟩ := knot_has_cycle (addAll pkgs) _ hknot X
    (List.mem_filter.2 ⟨hX, by simpa using hXo⟩)
  obtain ⟨x, hx, hxP⟩ := hacyclic cycle hcycle
  exact hxP (List.mem_filter.1 (hmem x hx)).1

/-- Witness for C24: `Q` was registered with the dependency `P` and then without
it, and `P` depends on `Q`, so the reverse list of `P` keeps a stale entry; the
candidates `[P, Q, U]`, of which `U` has no record, hold no cycle, and `P` is in
the order `[Q, U, P]`. -/
theorem getInstallationOrder_complete_when_acyclic_witness :
    findReverseDependencies
        (addAll [pkgWithDeps "Q" ["P"], pkgWithDeps "Q" [], pkgWithDeps "P" ["Q"]]) "P"
      = ["Q"] ∧
    getInstallationOrder
        (addAll [pkgWithDeps "Q" ["P"], pkgWithDeps "Q" [], pkgWithDeps "P" ["Q"]])
        ["P", "Q", "U"] = ["Q", "U", "P"] ∧
    "P" ∈ getInstallationOrder
        (addAll [pkgWithDeps "Q" ["P"], pkgWithDeps "Q" [], pkgWithDeps "P" ["Q"]])
        ["P", "Q", "U"] :=
  ⟨by decide, by decide,
   getInstallationOrder_complete_when_acyclic
     [pkgWithDeps "Q" ["P"], pkgWithDeps "Q" [], pkgWithDeps "P" ["Q"]] ["P", "Q", "U"]
     (by decide) staleResolver_acyclic "P" (by decide)⟩

/-- C25.  In every resolver state, and for every duplicate-free candidate list,
the loop of `getInstallationOrder` ends within the fuel it is given, and the
output has only candidates and no name twice. -/
theorem getInstallationOrder_candidates_once (r : DependencyResolver) (packages : List String) (hpk : packages.Nodup) :
    (∃ st, orderLoop r.reverse_dependencies (2 * packages.length + 1) (orderInit r packages)
        = some st ∧ getInstallationOrder r packages = st.ordered) ∧
    (∀ x ∈ getInstallationOrder r packages, x ∈ packages) ∧
    (getInstallationOrder r packages).Nodup := by
  obtain ⟨st, hst, hout, hinv, _, _⟩ := getInstallationOrder_final r packages hpk
  refine ⟨⟨st, hst, hout⟩, ?_, ?_⟩
  · intro x hx
    rw [hout] at hx
    exact hinv.members x (List.mem_append_right _ hx)
  · rw [hout]
    exact (List.nodup_append.mp hinv.nodup).2.1

/-- Witness for C25: with the record of `A` registered twice, the candidates
`[A, B, D]` are ordered `[B, A, D]`: each once, and nothing else. -/
theorem getInstallationOrder_candidates_once_witness :
    getInstallationOrder
        (addAll [pkgWithDeps "A" ["B", "D"], pkgWithDeps "A" ["B", "D"],
                 pkgWithDeps "D" ["B"], pkgWithDeps "B" []]) ["A", "B", "D"]
      = ["B", "A", "D"] ∧
    (getInstallationOrder
        (addAll [pkgWithDeps "A" ["B", "D"], pkgWithDeps "A" ["B", "D"],
                 pkgWithDeps "D" ["B"], pkgWithDeps "B" []]) ["A", "B", "D"]).Nodup :=
  ⟨by decide,
   (getInstallationOrder_candidates_once
      (addAll [pkgWithDeps "A" ["B", "D"], pkgWithDeps "A" ["B", "D"],
               pkgWithDeps "D" ["B"], pkgWithDeps "B" []]) ["A", "B", "D"] (by decide)).2.2⟩

/-- C22.  For a scheme without `:`, a host `H` without `:` and `/`, a path `P` and
a decimal numeral `N` denoting a number below 65536, the URL decomposition of
`downloadPackage` yields host `H`, path `/P` (or `/` when the URL has no path part)
and port `N`, or 443 when the URL gives no port, without throwing. -/
theorem parseUrl_decomposes (scheme H P N : String) (hscheme : ':' ∉ scheme.data)
    (hH1 : ':' ∉ H.data) (hH2 : '/' ∉ H.data) (hN : IsDecimal N)
    (hval : decimalValue N < 65536) :
    PackageDownloader.parseUrl (scheme ++ "://" ++ H ++ "/" ++ P) =
      some { host := H, path := "/" ++ P, port := 443, use_ssl := decide (scheme = "https") } ∧
    PackageDownloader.parseUrl (scheme ++ "://" ++ H) =
      some { host := H, path := "/", port := 443, use_ssl := decide (scheme = "https") } ∧
    PackageDownloader.parseUrl (scheme ++ "://" ++ H ++ ":" ++ N ++ "/" ++ P) =
      some { host := H, path := "/" ++ P, port := decimalValue N,
             use_ssl := decide (scheme = "https") } ∧
    PackageDownloader.parseUrl (scheme ++ "://" ++ H ++ ":" ++ N) =
      some { host := H, path := "/", port := decimalValue N,
             use_ssl := decide (scheme = "https") } := by
  refine ⟨?_, ?_, ?_, ?_⟩
  · rw [PackageDownloader.parseUrl_host_only _ scheme.data H.data ('/' :: P.data)
      (by simp [String.data_append]) hscheme hH1 hH2 (Or.inr ⟨_, rfl⟩)]
    simp
    rfl
  · rw [PackageDownloader.parseUrl_host_only _ scheme.data H.data []
      (by simp [String.data_append]) hscheme hH1 hH2 (Or.inl rfl)]
    simp
  · rw [PackageDownloader.parseUrl_host_port _ scheme.data H.data ('/' :: P.data) N
      (by simp [String.data_append]) hscheme hH1 hH2 hN hval (Or.inr ⟨_, rfl⟩)]
    simp
    rfl
  · rw [PackageDownloader.parseUrl_host_port _ scheme.data H.data [] N
      (by simp [String.data_append]) hscheme hH1 hH2 hN hval (Or.inl rfl)]
    simp

/-- Witness for C22: `https://mirror.example.org:8443/stable/packages.json`. -/
theorem parseUrl_decomposes_witness :
    PackageDownloader.parseUrl "https://mirror.example.org:8443/stable/packages.json" =
      some { host := "mirror.example.org", path := "/stable/packages.json", port := 8443,
             use_ssl := true } ∧
    PackageDownloader.parseUrl
        ("https" ++ "://" ++ "mirror.example.org" ++ ":" ++ "8443" ++ "/" ++
          "stable/packages.json") =
      some { host := "mirror.example.org", path := "/" ++ "stable/packages.json",
             port := decimalValue "8443", use_ssl := decide ("https" = "https") } :=
  ⟨by decide,
   (parseUrl_decomposes "https" "mirror.example.org" "stable/packages.json" "8443"
      (by decide) (by decide) (by decide) (by unfold IsDecimal; decide) (by decide)).2.2.1⟩

/-- C26.  When the names reached from `name` through stored dependency lists,
`name` itself left out, are fewer than `DEPENDENCY_RESOLUTION_DEPTH` (every
duplicate-free list of them is shorter), the loop of
`resolveDependencies(name, true)` ends within its fuel with an empty queue, and
the result holds exactly those names, each once, cycles or not. -/
theorem resolveDependencies_exact_below_bound (r : DependencyResolver) (name : String)
    (hfew : ∀ l : List String, l.Nodup → (∀ y ∈ l, y ≠ name ∧ Reaches r name y) →
      l.length < DEPENDENCY_RESOLUTION_DEPTH) :
    (∃ st, resolveLoop r.package_database true (DEPENDENCY_RESOLUTION_DEPTH + 2)
        { resolved := [], visited := [name], to_process := [name] } = some st ∧
      st.to_process = [] ∧ resolveDependencies r name true = st.resolved) ∧
    (resolveDependencies r name true).Nodup ∧
    ∀ y, y ∈ resolveDependencies r name true ↔ (y ≠ name ∧ Reaches r name y) := by
  obtain ⟨st, hst, hout⟩ := resolveDependencies_total r name true
  obtain ⟨hinv, hend⟩ := resolveLoop_inv r name _ _ st (resolveInv_init r name) hst
  have hlt : st.resolved.length < DEPENDENCY_RESOLUTION_DEPTH :=
    hfew st.resolved hinv.nodup
      (fun y hy => ⟨fun e => hinv.fresh (e ▸ hy), hinv.reach y hy⟩)
  have hq : st.to_process = [] := by
    rcases hend with h | h
    · exact h
    · exact absurd hlt h
  have hclosed : ∀ v ∈ st.visited, ∀ d ∈ depsOf r v, d ∈ st.visited := by
    intro v hv
    rcases hinv.closed v hv with h | h | h
    · rw [hq] at h
      cases h
    · cases h
    · exact h
  have hall : ∀ y, Reaches r name y → y ∈ st.visited := by
    intro y hy
    induction hy with
    | single h1 =>
      exact hclosed name ((hinv.visited_iff name).2 (Or.inl rfl)) _ h1
    | tail _ h2 ih => exact hclosed _ ih _ h2
  refine ⟨⟨st, hst, hq, hout⟩, by rw [hout]; exact hinv.nodup, ?_⟩
  intro y
  rw [hout]
  constructor
  · intro hy
    exact ⟨fun e => hinv.fresh (e ▸ hy), hinv.reach y hy⟩
  · rintro ⟨hne, hy⟩
    rcases (hinv.visited_iff y).1 (hall y hy) with h | h
    · exact absurd h hne
    · exact h

/-- Witness for C26: `A` depends on `B`, `B` on `A` and `C`, and `C` on itself;
from `A` the names `B` and `C` are reached, and they are the result. -/
theorem resolveDependencies_exact_below_bound_witness :
    resolveDependencies
        (addAll [pkgWithDeps "A" ["B"], pkgWithDeps "B" ["A", "C"], pkgWithDeps "C" ["C"]])
        "A" true = ["B", "C"] ∧
    ∀ y, y ∈ resolveDependencies
          (addAll [pkgWithDeps "A" ["B"], pkgWithDeps "B" ["A", "C"], pkgWithDeps "C" ["C"]])
          "A" true ↔
      (y ≠ "A" ∧ Reaches
        (addAll [pkgWithDeps "A" ["B"], pkgWithDeps "B" ["A", "C"], pkgWithDeps "C" ["C"]])
        "A" y) :=
  ⟨by decide,
   (resolveDependencies_exact_below_bound
      (addAll [pkgWithDeps "A" ["B"], pkgWithDeps "B" ["A", "C"], pkgWithDeps "C" ["C"]]) "A"
      (reachable_few_of_closed _ "A" ["A", "B", "C"] (by decide) (by decide))).2.2⟩

end elazar
